import Mathlib

/-!
# Verification development for `openmanus-go`

A shallow embedding of the orchestration core of the repository
(`internal/agent/base.go`, `internal/agent/manus.go`, `internal/agent/browser.go`,
`internal/agent/react.go`, `internal/agent/swe.go`, `internal/flow/flow.go`,
`internal/tool/tool.go`, the interface of `internal/llm/client.go`)
followed by theorems about it.

Conventions of the embedding

* A Go `string` is a Lean `String`; scanning functions work on its character list.
* A Go `error` is identified with the text its `Error()` method returns; `nil` is `none`.
* `AgentState` is a Go `int` with eight named constants, so it is embedded as `Int`.
* A method with a pointer receiver takes the receiver value and returns the updated one.
* The mutex `mu` only serialises callers and has no sequential content; it is not embedded.
* Wall-clock fields (`startTime`, `endTime`, `AgentEvent.Timestamp`) are not embedded.
* The buffered channel `eventChan` is embedded by its buffer and its capacity.  No receiver
  exists in the repository, so a send on a full buffer parks the caller: outcome `blocked`.
* External collaborators are embedded by what they return: a lifecycle hook by its error, a
  tool by a function of its input, the model client by the reply to its `k`-th call, an agent
  held by a flow by what its `Act` returns.
* The goroutines of `BaseFlow.Execute` are embedded by the order in which their sends arrive,
  a parameter of the method.
* The library calls `regexp.FindStringSubmatch` and `json.Unmarshal` are embedded from their
  documented behaviour, the former for the patterns the repository uses.
-/

set_option maxRecDepth 1000000
set_option exponentiation.threshold 2000

namespace Munus

/-! ## Outcomes of a call -/

/-- Go `error` values, identified with their message. -/
abbrev GoError := String

/-- Outcome of a call on a receiver of type `σ`: it returned `val`, it is parked forever on a
channel send, or it panicked.  Each outcome carries the receiver as the call left it. -/
inductive Exec (σ α : Type) where
  | done (val : α) (st : σ)
  | blocked (st : σ)
  | panicked (reason : String) (st : σ)

/-! ## JSON values as produced by `encoding/json` into `interface{}` -/

/-- The value `json.Unmarshal` stores in an `interface{}`: `nil`, `bool`, `float64`, `string`,
`[]interface{}` or `map[string]interface{}`.  A `float64` is represented by the validated decimal
lexeme it denotes (binary rounding is floating point and is not embedded); a map is represented by
its entries, keys pairwise distinct, in insertion order. -/
inductive JValue where
  | null
  | bool (b : Bool)
  | num (lexeme : String)
  | str (s : String)
  | arr (elems : List JValue)
  | obj (fields : List (String × JValue))

/-- Go `map[string]interface{}` (non-nil). -/
abbrev JObject := List (String × JValue)

/-! ## `internal/tool/tool.go` -/

/-- The `interface{}` argument handed to `Tool.Run`: the parsed argument map (possibly the nil
map) in `BaseAgent.Act`, `ManusAgent.Act`, `BrowserAgent.Act`, and the raw `Action Input` text in
`ReactAgent.Act`. -/
inductive ToolInput where
  | params (m : Option JObject)
  | text (s : String)

/-- The `interface{}` result of `Tool.Run`: a Go `string`, or any other value, given by its
`%v` rendering. -/
inductive ToolOutput where
  | str (s : String)
  | other (rendered : String)

/-- Rendering `fmt.Sprintf("%v", result)`. -/
def ToolOutput.render : ToolOutput → String
  | .str s => s
  | .other r => r

/-- Interface `Tool`; `Run` is an external collaborator, embedded as a function of its input. -/
structure Tool where
  Name : String
  Run : ToolInput → Except GoError ToolOutput

/-- Struct `ToolCollection`: the map `tools` as an association list with pairwise distinct keys
maintained by `Register` and `Remove`. -/
structure ToolCollection where
  tools : List (String × Tool)

/-- Map read `tc.tools[name]`. -/
def ToolCollection.lookup (tc : ToolCollection) (name : String) : Option Tool :=
  (tc.tools.find? (fun e => e.1 == name)).map (fun e => e.2)

def NewToolCollection : ToolCollection := { tools := [] }

/-- Method `Register`; the argument `tool` is an interface value, `none` for `nil`. -/
def ToolCollection.Register (tc : ToolCollection) (name : String) (tool : Option Tool) :
    Option GoError × ToolCollection :=
  match tool with
  | none => (some "工具不能为空", tc)
  | some t => (none, { tools := (name, t) :: tc.tools.filter (fun e => !(e.1 == name)) })

/-- Method `Get`. -/
def ToolCollection.Get (tc : ToolCollection) (name : String) : Except GoError Tool :=
  match tc.lookup name with
  | some tool => .ok tool
  | none => .error ("工具 " ++ name ++ " 不存在")

/-- Method `Remove`. -/
def ToolCollection.Remove (tc : ToolCollection) (name : String) :
    Option GoError × ToolCollection :=
  match tc.lookup name with
  | none => (some ("工具 " ++ name ++ " 不存在"), tc)
  | some _ => (none, { tools := tc.tools.filter (fun e => !(e.1 == name)) })

/-- Method `List`; Go leaves the iteration order of a map unspecified, the embedding uses the
order of the association list. -/
def ToolCollection.List (tc : ToolCollection) : List String :=
  tc.tools.map (fun e => e.1)

/-! ## `internal/llm/client.go` -/

/-- Struct `llm.Message`. -/
structure LLMMessage where
  Role : String
  Content : String

/-- What `GetCompletion` returns: an error, or a response with its `Choices` (the content of
each choice's message). -/
inductive LLMReply where
  | failure (err : GoError)
  | response (choices : List String)

/-- Interface `LLMClient`, an external collaborator: `replies k` is what the `k`-th call
returns; `requests` records the calls made so far, latest last. -/
structure LLMClient where
  replies : Nat → LLMReply
  requests : List (List LLMMessage)

/-- Method `GetCompletion`. -/
def LLMClient.GetCompletion (c : LLMClient) (messages : List LLMMessage) :
    LLMReply × LLMClient :=
  (c.replies c.requests.length, { c with requests := c.requests ++ [messages] })

/-! ## `internal/agent/base.go`: data model -/

/-- Type `AgentState int`. -/
abbrev AgentState := Int

abbrev Idle : AgentState := 0
abbrev Initializing : AgentState := 1
abbrev Running : AgentState := 2
abbrev Paused : AgentState := 3
abbrev Resuming : AgentState := 4
abbrev Finished : AgentState := 5
abbrev Error : AgentState := 6
abbrev Terminated : AgentState := 7

/-- Struct `Message`. -/
structure Message where
  Role : String
  Content : String
deriving DecidableEq

/-- Struct `Memory`. -/
structure Memory where
  Messages : List Message
deriving DecidableEq

def Memory.AddMessage (m : Memory) (msg : Message) : Memory :=
  { Messages := m.Messages ++ [msg] }

def Memory.LastMessage (m : Memory) : Option Message :=
  if m.Messages.length = 0 then none else m.Messages.getLast?

def NewMemory : Memory := { Messages := [] }

/-- Struct `AgentEvent` without its timestamp; `EventType` is the field `Type` and `Data` is
the map literal built by `SetState`. -/
structure AgentEvent where
  EventType : String
  Data : List (String × AgentState)
deriving DecidableEq

/-- One invocation of a lifecycle hook, `OnError` with the error it was handed. -/
inductive HookCall where
  | OnInit | OnStart | OnPause | OnResume | OnStop
  | OnError (err : Option GoError)
  | OnComplete
deriving DecidableEq

/-- Struct `AgentLifecycle`.  A field is `none` for a nil func; a registered hook is embedded by
the error it returns (`none` for nil), `OnError` as a function of the error it is handed. -/
structure AgentLifecycle where
  OnInit : Option (Option GoError)
  OnStart : Option (Option GoError)
  OnPause : Option (Option GoError)
  OnResume : Option (Option GoError)
  OnStop : Option (Option GoError)
  OnError : Option (Option GoError → Option GoError)
  OnComplete : Option (Option GoError)

/-- Struct `BaseAgent`.  `lifecycle` is the struct the non-nil pointer refers to; `eventChan`
is the channel buffer, oldest event first, with its capacity `eventChanCap`; `tools` is `none`
for a nil pointer.  `hookCalls` and `toolCalls` are traces added for verification: the hooks
and the tools invoked so far, latest last. -/
structure BaseAgent where
  Name : String
  Description : String
  State : AgentState
  MaxSteps : Int
  CurrentStep : Int
  Memory : Memory
  lifecycle : AgentLifecycle
  eventChan : List AgentEvent
  eventChanCap : Nat
  lastError : Option GoError
  llmClient : LLMClient
  tools : Option ToolCollection
  hookCalls : List HookCall
  toolCalls : List (String × ToolInput)

/-- Function `NewBaseAgent`. -/
def NewBaseAgent (name : String) (llmClient : LLMClient) (tools : Option ToolCollection) :
    BaseAgent :=
  { Name := name
    Description := ""
    State := Idle
    MaxSteps := 10
    CurrentStep := 0
    Memory := NewMemory
    lifecycle := ⟨none, none, none, none, none, none, none⟩
    eventChan := []
    eventChanCap := 100
    lastError := none
    llmClient := llmClient
    tools := tools
    hookCalls := []
    toolCalls := [] }

/-- Method `SetLifecycle` (with a non-nil argument). -/
def BaseAgent.SetLifecycle (a : BaseAgent) (lifecycle : AgentLifecycle) : BaseAgent :=
  { a with lifecycle := lifecycle }

/-- Method `EmitEvent`: the send `a.eventChan <- ev`; `none` when the buffer is full and the
send cannot complete. -/
def BaseAgent.EmitEvent (a : BaseAgent) (eventType : String) (data : List (String × AgentState)) :
    Option BaseAgent :=
  if a.eventChan.length < a.eventChanCap then
    some { a with eventChan := a.eventChan ++ [{ EventType := eventType, Data := data }] }
  else none

/-- Method `GetState`. -/
def BaseAgent.GetState (a : BaseAgent) : AgentState := a.State

/-- Method `GetLastError`. -/
def BaseAgent.GetLastError (a : BaseAgent) : Option GoError := a.lastError

/-- Method `GetName`. -/
def BaseAgent.GetName (a : BaseAgent) : String := a.Name

/-! ## `BaseAgent.SetState` -/

/-- Rendering of an `AgentState` by `%v`: the type has no `String` method, so its decimal. -/
def fmtState (s : AgentState) : String := toString s

/-- First `switch` of `SetState` (the transition rules): the error it returns, if any. -/
def transitionError (cur state : AgentState) : Option GoError :=
  if cur = Idle then
    if state ≠ Initializing ∧ state ≠ Terminated then
      some ("invalid state transition from Idle to " ++ fmtState state)
    else none
  else if cur = Initializing then
    if state ≠ Running ∧ state ≠ Error then
      some ("invalid state transition from Initializing to " ++ fmtState state)
    else none
  else if cur = Running then
    if state ≠ Paused ∧ state ≠ Finished ∧ state ≠ Error then
      some ("invalid state transition from Running to " ++ fmtState state)
    else none
  else if cur = Paused then
    if state ≠ Resuming ∧ state ≠ Terminated then
      some ("invalid state transition from Paused to " ++ fmtState state)
    else none
  else if cur = Resuming then
    if state ≠ Running ∧ state ≠ Error then
      some ("invalid state transition from Resuming to " ++ fmtState state)
    else none
  else if cur = Finished ∨ cur = Error ∨ cur = Terminated then
    some ("cannot transition from terminal state " ++ fmtState cur)
  else none

/-- One `case` of the second `switch` for a hook without argument: call it if registered and,
when `record` is set, store its error in `lastError` before returning it. -/
def callHook (a : BaseAgent) (hook : Option (Option GoError)) (call : HookCall)
    (record : Bool) : Option GoError × BaseAgent :=
  match hook with
  | none => (none, a)
  | some result =>
    let a1 := { a with hookCalls := a.hookCalls ++ [call] }
    match result with
    | none => (none, a1)
    | some err => (some err, if record then { a1 with lastError := some err } else a1)

/-- Second `switch` of `SetState` (the lifecycle hooks), on the target state. -/
def runLifecycle (a : BaseAgent) (state : AgentState) : Option GoError × BaseAgent :=
  if state = Initializing then callHook a a.lifecycle.OnInit .OnInit true
  else if state = Running then callHook a a.lifecycle.OnStart .OnStart true
  else if state = Paused then callHook a a.lifecycle.OnPause .OnPause true
  else if state = Resuming then callHook a a.lifecycle.OnResume .OnResume true
  else if state = Finished then callHook a a.lifecycle.OnComplete .OnComplete true
  else if state = Error then
    match a.lifecycle.OnError with
    | none => (none, a)
    | some hook =>
      ({ a with hookCalls := a.hookCalls ++ [.OnError a.lastError] } |> fun a1 =>
        (hook a.lastError, a1))
  else if state = Terminated then callHook a a.lifecycle.OnStop .OnStop false
  else (none, a)

/-- Method `SetState`. -/
def BaseAgent.SetState (a : BaseAgent) (state : AgentState) :
    Exec BaseAgent (Option GoError) :=
  match transitionError a.State state with
  | some err => .done (some err) a
  | none =>
    let oldState := a.State
    let a1 := { a with State := state }
    match a1.EmitEvent "state_change" [("old_state", oldState), ("new_state", state)] with
    | none => .blocked a1
    | some a2 =>
      let r := runLifecycle a2 state
      .done r.1 r.2

/-- A finite sequence of `SetState` calls, one per target, each on the agent the previous call
left: the values returned, in order, and the agent after the last call; `none` when one of the
calls does not return. -/
def BaseAgent.SetStateSeq (a : BaseAgent) : List AgentState →
    Option (List (Option GoError) × BaseAgent)
  | [] => some ([], a)
  | t :: ts =>
    match a.SetState t with
    | .done r a1 =>
      match BaseAgent.SetStateSeq a1 ts with
      | some (rs, a2) => some (r :: rs, a2)
      | none => none
    | _ => none

/-- Transition table of the specification (section 4.1): the legal targets of each state. -/
def legalTargets (s : AgentState) : List AgentState :=
  if s = Idle then [Initializing, Terminated]
  else if s = Initializing then [Running, Error]
  else if s = Running then [Paused, Finished, Error]
  else if s = Paused then [Resuming, Terminated]
  else if s = Resuming then [Running, Error]
  else []

/-- The eight named states. -/
def IsNamedState (s : AgentState) : Prop := 0 ≤ s ∧ s ≤ 7

instance (s : AgentState) : Decidable (IsNamedState s) := by
  unfold IsNamedState
  infer_instance

/-- The terminal states of the specification. -/
def IsTerminal (s : AgentState) : Prop := s = Finished ∨ s = Error ∨ s = Terminated

instance (s : AgentState) : Decidable (IsTerminal s) := by
  unfold IsTerminal
  infer_instance

/-- Every registered hook returns nil. -/
def AgentLifecycle.AllSucceed (l : AgentLifecycle) : Prop :=
  (∀ e, l.OnInit ≠ some (some e)) ∧
  (∀ e, l.OnStart ≠ some (some e)) ∧ (∀ e, l.OnPause ≠ some (some e)) ∧
  (∀ e, l.OnResume ≠ some (some e)) ∧ (∀ e, l.OnStop ≠ some (some e)) ∧
  (∀ e, l.OnComplete ≠ some (some e)) ∧ (∀ f, l.OnError = some f → ∀ e, f e = none)

/-- The hook the specification associates with a target state, as the result it gives when
invoked (`OnError` on the agent's last error); `none` when no hook is registered for it. -/
def AgentLifecycle.hookFor (l : AgentLifecycle) (state : AgentState)
    (lastError : Option GoError) : Option (Option GoError) :=
  if state = Initializing then l.OnInit
  else if state = Running then l.OnStart
  else if state = Paused then l.OnPause
  else if state = Resuming then l.OnResume
  else if state = Finished then l.OnComplete
  else if state = Error then l.OnError.map (fun f => f lastError)
  else if state = Terminated then l.OnStop
  else none

/-! ## `BaseAgent.IsStuck`, `BaseAgent.Think`, `BaseAgent.Run` -/

/-- The `for` loop of `IsStuck`: `before` holds the messages at indices `len-2, ..., 0` in this
order and `count` is the running counter. -/
def isStuckLoop (last : String) (duplicateThreshold : Int) : List Message → Int → Bool
  | [], _ => false
  | m :: before, count =>
    if m.Content = last then
      if count + 1 ≥ duplicateThreshold then true
      else isStuckLoop last duplicateThreshold before (count + 1)
    else isStuckLoop last duplicateThreshold before count

/-- Method `IsStuck`. -/
def BaseAgent.IsStuck (a : BaseAgent) (duplicateThreshold : Int) : Bool :=
  if a.Memory.Messages.length < 2 then false
  else
    match a.Memory.Messages.reverse with
    | [] => false
    | lastMsg :: before => isStuckLoop lastMsg.Content duplicateThreshold before 0

/-- Method `Think` of `BaseAgent`: `(false, nil)`. -/
def BaseAgent.Think (_a : BaseAgent) : Except GoError Bool := .ok false

/-- What one execution of `Run` observes from outside, by iteration number (the value of
`CurrentStep`): whether `ctx.Done()` is ready at the `select`, what `Think` returns and what
`Act` returns. -/
structure RunEnv where
  ctxDone : Nat → Bool
  think : Nat → Except GoError Bool
  act : Nat → Except GoError String

/-- The `for` loop of `Run`, entered with the loop variable `CurrentStep` already set; `n` bounds
the number of iterations still to run (`Run` passes `MaxSteps`). -/
def BaseAgent.runLoop (env : RunEnv) : Nat → BaseAgent → Exec BaseAgent (Option GoError)
  | 0, a => a.SetState Finished
  | n + 1, a =>
    if a.CurrentStep < a.MaxSteps then
      let k := a.CurrentStep.toNat
      if env.ctxDone k then a.SetState Terminated
      else
        match env.think k with
        | .error err => BaseAgent.SetState { a with lastError := some err } Error
        | .ok false => BaseAgent.runLoop env n { a with CurrentStep := a.CurrentStep + 1 }
        | .ok true =>
          match env.act k with
          | .error err => BaseAgent.SetState { a with lastError := some err } Error
          | .ok result =>
            let msg : Message := { Role := "assistant", Content := result }
            let a1 := { a with Memory := a.Memory.AddMessage msg }
            if a1.IsStuck 2 then a1.SetState Finished
            else BaseAgent.runLoop env n { a1 with CurrentStep := a1.CurrentStep + 1 }
    else a.SetState Finished

/-- Method `Run`, with the outcomes of the `Think` and `Act` calls taken from `env`. -/
def BaseAgent.RunWith (env : RunEnv) (a : BaseAgent) : Exec BaseAgent (Option GoError) :=
  match a.SetState Initializing with
  | .done (some err) a1 => .done (some err) a1
  | .blocked a1 => .blocked a1
  | .panicked r a1 => .panicked r a1
  | .done none a1 =>
    match a1.SetState Running with
    | .done (some err) a2 => .done (some err) a2
    | .blocked a2 => .blocked a2
    | .panicked r a2 => .panicked r a2
    | .done none a2 =>
      BaseAgent.runLoop env a2.MaxSteps.toNat { a2 with CurrentStep := 0 }

/-- Method `Run` as the repository executes it: the call `a.Think(ctx)` inside `Run` is
`BaseAgent.Think`, whatever type embeds the agent; `act` is what `a.Act(ctx, "")` returns. -/
def BaseAgent.Run (ctxDone : Nat → Bool) (act : Nat → Except GoError String) (a : BaseAgent) :
    Exec BaseAgent (Option GoError) :=
  a.RunWith { ctxDone := ctxDone, think := fun _ => a.Think, act := act }

/-- One pass through the body of the loop of `Run` that arrives at the post statement
`a.CurrentStep++`: the agent at the start of the next iteration.  The value is `none` when the
loop condition fails or the pass returns from `Run` (cancellation, a failure of `Think` or of
`Act`, a stall). -/
def BaseAgent.loopContinue (env : RunEnv) (a : BaseAgent) : Option BaseAgent :=
  if a.CurrentStep < a.MaxSteps then
    let k := a.CurrentStep.toNat
    if env.ctxDone k then none
    else
      match env.think k with
      | .error _ => none
      | .ok false => some { a with CurrentStep := a.CurrentStep + 1 }
      | .ok true =>
        match env.act k with
        | .error _ => none
        | .ok result =>
          let msg : Message := { Role := "assistant", Content := result }
          let a1 := { a with Memory := a.Memory.AddMessage msg }
          if a1.IsStuck 2 then none
          else some { a1 with CurrentStep := a1.CurrentStep + 1 }
  else none

/-- The agent at the start of the iteration that the loop of `Run` reaches after `j` passes
from the agent `a`, when it reaches it. -/
def BaseAgent.loopAfter (env : RunEnv) : Nat → BaseAgent → Option BaseAgent
  | 0, a => some a
  | j + 1, a =>
    match a.loopContinue env with
    | none => none
    | some b => BaseAgent.loopAfter env j b

/-- The agent after the state assignment and the event emission of `SetState`. -/
def afterEmit (a : BaseAgent) (T : AgentState) : BaseAgent :=
  { a with
    State := T
    eventChan := a.eventChan ++
      [{ EventType := "state_change", Data := [("old_state", a.State), ("new_state", T)] }] }

/-! ## `encoding/json`: the decoder behind `json.Unmarshal`

The decoder is a library the repository calls; it is embedded from its documented behaviour:
the JSON grammar of RFC 8259, the error values of the scanner, and the rules for storing into a
`map[string]interface{}`.  Input is a list of characters (valid UTF-8).  The scanner's limit on
the nesting depth (`maxNestingDepth`) is embedded.  The error texts are those of the scanner
and the decoder of the package (`scanner.go`, `decode.go`). -/

/-- Errors of `json.Unmarshal`: the two forms of `*SyntaxError` and `*UnmarshalTypeError`. -/
inductive JsonError where
  | unexpectedEnd
  | invalidChar (c : Char) (context : String)
  | typeMismatch (value : String) (goType : String)
deriving DecidableEq

/-- Lower-case hexadecimal digit of a number below 16. -/
def hexDigitChar (n : Nat) : Char :=
  if n < 10 then Char.ofNat (48 + n) else Char.ofNat (87 + n)

/-- The byte the scanner reports for a character: the first byte of its UTF-8 encoding. -/
def firstByte (c : Char) : Nat :=
  let v := c.toNat
  if v < 0x80 then v
  else if v < 0x800 then 0xC0 + v / 64
  else if v < 0x10000 then 0xE0 + v / 4096
  else 0xF0 + v / 262144

/-- Function `quoteChar` of the scanner, applied to the byte of a character. -/
def quoteChar (c : Char) : String :=
  let b := firstByte c
  if b = 39 then "'\\''"
  else if b = 34 then "'\"'"
  else if b = 7 then "'\\a'"
  else if b = 8 then "'\\b'"
  else if b = 12 then "'\\f'"
  else if b = 10 then "'\\n'"
  else if b = 13 then "'\\r'"
  else if b = 9 then "'\\t'"
  else if b = 11 then "'\\v'"
  else if b = 92 then "'\\\\'"
  else if b < 32 ∨ b = 127 then
    String.mk ['\'', '\\', 'x', hexDigitChar (b / 16), hexDigitChar (b % 16), '\'']
  else String.mk ['\'', Char.ofNat b, '\'']

/-- Method `Error` of the decoder's errors, with the texts of `scanner.go` and `decode.go`.  A
Go release that builds `encoding/json` on `encoding/json/v2` may word some diagnostics
differently (an invalid escape, a truncated literal, a number out of range, the depth limit);
the statements of the claims spell out a text only for the diagnostics
`unexpected end of JSON input`, `invalid character ... looking for beginning of ...` and
`cannot unmarshal ... into Go ...`. -/
def JsonError.Error : JsonError → String
  | .unexpectedEnd => "unexpected end of JSON input"
  | .invalidChar c context => "invalid character " ++ quoteChar c ++ " " ++ context
  | .typeMismatch value goType =>
    "json: cannot unmarshal " ++ value ++ " into Go value of type " ++ goType

/-- Function `isSpace` of the scanner. -/
def isSpace (c : Char) : Bool := c == ' ' || c == '\t' || c == '\r' || c == '\n'

/-- Skipping of insignificant white space. -/
def skipSpace (cs : List Char) : List Char := cs.dropWhile isSpace

/-- Value of a hexadecimal digit. -/
def hexVal (c : Char) : Option Nat :=
  if '0' ≤ c ∧ c ≤ '9' then some (c.toNat - 48)
  else if 'a' ≤ c ∧ c ≤ 'f' then some (c.toNat - 87)
  else if 'A' ≤ c ∧ c ≤ 'F' then some (c.toNat - 55)
  else none

/-- Function `getu4`: the code unit of an escape `\uXXXX` at the head of the input. -/
def getu4 : List Char → Option Nat
  | '\\' :: 'u' :: a :: b :: c :: d :: _ =>
    match hexVal a, hexVal b, hexVal c, hexVal d with
    | some x, some y, some z, some w => some (((x * 16 + y) * 16 + z) * 16 + w)
    | _, _, _, _ => none
  | _ => none

/-- Context of the errors inside a `\u` escape. -/
def uEscapeContext : String := "in \\u hexadecimal character escape"

/-- The character of a one-letter escape. -/
def simpleEscape (c : Char) : Option Char :=
  if c = '"' then some '"'
  else if c = '\\' then some '\\'
  else if c = '/' then some '/'
  else if c = 'b' then some (Char.ofNat 8)
  else if c = 'f' then some (Char.ofNat 12)
  else if c = 'n' then some '\n'
  else if c = 'r' then some '\r'
  else if c = 't' then some '\t'
  else none

/-- Prepend a decoded character to the result of scanning the rest of a string. -/
def consChar (c : Char) :
    Except JsonError (List Char × List Char) → Except JsonError (List Char × List Char)
  | .ok (s, rest) => .ok (c :: s, rest)
  | .error e => .error e

/-- The character a code unit of a `\u` escape stands for when it is the high half of a valid
surrogate pair with the code unit `next`, as `utf16.DecodeRune`. -/
def surrogatePair (r : Nat) (next : Option Nat) : Option Char :=
  match next with
  | some r2 =>
    if 0xD800 ≤ r ∧ r < 0xDC00 ∧ 0xDC00 ≤ r2 ∧ r2 < 0xE000 then
      some (Char.ofNat ((r - 0xD800) * 1024 + (r2 - 0xDC00) + 0x10000))
    else none
  | none => none

/-- One hexadecimal digit of a `\u` escape and the input after it. -/
def hexDigitAt (cs : List Char) : Except JsonError (Nat × List Char) :=
  match cs with
  | [] => .error (.invalidChar ' ' uEscapeContext)
  | h :: r =>
    match hexVal h with
    | some x => .ok (x, r)
    | none => .error (.invalidChar h uEscapeContext)

/-- The four hexadecimal digits of a `\u` escape: the code unit and the input after them. -/
def scanHex4 (cs : List Char) : Except JsonError (Nat × List Char) :=
  match hexDigitAt cs with
  | .error e => .error e
  | .ok (x1, r1) =>
    match hexDigitAt r1 with
    | .error e => .error e
    | .ok (x2, r2) =>
      match hexDigitAt r2 with
      | .error e => .error e
      | .ok (x3, r3) =>
        match hexDigitAt r3 with
        | .error e => .error e
        | .ok (x4, r4) => .ok (((x1 * 16 + x2) * 16 + x3) * 16 + x4, r4)

/-- One escape after its backslash (scanner states `stateInStringEsc`, `stateInStringEscU...`
and the decoding of `unquote`): the character it stands for and the input after it.  A code
unit in the surrogate range is combined with a following `\u` escape when the two form a valid
pair and is replaced by U+FFFD otherwise. -/
def decodeEscape (cs : List Char) : Except JsonError (Char × List Char) :=
  match cs with
  | [] => .error (.invalidChar ' ' "in string escape code")
  | e :: r1 =>
    if e = 'u' then
      match scanHex4 r1 with
      | .error err => .error err
      | .ok (r, r5) =>
        if 0xD800 ≤ r ∧ r < 0xE000 then
          match surrogatePair r (getu4 r5) with
          | some ch => .ok (ch, r5.drop 6)
          | none => .ok (Char.ofNat 0xFFFD, r5)
        else .ok (Char.ofNat r, r5)
    else
      match simpleEscape e with
      | some ch => .ok (ch, r1)
      | none => .error (.invalidChar e "in string escape code")

/-- A string literal after its opening quote (scanner state `stateInString` together with
`unquote`); `n` bounds the number of characters still to decode.  Result: the decoded
characters and the input after the closing quote. -/
def scanStringAux : Nat → List Char → Except JsonError (List Char × List Char)
  | 0, _ => .error .unexpectedEnd
  | _ + 1, [] => .error .unexpectedEnd
  | n + 1, c :: rest =>
    if c = '"' then .ok ([], rest)
    else if c = '\\' then
      match decodeEscape rest with
      | .error err => .error err
      | .ok (ch, r) => consChar ch (scanStringAux n r)
    else if c.toNat < 0x20 then .error (.invalidChar c "in string literal")
    else consChar c (scanStringAux n rest)

/-- A string literal after its opening quote.  Every step of `scanStringAux` consumes a
character, so the length of the input bounds the number of steps. -/
def scanString (cs : List Char) : Except JsonError (List Char × List Char) :=
  scanStringAux cs.length cs

/-- The digits at the head of the input and the input after them. -/
def spanDigits (cs : List Char) : List Char × List Char :=
  (cs.takeWhile Char.isDigit, cs.dropWhile Char.isDigit)

/-- The exponent part of a number (scanner states `stateE`, `stateESign`, `stateE0`) after the
lexeme `acc` read so far. -/
def scanExponent (acc : List Char) (cs : List Char) : Except JsonError (List Char × List Char) :=
  match cs with
  | [] => .ok (acc, cs)
  | e :: r =>
    if e = 'e' ∨ e = 'E' then
      let sr : List Char × List Char :=
        match r with
        | [] => ([], r)
        | s :: r1 => if s = '+' ∨ s = '-' then ([s], r1) else ([], r)
      match sr.2 with
      | [] => .error (.invalidChar ' ' "in exponent of numeric literal")
      | d :: _ =>
        if d.isDigit then .ok (acc ++ e :: sr.1 ++ (spanDigits sr.2).1, (spanDigits sr.2).2)
        else .error (.invalidChar d "in exponent of numeric literal")
    else .ok (acc, cs)

/-- The fraction part of a number (scanner states `stateDot`, `stateDot0`) and what follows. -/
def scanFraction (acc : List Char) (cs : List Char) : Except JsonError (List Char × List Char) :=
  match cs with
  | [] => .ok (acc, cs)
  | p :: r =>
    if p = '.' then
      match r with
      | [] => .error (.invalidChar ' ' "after decimal point in numeric literal")
      | d :: _ =>
        if d.isDigit then scanExponent (acc ++ '.' :: (spanDigits r).1) (spanDigits r).2
        else .error (.invalidChar d "after decimal point in numeric literal")
    else scanExponent acc cs

/-- The digits of a number after its optional sign `acc` (scanner states `stateNeg`, `state0`,
`state1`) and what follows. -/
def scanInteger (acc : List Char) (cs : List Char) : Except JsonError (List Char × List Char) :=
  match cs with
  | [] => .error (.invalidChar ' ' "in numeric literal")
  | d :: r =>
    if d = '0' then scanFraction (acc ++ ['0']) r
    else if d.isDigit then scanFraction (acc ++ d :: (spanDigits r).1) (spanDigits r).2
    else .error (.invalidChar d "in numeric literal")

/-- A number at the head of the input: its lexeme and the input after it. -/
def scanNumber (cs : List Char) : Except JsonError (List Char × List Char) :=
  match cs with
  | [] => .error .unexpectedEnd
  | c :: r => if c = '-' then scanInteger ['-'] r else scanInteger [] cs

/-- The rest of one of the literals `true`, `false`, `null` (scanner states `stateT`, ...):
`expected` are the characters still to come; result: the input after them. -/
def scanLiteral (name : String) : List Char → List Char → Except JsonError (List Char)
  | [], cs => .ok cs
  | e :: _, [] =>
    .error (.invalidChar ' ' ("in literal " ++ name ++ " (expecting " ++ quoteChar e ++ ")"))
  | e :: es, c :: cs =>
    if c = e then scanLiteral name es cs
    else .error (.invalidChar c ("in literal " ++ name ++ " (expecting " ++ quoteChar e ++ ")"))

/-- The number a string of decimal digits denotes. -/
def digitsToNat (ds : List Char) : Nat := ds.foldl (fun n d => 10 * n + (d.toNat - 48)) 0

/-- A number lexeme as `mantissa * 10 ^ exponent`, sign dropped. -/
def lexemeMantissaExponent (l : List Char) : Nat × Int :=
  let l1 := match l with
    | '-' :: r => r
    | _ => l
  let ip := (spanDigits l1).1
  let r1 := (spanDigits l1).2
  let fr : List Char × List Char := match r1 with
    | '.' :: r => spanDigits r
    | _ => ([], r1)
  let e : Int := match fr.2 with
    | _ :: '-' :: ds => - (digitsToNat ds : Int)
    | _ :: '+' :: ds => (digitsToNat ds : Int)
    | _ :: ds => (digitsToNat ds : Int)
    | [] => 0
  (digitsToNat (ip ++ fr.1), e - fr.1.length)

/-- Whether `strconv.ParseFloat(lexeme, 64)` reports a range error: the value is at least
`2^1024 - 2^970`, half an ulp above the largest `float64`. -/
def float64Overflows (l : List Char) : Bool :=
  let me := lexemeMantissaExponent l
  if 0 ≤ me.2 then decide (2 ^ 1024 - 2 ^ 970 ≤ me.1 * 10 ^ me.2.toNat)
  else decide ((2 ^ 1024 - 2 ^ 970) * 10 ^ (-me.2).toNat ≤ me.1)

/-- Map assignment `m[key] = value` on the entries of a map. -/
def setField (fields : List (String × JValue)) (key : String) (value : JValue) :
    List (String × JValue) :=
  match fields with
  | [] => [(key, value)]
  | (k, v) :: rest => if k = key then (k, value) :: rest else (k, v) :: setField rest key value

/-- The map built from the members of an object in source order. -/
def buildObject (members : List (String × JValue)) : List (String × JValue) :=
  members.foldl (fun m kv => setField m kv.1 kv.2) []

/-- Constant `maxNestingDepth` of the scanner: the number of objects and arrays that may be
open at a time. -/
def maxNestingDepth : Nat := 10000

mutual
/-- A value at the head of the input (white space already skipped).  `strict` selects the
decoding pass, in which a number outside `float64` is an error; without it the function is the
validity check of the scanner.  `depth` is the number of objects and arrays that are open (the
length of the scanner's `parseState`): the opening character of one more is an error when
`maxNestingDepth` are open (`pushParseState`).  The next argument bounds the number of nested
calls; twice the length of the input is never reached (`parseValue_fuel`). -/
def parseValue (strict : Bool) (depth : Nat) :
    Nat → List Char → Except JsonError (JValue × List Char)
  | 0, _ => .error .unexpectedEnd
  | n + 1, cs =>
    match cs with
    | [] => .error .unexpectedEnd
    | c :: rest =>
      if c = '{' then
        if maxNestingDepth ≤ depth then .error (.invalidChar c "exceeded max depth")
        else
          match skipSpace rest with
          | [] => .error .unexpectedEnd
          | c1 :: r1 =>
            if c1 = '}' then .ok (.obj [], r1)
            else
              match parseMembers strict (depth + 1) n (c1 :: r1) with
              | .ok (ms, r2) => .ok (.obj (buildObject ms), r2)
              | .error e => .error e
      else if c = '[' then
        if maxNestingDepth ≤ depth then .error (.invalidChar c "exceeded max depth")
        else
          match skipSpace rest with
          | [] => .error .unexpectedEnd
          | c1 :: r1 =>
            if c1 = ']' then .ok (.arr [], r1)
            else
              match parseElements strict (depth + 1) n (c1 :: r1) with
              | .ok (vs, r2) => .ok (.arr vs, r2)
              | .error e => .error e
      else if c = '"' then
        match scanString rest with
        | .ok (s, r1) => .ok (.str (String.mk s), r1)
        | .error e => .error e
      else if c = 't' then
        match scanLiteral "true" ['r', 'u', 'e'] rest with
        | .ok r1 => .ok (.bool true, r1)
        | .error e => .error e
      else if c = 'f' then
        match scanLiteral "false" ['a', 'l', 's', 'e'] rest with
        | .ok r1 => .ok (.bool false, r1)
        | .error e => .error e
      else if c = 'n' then
        match scanLiteral "null" ['u', 'l', 'l'] rest with
        | .ok r1 => .ok (.null, r1)
        | .error e => .error e
      else if c = '-' ∨ c.isDigit then
        match scanNumber cs with
        | .ok (l, r1) =>
          if strict ∧ float64Overflows l then
            .error (.typeMismatch ("number " ++ String.mk l) "float64")
          else .ok (.num (String.mk l), r1)
        | .error e => .error e
      else .error (.invalidChar c "looking for beginning of value")
/-- The elements of an array from the start of an element (white space already skipped) to the
closing bracket; `depth` counts the array. -/
def parseElements (strict : Bool) (depth : Nat) : Nat → List Char →
    Except JsonError (List JValue × List Char)
  | 0, _ => .error .unexpectedEnd
  | n + 1, cs =>
    match parseValue strict depth n cs with
    | .error e => .error e
    | .ok (v, r1) =>
      match skipSpace r1 with
      | [] => .error .unexpectedEnd
      | c :: r2 =>
        if c = ',' then
          match parseElements strict depth n (skipSpace r2) with
          | .ok (vs, r3) => .ok (v :: vs, r3)
          | .error e => .error e
        else if c = ']' then .ok ([v], r2)
        else .error (.invalidChar c "after array element")
/-- The members of an object from the start of a key (white space already skipped) to the
closing brace; `depth` counts the object. -/
def parseMembers (strict : Bool) (depth : Nat) : Nat → List Char →
    Except JsonError (List (String × JValue) × List Char)
  | 0, _ => .error .unexpectedEnd
  | n + 1, cs =>
    match cs with
    | [] => .error .unexpectedEnd
    | q :: r0 =>
      if q = '"' then
        match scanString r0 with
        | .error e => .error e
        | .ok (k, r1) =>
          match skipSpace r1 with
          | [] => .error .unexpectedEnd
          | c :: r2 =>
            if c = ':' then
              match parseValue strict depth n (skipSpace r2) with
              | .error e => .error e
              | .ok (v, r3) =>
                match skipSpace r3 with
                | [] => .error .unexpectedEnd
                | c1 :: r4 =>
                  if c1 = ',' then
                    match parseMembers strict depth n (skipSpace r4) with
                    | .ok (ms, r5) => .ok ((String.mk k, v) :: ms, r5)
                    | .error e => .error e
                  else if c1 = '}' then .ok ([(String.mk k, v)], r4)
                  else .error (.invalidChar c1 "after object key:value pair")
            else .error (.invalidChar c "after object key")
      else .error (.invalidChar q "looking for beginning of object key string")
end

/-- A whole document: one value surrounded by optional white space. -/
def parseDocument (strict : Bool) (data : List Char) : Except JsonError JValue :=
  match parseValue strict 0 (2 * data.length + 2) (skipSpace data) with
  | .error e => .error e
  | .ok (v, rest) =>
    match skipSpace rest with
    | [] => .ok v
    | c :: _ => .error (.invalidChar c "after top-level value")

/-- Rendering of the Go type `map[string]interface{}`. -/
def mapTypeName : String := "map[string]interface {}"

/-- Call `json.Unmarshal(data, &params)` with `params` a nil `map[string]interface{}`: the
validity check, then the store into the map.  `none` is the nil map, which JSON `null` gives.
(The last case is not reached: both passes read the same value.) -/
def jsonUnmarshalMap (data : String) : Except JsonError (Option JObject) :=
  match parseDocument false data.data with
  | .error e => .error e
  | .ok .null => .ok none
  | .ok (.bool _) => .error (.typeMismatch "bool" mapTypeName)
  | .ok (.num _) => .error (.typeMismatch "number" mapTypeName)
  | .ok (.str _) => .error (.typeMismatch "string" mapTypeName)
  | .ok (.arr _) => .error (.typeMismatch "array" mapTypeName)
  | .ok (.obj _) =>
    match parseDocument true data.data with
    | .error e => .error e
    | .ok (.obj fields) => .ok (some fields)
    | .ok _ => .error .unexpectedEnd

/-! ## `regexp`: the pattern of the action grammar -/

/-- Class `\w` of Go's `regexp`: an ASCII letter, an ASCII digit or the underscore. -/
def isWordChar (c : Char) : Bool := c.isAlphanum || c == '_'

/-- The input after the literal `lit`, when the input starts with it. -/
def dropLiteral : List Char → List Char → Option (List Char)
  | [], cs => some cs
  | _ :: _, [] => none
  | l :: ls, c :: cs => if l = c then dropLiteral ls cs else none

/-- A match of `Action: (\w+)\nAction Input: (.*)` starting at the head of the input: its two
submatches.  The greedy `\w+` can only end where the word characters end, since a newline must
follow it, and the greedy `.*` runs to the end of the line (`.` matches all but a newline). -/
def matchActionAt (cs : List Char) : Option (List Char × List Char) :=
  match dropLiteral "Action: ".data cs with
  | none => none
  | some r =>
    match r.takeWhile isWordChar with
    | [] => none
    | w :: ws =>
      match dropLiteral "\nAction Input: ".data (r.dropWhile isWordChar) with
      | none => none
      | some r1 => some (w :: ws, r1.takeWhile (fun c => c != '\n'))

/-- The submatches of the leftmost match of the pattern in the input, as
`regexp.FindStringSubmatch` finds it; `none` when there is no match. -/
def findActionMatch : List Char → Option (List Char × List Char)
  | [] => matchActionAt []
  | c :: cs =>
    match matchActionAt (c :: cs) with
    | some m => some m
    | none => findActionMatch cs

/-! ## `parseLLMAction`, the three copies -/

/-- Method `parseLLMAction` of `BaseAgent` (the receiver is not used).  The Go function returns
`(action, params, nil)` or `("", nil, err)`. -/
def BaseAgent.parseLLMAction (llmOutput : String) : Except GoError (String × Option JObject) :=
  match findActionMatch llmOutput.data with
  | none => .error ("无法解析 LLM 输出: " ++ llmOutput)
  | some (action, actionInput) =>
    match jsonUnmarshalMap (String.mk actionInput) with
    | .error err => .error ("解析工具参数失败: " ++ err.Error)
    | .ok params => .ok (String.mk action, params)

/-- Struct `ManusAgent`: the embedded `*BaseAgent` and the field `tools` of its own, which hides
the field of the same name of `BaseAgent`. -/
structure ManusAgent where
  base : BaseAgent
  tools : Option ToolCollection

/-- Function `NewManusAgent`: it sets the embedded agent only. -/
def NewManusAgent (llmClient : LLMClient) (tools : Option ToolCollection) : ManusAgent :=
  { base := NewBaseAgent "manus" llmClient tools, tools := none }

/-- Method `parseLLMAction` of `ManusAgent` (the receiver is not used). -/
def ManusAgent.parseLLMAction (llmOutput : String) : Except GoError (String × Option JObject) :=
  match findActionMatch llmOutput.data with
  | none => .error ("无法解析 LLM 输出: " ++ llmOutput)
  | some (action, actionInput) =>
    match jsonUnmarshalMap (String.mk actionInput) with
    | .error err => .error ("解析工具参数失败: " ++ err.Error)
    | .ok params => .ok (String.mk action, params)

/-- Struct `BrowserAgent`, like `ManusAgent`. -/
structure BrowserAgent where
  base : BaseAgent
  tools : Option ToolCollection

/-- Function `NewBrowserAgent`. -/
def NewBrowserAgent (llmClient : LLMClient) : BrowserAgent :=
  { base := NewBaseAgent "browser" llmClient (some NewToolCollection), tools := none }

/-- Method `parseLLMAction` of `BrowserAgent` (the receiver is not used). -/
def BrowserAgent.parseLLMAction (llmOutput : String) : Except GoError (String × Option JObject) :=
  match findActionMatch llmOutput.data with
  | none => .error ("无法解析 LLM 输出: " ++ llmOutput)
  | some (action, actionInput) =>
    match jsonUnmarshalMap (String.mk actionInput) with
    | .error err => .error ("解析工具参数失败: " ++ err.Error)
    | .ok params => .ok (String.mk action, params)

/-! ## `BaseAgent.Act`, `ManusAgent.Act`, `ReactAgent.Act` -/

/-- Function `strings.Contains`. -/
def hasSubstring (sub : List Char) : List Char → Bool
  | [] => (dropLiteral sub []).isSome
  | c :: cs => (dropLiteral sub (c :: cs)).isSome || hasSubstring sub cs

/-- The lines `- %s: %s` of `buildPrompt`.  The loop `for name, desc := range toolList` runs
over a slice, so `name` is the index, an `int` that `%s` renders as `%!s(int=N)`. -/
def toolDescs (toolList : List String) : List String :=
  toolList.enum.map (fun e => "- %!s(int=" ++ toString e.1 ++ "): " ++ e.2)

/-- Method `buildPrompt` of `BaseAgent`, given the result of `a.tools.List()`. -/
def buildPromptText (toolList : List String) (prompt : String) : String :=
  "你是一个智能助手，可以调用工具完成任务。请根据用户输入，选择合适的工具并执行。\n\n可用工具：\n" ++
    "\n".intercalate (toolDescs toolList) ++
    "\n\n请按照以下格式输出：\nThought: 思考下一步行动\nAction: 工具名称\nAction Input: \x7b\"参数1\": \"值1\", \"参数2\": \"值2\"\x7d\n\n用户输入：" ++
    prompt

/-- The prompt `handleToolResult` builds from a tool result. -/
def resultPromptText (result : String) : String :=
  "工具执行结果：" ++ result ++
    "\n\n请根据工具执行结果，决定下一步行动。如果需要继续调用工具，请按照以下格式输出：\nThought: 思考下一步行动\nAction: 工具名称\nAction Input: \x7b\"参数1\": \"值1\", \"参数2\": \"值2\"\x7d\n\n如果任务已完成，请直接输出最终结果。"

/-- Panic of a method call through a nil `*ToolCollection`. -/
def nilToolsPanic : String :=
  "runtime error: invalid memory address or nil pointer dereference"

/-- Panic of `llmResp.Choices[0]` on a response without choices. -/
def noChoicePanic : String := "runtime error: index out of range [0] with length 0"

/-- Result of `Act`: `none` when the bound on nested calls is used up, otherwise the outcome
of the call with the returned `(string, error)` pair as an `Except`. -/
abbrev ActResult (σ : Type) := Option (Exec σ (Except GoError String))

/-- Method `handleToolResult` of `BaseAgent`, with the method `Act` it calls back given as
`act`. -/
def BaseAgent.handleToolResultWith (act : BaseAgent → String → ActResult BaseAgent)
    (a : BaseAgent) (_prompt result : String) : ActResult BaseAgent :=
  let call := a.llmClient.GetCompletion [{ Role := "user", Content := resultPromptText result }]
  let a1 := { a with llmClient := call.2 }
  match call.1 with
  | .failure err => some (.done (.error ("LLM 调用失败: " ++ err)) a1)
  | .response [] => some (.panicked noChoicePanic a1)
  | .response (content :: _) =>
    if hasSubstring "Action:".data content.data then act a1 content
    else some (.done (.ok content) a1)

/-- Method `Act` of `BaseAgent`; the first argument bounds the depth of the mutual calls of
`Act` and `handleToolResult`. -/
def BaseAgent.Act : Nat → BaseAgent → String → ActResult BaseAgent
  | 0, _, _ => none
  | n + 1, a, prompt =>
    match a.tools with
    | none => some (.panicked nilToolsPanic a)
    | some tools =>
      let llmPrompt := buildPromptText tools.List prompt
      let call := a.llmClient.GetCompletion [{ Role := "user", Content := llmPrompt }]
      let a1 := { a with llmClient := call.2 }
      match call.1 with
      | .failure err => some (.done (.error ("LLM 调用失败: " ++ err)) a1)
      | .response [] => some (.panicked noChoicePanic a1)
      | .response (content :: _) =>
        match BaseAgent.parseLLMAction content with
        | .error err => some (.done (.error ("解析 LLM 输出失败: " ++ err)) a1)
        | .ok (action, actionInput) =>
          match tools.Get action with
          | .error _ => some (.done (.error ("未找到工具: " ++ action)) a1)
          | .ok tool =>
            let a2 := { a1 with toolCalls := a1.toolCalls ++ [(action, .params actionInput)] }
            match tool.Run (.params actionInput) with
            | .error err => some (.done (.error ("工具执行失败: " ++ err)) a2)
            | .ok result =>
              BaseAgent.handleToolResultWith (BaseAgent.Act n) a2 prompt result.render

/-- Method `handleToolResult` of `BaseAgent`. -/
def BaseAgent.handleToolResult (n : Nat) (a : BaseAgent) (prompt result : String) :
    ActResult BaseAgent :=
  BaseAgent.handleToolResultWith (BaseAgent.Act n) a prompt result

/-- The system prompt of `ManusAgent.Act`. -/
def manusSystemPrompt : String :=
  "你是一个强大的智能助手，擅长使用工具解决复杂问题。\n请仔细分析用户需求，选择合适的工具并执行。\n如果任务需要多个步骤，请一步一步来，确保每个步骤都正确执行。"

/-- Method `Act` of `ManusAgent`.  `a.llmClient` is the field of the embedded agent; `a.tools`
is the field of `ManusAgent` itself. -/
def ManusAgent.Act (a : ManusAgent) (prompt : String) :
    Exec ManusAgent (Except GoError String) :=
  let call := a.base.llmClient.GetCompletion
    [{ Role := "system", Content := manusSystemPrompt }, { Role := "user", Content := prompt }]
  let a1 : ManusAgent := { a with base := { a.base with llmClient := call.2 } }
  match call.1 with
  | .failure err => .done (.error ("LLM 调用失败: " ++ err)) a1
  | .response [] => .panicked noChoicePanic a1
  | .response (content :: _) =>
    match ManusAgent.parseLLMAction content with
    | .error err => .done (.error ("解析 LLM 输出失败: " ++ err)) a1
    | .ok (action, actionInput) =>
      match a1.tools with
      | none => .panicked nilToolsPanic a1
      | some tools =>
        match tools.Get action with
        | .error _ => .done (.error ("未找到工具: " ++ action)) a1
        | .ok tool =>
          let a2 : ManusAgent :=
            { a1 with base := { a1.base with
                toolCalls := a1.base.toolCalls ++ [(action, .params actionInput)] } }
          match tool.Run (.params actionInput) with
          | .error err => .done (.error ("工具执行失败: " ++ err)) a2
          | .ok result =>
            let call2 := a2.base.llmClient.GetCompletion
              [{ Role := "system", Content := manusSystemPrompt },
               { Role := "user",
                 Content := "任务: " ++ prompt ++ "\n工具执行结果: " ++ result.render ++
                   "\n请给出最终答案。" }]
            let a3 : ManusAgent := { a2 with base := { a2.base with llmClient := call2.2 } }
            match call2.1 with
            | .failure err => .done (.error ("LLM 调用失败: " ++ err)) a3
            | .response [] => .panicked noChoicePanic a3
            | .response (final :: _) => .done (.ok final) a3

/-- Struct `ReactAgent`: the embedded `*BaseAgent` and the field `Name` of its own, which hides
`BaseAgent.Name` and which `NewReactAgent` leaves empty.  The logger is not embedded. -/
structure ReactAgent where
  base : BaseAgent
  Name : String

/-- Function `NewReactAgent`. -/
def NewReactAgent (llmClient : LLMClient) (tools : Option ToolCollection) : ReactAgent :=
  { base := NewBaseAgent "react" llmClient tools, Name := "" }

/-- Method `GetName` of `ReactAgent`. -/
def ReactAgent.GetName (a : ReactAgent) : String := a.Name

/-- The input after the leftmost occurrence of the literal `lit`. -/
def findLiteral (lit : List Char) : List Char → Option (List Char)
  | [] => dropLiteral lit []
  | c :: cs =>
    match dropLiteral lit (c :: cs) with
    | some r => some r
    | none => findLiteral lit cs

/-- The first submatch of the leftmost match of `<label>(.*?)(?:\n|$)`: the lazy `.*?` stops at
the first newline or at the end of the text, so the match starts at the leftmost occurrence of
the label and captures the rest of that line. -/
def findLine (label : String) (output : List Char) : Option (List Char) :=
  (findLiteral label.data output).map (fun r => r.takeWhile (fun c => c != '\n'))

/-- Method `parseReActOutput` (the receiver is not used): thought, action, action input. -/
def ReactAgent.parseReActOutput (output : String) :
    Except GoError (String × String × String) :=
  match findLine "Thought: " output.data with
  | none => .error ("无法解析 Thought: " ++ output)
  | some thought =>
    match findLine "Action: " output.data with
    | none => .error ("无法解析 Action: " ++ output)
    | some action =>
      match findLine "Action Input: " output.data with
      | none => .error ("无法解析 Action Input: " ++ output)
      | some actionInput => .ok (String.mk thought, String.mk action, String.mk actionInput)

/-- The system prompt of `ReactAgent.Act`. -/
def reactSystemPrompt : String :=
  "你是一个采用 ReAct（Reasoning and Acting）范式的智能助手。\n请通过\"思考-行动-观察\"循环来解决问题。\n每一步都要先思考，再行动，然后观察结果，最后决定下一步。"

/-- The `for` loop of `ReactAgent.Act` with `n` rounds left and the conversation `messages`. -/
def ReactAgent.actLoop : Nat → ReactAgent → List LLMMessage →
    Exec ReactAgent (Except GoError String)
  | 0, a, _ => .done (.ok "达到最大步骤限制，任务未完成") a
  | n + 1, a, messages =>
    let call := a.base.llmClient.GetCompletion messages
    let a1 : ReactAgent := { a with base := { a.base with llmClient := call.2 } }
    match call.1 with
    | .failure err => .done (.error ("LLM 调用失败: " ++ err)) a1
    | .response [] => .panicked noChoicePanic a1
    | .response (content :: _) =>
      match ReactAgent.parseReActOutput content with
      | .error err => .done (.error ("解析 LLM 输出失败: " ++ err)) a1
      | .ok (thought, action, actionInput) =>
        if action = "Final Answer" then .done (.ok actionInput) a1
        else
          match a1.base.tools with
          | none => .panicked nilToolsPanic a1
          | some tools =>
            match tools.Get action with
            | .error _ => .done (.error ("未找到工具: " ++ action)) a1
            | .ok tool =>
              let a2 : ReactAgent :=
                { a1 with base := { a1.base with
                    toolCalls := a1.base.toolCalls ++ [(action, .text actionInput)] } }
              match tool.Run (.text actionInput) with
              | .error err => .done (.error ("工具执行失败: " ++ err)) a2
              | .ok result =>
                ReactAgent.actLoop n a2
                  (messages ++
                    [{ Role := "assistant",
                       Content := "Thought: " ++ thought ++ "\nAction: " ++ action ++
                         "\nAction Input: " ++ actionInput },
                     { Role := "system", Content := "Observation: " ++ result.render }])

/-- Method `Act` of `ReactAgent`. -/
def ReactAgent.Act (a : ReactAgent) (prompt : String) :
    Exec ReactAgent (Except GoError String) :=
  ReactAgent.actLoop 5 a
    [{ Role := "system", Content := reactSystemPrompt }, { Role := "user", Content := prompt }]

/-! ## Serialisation of an action into the grammar (specification side)

The specification speaks of a `{toolName, arguments}` pair "serialized into the fixed grammar":
the text `Action: <toolName>`, a newline, `Action Input: ` and the compact JSON object of the
arguments.  The definitions below are that serialisation; they are not part of the repository. -/

/-- A character inside a JSON string literal: quote, backslash and control characters are
escaped, anything else stands for itself. -/
def escapeChar (c : Char) : List Char :=
  if c = '"' then ['\\', '"']
  else if c = '\\' then ['\\', '\\']
  else if c.toNat < 0x20 then
    ['\\', 'u', '0', '0', hexDigitChar (c.toNat / 16), hexDigitChar (c.toNat % 16)]
  else [c]

/-- The body of a JSON string literal. -/
def escapeString : List Char → List Char
  | [] => []
  | c :: cs => escapeChar c ++ escapeString cs

/-- A JSON string literal. -/
def quoteString (s : String) : List Char := '"' :: (escapeString s.data ++ ['"'])

mutual
/-- Compact JSON text of a value: no white space between tokens. -/
def JValue.compact : JValue → List Char
  | .null => ['n', 'u', 'l', 'l']
  | .bool true => ['t', 'r', 'u', 'e']
  | .bool false => ['f', 'a', 'l', 's', 'e']
  | .num lexeme => lexeme.data
  | .str s => quoteString s
  | .arr elems => '[' :: compactElements elems
  | .obj fields => '{' :: compactMembers fields
/-- The elements of an array, separated by commas, and the closing bracket. -/
def compactElements : List JValue → List Char
  | [] => [']']
  | [v] => v.compact ++ [']']
  | v :: w :: vs => v.compact ++ ',' :: compactElements (w :: vs)
/-- The members of an object, separated by commas, and the closing brace. -/
def compactMembers : List (String × JValue) → List Char
  | [] => ['}']
  | [(k, v)] => quoteString k ++ ':' :: (v.compact ++ ['}'])
  | (k, v) :: m :: ms => quoteString k ++ ':' :: (v.compact ++ ',' :: compactMembers (m :: ms))
end

/-- Whether a text is the lexeme of a JSON number. -/
def isNumberLexeme (l : List Char) : Bool :=
  match scanNumber l with
  | .ok (l', []) => l' == l
  | _ => false

mutual
/-- Whether a value is one a Go program can hold in an `interface{}` filled by the decoder:
every number is the lexeme of a finite `float64`, and the keys of every map are pairwise
distinct. -/
def JValue.wellFormed : JValue → Bool
  | .num lexeme => isNumberLexeme lexeme.data && !float64Overflows lexeme.data
  | .arr elems => wellFormedElements elems
  | .obj fields => wellFormedMembers fields && decide ((fields.map Prod.fst).Nodup)
  | _ => true
/-- Every element is well formed. -/
def wellFormedElements : List JValue → Bool
  | [] => true
  | v :: vs => v.wellFormed && wellFormedElements vs
/-- Every member value is well formed. -/
def wellFormedMembers : List (String × JValue) → Bool
  | [] => true
  | (_, v) :: ms => v.wellFormed && wellFormedMembers ms
end

mutual
/-- The nesting depth of a value: the largest number of objects and arrays that are open at a
time in its text. -/
def JValue.depth : JValue → Nat
  | .arr elems => depthElements elems + 1
  | .obj fields => depthMembers fields + 1
  | _ => 0
/-- The largest nesting depth of an element. -/
def depthElements : List JValue → Nat
  | [] => 0
  | v :: vs => max v.depth (depthElements vs)
/-- The largest nesting depth of a member value. -/
def depthMembers : List (String × JValue) → Nat
  | [] => 0
  | (_, v) :: ms => max v.depth (depthMembers ms)
end

/-- Whether a tool name is a non-empty identifier: one or more word characters. -/
def isIdentifier (toolName : String) : Bool :=
  !toolName.data.isEmpty && toolName.data.all isWordChar

/-- The two lines of the action grammar for a tool name and an argument map. -/
def actionLines (toolName : String) (args : JObject) : String :=
  "Action: " ++ toolName ++ "\nAction Input: " ++ String.mk (JValue.obj args).compact

/-- The model output for an action: the two lines, optionally preceded by a `Thought` line. -/
def actionText (thought : Option String) (toolName : String) (args : JObject) : String :=
  match thought with
  | none => actionLines toolName args
  | some t => "Thought: " ++ t ++ "\n" ++ actionLines toolName args

/-- A text at which a value ends: the end of the input, a comma or a closing bracket. -/
def endsValue : List Char → Bool
  | [] => true
  | c :: _ => c == ',' || c == ']' || c == '}'

/-- An argument map with a string, a number, a nested array and a nested map. -/
def sampleArgs : JObject :=
  [("path", .str "a \"b\"\n.txt"), ("count", .num "-12.5e3"),
   ("flags", .arr [.bool true, .null, .arr []]), ("opts", .obj [("deep", .obj [])])]

/-! ## `Run` of the agent variants

`ManusAgent.Run`, `BrowserAgent.Run` and `SWEAgent.Run` assign the field `State` directly and
start worker goroutines that each call `Step`.  The workers are
embedded as running one at a time, in an order that is a parameter where their calls differ;
finer interleavings of their model calls are not embedded.  The error a worker gets from `Step`
is only logged; a worker that panics ends the program. -/

/-- The workers of a `Run` method, one after another: `step a i` is the call of the worker
with argument `i` on the receiver `a`. -/
def runWorkers {σ α : Type} (step : σ → Nat → Exec σ α) : List Nat → σ → Exec σ Unit
  | [], a => .done () a
  | i :: rest, a =>
    match step a i with
    | .done _ a1 => runWorkers step rest a1
    | .blocked a1 => .blocked a1
    | .panicked reason a1 => .panicked reason a1

/-- Method `Think` of `ManusAgent`: `(true, nil)`. -/
def ManusAgent.Think (_a : ManusAgent) : Except GoError Bool := .ok true

/-- Method `Step` of `ManusAgent`. -/
def ManusAgent.Step (a : ManusAgent) : Exec ManusAgent (Except GoError String) :=
  match a.Think with
  | .error err => .done (.error err) a
  | .ok false => .done (.ok "Thinking complete - no action needed") a
  | .ok true => a.Act ""

/-- Method `Run` of `ManusAgent`: the three workers make the same call `a.Step(ctx)`. -/
def ManusAgent.Run (a : ManusAgent) : Exec ManusAgent (Option GoError) :=
  let a1 : ManusAgent := { a with base := { a.base with State := Running } }
  match runWorkers (fun b _ => b.Step) [1, 2, 3] a1 with
  | .blocked a2 => .blocked a2
  | .panicked reason a2 => .panicked reason a2
  | .done _ a2 => .done none { a2 with base := { a2.base with State := Finished } }

/-- The system prompt of `BrowserAgent.Act`. -/
def browserSystemPrompt : String :=
  "你是一个网页操作专家，擅长使用浏览器工具完成任务。\n你可以：\n1. 抓取网页内容\n2. 提取特定信息\n3. 分析网页结构\n4. 执行网页操作\n\n请根据用户需求，选择合适的工具并执行。"

/-- Method `Act` of `BrowserAgent`: the text of `ManusAgent.Act` with another system prompt. -/
def BrowserAgent.Act (a : BrowserAgent) (prompt : String) :
    Exec BrowserAgent (Except GoError String) :=
  let call := a.base.llmClient.GetCompletion
    [{ Role := "system", Content := browserSystemPrompt }, { Role := "user", Content := prompt }]
  let a1 : BrowserAgent := { a with base := { a.base with llmClient := call.2 } }
  match call.1 with
  | .failure err => .done (.error ("LLM 调用失败: " ++ err)) a1
  | .response [] => .panicked noChoicePanic a1
  | .response (content :: _) =>
    match BrowserAgent.parseLLMAction content with
    | .error err => .done (.error ("解析 LLM 输出失败: " ++ err)) a1
    | .ok (action, actionInput) =>
      match a1.tools with
      | none => .panicked nilToolsPanic a1
      | some tools =>
        match tools.Get action with
        | .error _ => .done (.error ("未找到工具: " ++ action)) a1
        | .ok tool =>
          let a2 : BrowserAgent :=
            { a1 with base := { a1.base with
                toolCalls := a1.base.toolCalls ++ [(action, .params actionInput)] } }
          match tool.Run (.params actionInput) with
          | .error err => .done (.error ("工具执行失败: " ++ err)) a2
          | .ok result =>
            let call2 := a2.base.llmClient.GetCompletion
              [{ Role := "system", Content := browserSystemPrompt },
               { Role := "user",
                 Content := "任务: " ++ prompt ++ "\n工具执行结果: " ++ result.render ++
                   "\n请给出最终答案。" }]
            let a3 : BrowserAgent := { a2 with base := { a2.base with llmClient := call2.2 } }
            match call2.1 with
            | .failure err => .done (.error ("LLM 调用失败: " ++ err)) a3
            | .response [] => .panicked noChoicePanic a3
            | .response (final :: _) => .done (.ok final) a3

/-- The prompt `Step` hands to `Act`: `fmt.Sprintf("执行第 %d 步", step)`. -/
def stepPrompt (step : Nat) : String := "执行第 " ++ toString step ++ " 步"

/-- Method `Step` of `BrowserAgent`; its `Think` returns nil. -/
def BrowserAgent.Step (a : BrowserAgent) (step : Nat) : Exec BrowserAgent (Option GoError) :=
  match a.Act (stepPrompt step) with
  | .done (.ok _) a1 => .done none a1
  | .done (.error err) a1 => .done (some err) a1
  | .blocked a1 => .blocked a1
  | .panicked reason a1 => .panicked reason a1

/-- Method `Run` of `BrowserAgent`; `order` is the order in which the workers for the steps 0
and 1 run. -/
def BrowserAgent.Run (a : BrowserAgent) (order : List Nat) :
    Exec BrowserAgent (Option GoError) :=
  let a1 : BrowserAgent := { a with base := { a.base with State := Running } }
  match runWorkers (fun b i => b.Step i) order a1 with
  | .blocked a2 => .blocked a2
  | .panicked reason a2 => .panicked reason a2
  | .done _ a2 => .done none { a2 with base := { a2.base with State := Finished } }

/-- Struct `SWEAgent`: the embedded `*BaseAgent` and its own field `tools`. -/
structure SWEAgent where
  base : BaseAgent
  tools : Option ToolCollection

/-- Function `NewSWEAgent`; the tools `&tool.ShellTool{}` and `&tool.FileTool{}` it registers
are external collaborators, given as arguments. -/
def NewSWEAgent (llmClient : LLMClient) (shellTool fileTool : Tool) : SWEAgent :=
  { base := NewBaseAgent "SWEAgent" llmClient (some NewToolCollection)
    tools := some
      ((NewToolCollection.Register "shell" (some shellTool)).2.Register "file"
        (some fileTool)).2 }

/-- Method `Act` of `SWEAgent` (the prompt is not used). -/
def SWEAgent.Act (a : SWEAgent) (_prompt : String) : Exec SWEAgent (Except GoError String) :=
  match a.tools with
  | none => .panicked nilToolsPanic a
  | some tools =>
    match tools.Get "shell" with
    | .error err => .done (.error err) a
    | .ok shellTool =>
      let a1 : SWEAgent :=
        { a with base := { a.base with
            toolCalls := a.base.toolCalls ++ [("shell", .text "echo 'SWEAgent 行动'")] } }
      match shellTool.Run (.text "echo 'SWEAgent 行动'") with
      | .error err => .done (.error err) a1
      | .ok result => .done (.ok ("SWEAgent 执行结果: " ++ result.render)) a1

/-- Method `Step` of `SWEAgent`; its `Think` returns nil. -/
def SWEAgent.Step (a : SWEAgent) (step : Nat) : Exec SWEAgent (Option GoError) :=
  match a.Act (stepPrompt step) with
  | .done (.ok _) a1 => .done none a1
  | .done (.error err) a1 => .done (some err) a1
  | .blocked a1 => .blocked a1
  | .panicked reason a1 => .panicked reason a1

/-- Method `Run` of `SWEAgent`. -/
def SWEAgent.Run (a : SWEAgent) (order : List Nat) : Exec SWEAgent (Option GoError) :=
  let a1 : SWEAgent := { a with base := { a.base with State := Running } }
  match runWorkers (fun b i => b.Step i) order a1 with
  | .blocked a2 => .blocked a2
  | .panicked reason a2 => .panicked reason a2
  | .done _ a2 => .done none { a2 with base := { a2.base with State := Finished } }

/-! ## `internal/flow/flow.go`

An agent held by a flow is embedded by what its method `Act` returns; the model calls an agent
makes are its own and are not recorded in the client of the flow.  The worker goroutines of
`Execute` send on two channels whose capacity is the number of workers, so no send parks; the
order in which the sends arrive is a parameter of `Execute`. -/

/-- Interface `agent.Agent` as `BaseFlow` uses it: `Act` maps the prompt to the pair it returns,
`(result, nil)` as `.ok result` and `(_, err)` as `.error err`. -/
structure Agent where
  Act : String → Except GoError String

/-- Struct `agentResult`. -/
structure agentResult where
  agentName : String
  result : String
deriving DecidableEq

/-- Struct `BaseFlow`.  `agents` holds the entries of the map, a key being looked up from the
front.  `actCalls` is a trace added for verification: the names of the agents on which `Act`
was called, latest last. -/
structure BaseFlow where
  agents : List (String × Agent)
  llmClient : LLMClient
  actCalls : List String

/-- Function `NewBaseFlow`. -/
def NewBaseFlow (agents : List (String × Agent)) (llmClient : LLMClient) : BaseFlow :=
  { agents := agents, llmClient := llmClient, actCalls := [] }

/-- Map index `f.agents[name]`: `none` for a missing key. -/
def BaseFlow.lookup (f : BaseFlow) (name : String) : Option Agent :=
  (f.agents.find? (fun e => e.1 == name)).map (fun e => e.2)

/-- The anonymous struct `response` of `analyzeTask`; a nil and an empty slice are both `[]`. -/
structure SelectionResponse where
  Agents : List String
  Reason : String
deriving DecidableEq

/-- Rendering of the type of `response`. -/
def responseTypeName : String :=
  "struct \x7b Agents []string \"json:\\\"agents\\\"\"; Reason string \"json:\\\"reason\\\"\" \x7d"

/-- Whether a character of an object key matches a character of a field name (a lower-case
ASCII letter) under the case folding of the decoder: equal up to ASCII case, or the long s
(U+017F) for `s`, or the Kelvin sign (U+212A) for `k`. -/
def foldsTo (fieldChar keyChar : Char) : Bool :=
  keyChar.toLower == fieldChar || (fieldChar == 's' && keyChar == Char.ofNat 0x17F) ||
    (fieldChar == 'k' && keyChar == Char.ofNat 0x212A)

/-- Whether an object key selects the struct field with the JSON name `field`. -/
def matchesField (field key : String) : Bool :=
  key.data.length == field.data.length && (List.zipWith foldsTo field.data key.data).all id

/-- The word by which `*UnmarshalTypeError` names a JSON value. -/
def JValue.kindName : JValue → String
  | .null => "null"
  | .bool _ => "bool"
  | .num _ => "number"
  | .str _ => "string"
  | .arr _ => "array"
  | .obj _ => "object"

/-- Message of the `*UnmarshalTypeError` for a value that does not fit a field of `response`. -/
def fieldTypeError (value field goType : String) : GoError :=
  "json: cannot unmarshal " ++ value ++ " into Go struct field ." ++ field ++ " of type " ++ goType

/-- Store of a JSON value into a Go `string` holding `old`: a string is stored, `null` has no
effect, any other value is a type error. -/
def storeString (field old : String) : JValue → Except GoError String
  | .str s => .ok s
  | .null => .ok old
  | v => .error (fieldTypeError v.kindName field "string")

/-- Store of the elements of a JSON array into a `[]string` that is nil or empty: each element
is appended, `null` leaving the appended element empty.  (Under a repeated key the decoder
stores into the slice the earlier member left, where a `null` element keeps the string that is
there; this reuse is not embedded: the array replaces the slice.) -/
def storeStrings (field : String) : List JValue → Except GoError (List String)
  | [] => .ok []
  | v :: vs =>
    match storeString field "" v with
    | .error e => .error e
    | .ok s =>
      match storeStrings field vs with
      | .error e => .error e
      | .ok ss => .ok (s :: ss)

/-- Store of one member of the top-level object into `response`: the key selects a field by
its JSON name, case folded; a member with any other key is skipped. -/
def storeMember (r : SelectionResponse) (member : String × JValue) :
    Except GoError SelectionResponse :=
  if matchesField "agents" member.1 then
    match member.2 with
    | .null => .ok { r with Agents := [] }
    | .arr elems =>
      match storeStrings "agents" elems with
      | .error e => .error e
      | .ok names => .ok { r with Agents := names }
    | v => .error (fieldTypeError v.kindName "agents" "[]string")
  else if matchesField "reason" member.1 then
    match storeString "reason" r.Reason member.2 with
    | .error e => .error e
    | .ok s => .ok { r with Reason := s }
  else .ok r

/-- Store of the members of the top-level object, in source order; the first type error is the
one reported. -/
def storeMembers (r : SelectionResponse) : List (String × JValue) →
    Except GoError SelectionResponse
  | [] => .ok r
  | m :: ms =>
    match storeMember r m with
    | .error e => .error e
    | .ok r1 => storeMembers r1 ms

/-- The members of a document that is an object, in source order with repeated keys kept. -/
def topLevelMembers (data : List Char) : Except JsonError (List (String × JValue)) :=
  match skipSpace data with
  | [] => .error .unexpectedEnd
  | _ :: rest =>
    match skipSpace rest with
    | [] => .error .unexpectedEnd
    | c1 :: r1 =>
      if c1 = '}' then .ok []
      else
        match parseMembers false 1 (2 * data.length + 1) (c1 :: r1) with
        | .error e => .error e
        | .ok (members, _) => .ok members

/-- Call `json.Unmarshal(data, &response)` on the zero `response`: the validity check, then
the store.  JSON `null` has no effect; any other value that is not an object is a type error. -/
def jsonUnmarshalResponse (data : String) : Except GoError SelectionResponse :=
  match parseDocument false data.data with
  | .error e => .error e.Error
  | .ok .null => .ok { Agents := [], Reason := "" }
  | .ok (.obj _) =>
    match topLevelMembers data.data with
    | .error e => .error e.Error
    | .ok members => storeMembers { Agents := [], Reason := "" } members
  | .ok v => .error (JsonError.typeMismatch v.kindName responseTypeName).Error

/-- The system prompt of `analyzeTask`. -/
def analyzeSystemPrompt : String :=
  "你是一个任务分析专家，需要分析用户任务并选择合适的智能体来执行。\n请仔细分析任务的特点和需求，选择最合适的智能体组合。\n\n可用的智能体及其特点：\n1. manus（基础智能体）\n   - 擅长使用工具解决复杂问题\n   - 适合需要多工具协作的任务\n   - 可以处理文件操作、代码生成等任务\n   - 适合需要精确执行的任务\n\n2. react（ReAct 智能体）\n   - 采用\"思考-行动-观察\"循环\n   - 适合需要多步骤推理的任务\n   - 可以处理需要反复尝试的任务\n   - 适合需要探索性解决的任务\n\n3. browser（网页操作智能体）\n   - 擅长网页内容抓取和分析\n   - 适合需要获取网页信息的任务\n   - 可以处理网页交互和自动化操作\n   - 适合需要网页数据提取的任务\n\n请分析任务，并返回需要参与的智能体列表（JSON 格式）。\n返回格式示例：\n\x7b\n    \"agents\": [\"manus\", \"react\"],\n    \"reason\": \"任务需要多步骤推理和工具使用\"\n\x7d"

/-- The messages of the model call of `analyzeTask`. -/
def analyzeMessages (prompt : String) : List LLMMessage :=
  [{ Role := "system", Content := analyzeSystemPrompt }, { Role := "user", Content := prompt }]

/-- Method `analyzeTask`. -/
def BaseFlow.analyzeTask (f : BaseFlow) (prompt : String) :
    Exec BaseFlow (Except GoError (List String)) :=
  let call := f.llmClient.GetCompletion (analyzeMessages prompt)
  let f1 := { f with llmClient := call.2 }
  match call.1 with
  | .failure err => .done (.error ("LLM 调用失败: " ++ err)) f1
  | .response [] => .panicked noChoicePanic f1
  | .response (content :: _) =>
    match jsonUnmarshalResponse content with
    | .error err => .done (.error ("解析智能体列表失败: " ++ err)) f1
    | .ok response =>
      match response.Agents.find? (fun agentName => (f.lookup agentName).isNone) with
      | some agentName => .done (.error ("未知的智能体: " ++ agentName)) f1
      | none => .done (.ok response.Agents) f1

/-- The system prompt of `integrateResults`. -/
def integrateSystemPrompt : String :=
  "你是一个结果整合专家，需要整合多个智能体的执行结果，给出最终答案。\n请仔细分析每个智能体的输出，提取有用信息，并给出一个完整的、连贯的回答。"

/-- The text `integrateResults` writes for one result. -/
def resultSegment (r : agentResult) : String :=
  r.agentName ++ " 的结果：\n" ++ r.result ++ "\n\n"

/-- The messages of the model call of `integrateResults`. -/
def integrateMessages (prompt : String) (results : List agentResult) : List LLMMessage :=
  [{ Role := "system", Content := integrateSystemPrompt },
   { Role := "user",
     Content := "原始任务：" ++ prompt ++ "\n\n各智能体执行结果：\n" ++
       String.join (results.map resultSegment) }]

/-- Method `integrateResults`. -/
def BaseFlow.integrateResults (f : BaseFlow) (prompt : String) (results : List agentResult) :
    Exec BaseFlow (Except GoError String) :=
  let call := f.llmClient.GetCompletion (integrateMessages prompt results)
  let f1 := { f with llmClient := call.2 }
  match call.1 with
  | .failure err => .done (.error ("LLM 调用失败: " ++ err)) f1
  | .response [] => .panicked noChoicePanic f1
  | .response (content :: _) => .done (.ok content) f1

/-- What the worker goroutine for `name` sends once `Act` has returned: the result on
`resultChan` (`.ok`) or the wrapped error on `errorChan` (`.error`). -/
def workerSend (name : String) (outcome : Except GoError String) :
    Except GoError agentResult :=
  match outcome with
  | .error err => .error ("智能体 " ++ name ++ " 执行失败: " ++ err)
  | .ok result => .ok { agentName := name, result := result }

/-- The sends of the workers spawned for the selected names, by position in the selection;
`none` when a name has no entry in the map, where the call through the nil interface panics. -/
def BaseFlow.spawnWorkers (f : BaseFlow) (prompt : String) :
    List String → Option (List (Except GoError agentResult))
  | [] => some []
  | name :: rest =>
    match f.lookup name with
    | none => none
    | some agent =>
      match BaseFlow.spawnWorkers f prompt rest with
      | none => none
      | some sends => some (workerSend name (agent.Act prompt) :: sends)

/-- The value a send put on `resultChan`. -/
def sentResult : Except GoError agentResult → Option agentResult
  | .ok r => some r
  | .error _ => none

/-- The value a send put on `errorChan`. -/
def sentError : Except GoError agentResult → Option GoError
  | .ok _ => none
  | .error e => some e

/-- Method `Execute`.  `order` lists the positions of the workers in the order in which their
sends arrive, a permutation of the positions of the selection; the returned pair is the
`(string, error)` of the method. -/
def BaseFlow.Execute (f : BaseFlow) (order : List Nat) (prompt : String) :
    Exec BaseFlow (String × Option GoError) :=
  match f.analyzeTask prompt with
  | .blocked f1 => .blocked f1
  | .panicked reason f1 => .panicked reason f1
  | .done (.error err) f1 => .done ("", some ("任务分析失败: " ++ err)) f1
  | .done (.ok agents) f1 =>
    match f.spawnWorkers prompt agents with
    | none => .panicked nilToolsPanic f1
    | some sends =>
      let f2 := { f1 with actCalls := f1.actCalls ++ agents }
      let arrived := order.filterMap (fun i => sends[i]?)
      let results := arrived.filterMap sentResult
      let errors := arrived.filterMap sentError
      match errors with
      | err :: _ => .done ("", some err) f2
      | [] =>
        match f2.integrateResults prompt results with
        | .blocked f3 => .blocked f3
        | .panicked reason f3 => .panicked reason f3
        | .done (.error err) f3 => .done ("", some ("结果整合失败: " ++ err)) f3
        | .done (.ok finalResult) f3 => .done (finalResult, none) f3

/-- The flow after the model call of `analyzeTask`. -/
def BaseFlow.analyzed (f : BaseFlow) (prompt : String) : BaseFlow :=
  { f with llmClient := (f.llmClient.GetCompletion (analyzeMessages prompt)).2 }

/-- The flow after the workers for the selected names have run. -/
def BaseFlow.dispatched (f : BaseFlow) (prompt : String) (agents : List String) : BaseFlow :=
  { f.analyzed prompt with actCalls := f.actCalls ++ agents }

/-! ## Concrete agents used in the examples below -/

/-- A client whose every call fails. -/
def silentLLM : LLMClient := { replies := fun _ => .failure "no reply", requests := [] }

/-- A fresh agent, as `NewBaseAgent` builds it. -/
def freshAgent : BaseAgent := NewBaseAgent "worker" silentLLM (some NewToolCollection)

/-- One hundred legal transitions from `Idle`: start, 32 pause/resume cycles, one more pause
and resume. -/
def hundredTransitions : List AgentState :=
  [Initializing, Running] ++ (List.replicate 32 [Paused, Resuming, Running]).flatten ++
    [Paused, Resuming]

/-- The fresh agent after `hundredTransitions`. -/
def busyAgent : BaseAgent :=
  match freshAgent.SetStateSeq hundredTransitions with
  | some (_, a) => a
  | none => freshAgent

/-- The fresh agent put in `Finished`. -/
def finishedAgent : BaseAgent := { freshAgent with State := Finished }

/-- A fresh agent whose `OnInit` hook fails. -/
def failingInitAgent : BaseAgent :=
  freshAgent.SetLifecycle ⟨some (some "init failed"), none, none, none, none, none, none⟩

/-- A fresh agent whose `OnStop` hook fails. -/
def failingStopAgent : BaseAgent :=
  freshAgent.SetLifecycle ⟨none, none, none, none, some (some "stop failed"), none, none⟩

/-- An agent in `Running` whose last error is `"act failed"` and whose `OnError` hook fails. -/
def failingErrorAgent : BaseAgent :=
  { freshAgent with
    State := Running
    lastError := some "act failed"
    lifecycle := ⟨none, none, none, none, none, some (fun _ => some "handler failed"), none⟩ }

/-- A fresh agent whose log holds the given contents, all as assistant entries. -/
def agentWithLog (contents : List String) : BaseAgent :=
  { freshAgent with Memory := { Messages := contents.map (fun c => ⟨"assistant", c⟩) } }

/-- An execution in which the context is never cancelled, `Think` always asks to act and `Act`
always returns the same text. -/
def echoEnv : RunEnv :=
  { ctxDone := fun _ => false, think := fun _ => .ok true, act := fun _ => .ok "same" }

/-- What a call returned and the agent it left, when it returned. -/
def Exec.returned {σ α : Type} : Exec σ α → Option (α × σ)
  | .done v st => some (v, st)
  | _ => none

/-- The receiver as the call left it, whatever the outcome. -/
def Exec.agent {σ α : Type} : Exec σ α → σ
  | .done _ st => st
  | .blocked st => st
  | .panicked _ st => st

/-- A client that answers every call with the same single-choice response. -/
def replyingLLM (content : String) : LLMClient :=
  { replies := fun _ => .response [content], requests := [] }

/-- A tool that returns its name. -/
def echoTool (name : String) : Tool := { Name := name, Run := fun _ => .ok (.str name) }

/-- A collection holding the single tool `shell`. -/
def shellTools : ToolCollection := (NewToolCollection.Register "shell" (some (echoTool "shell"))).2

/-- The reason of a panic, when the call panicked. -/
def Exec.panicReason {σ α : Type} : Exec σ α → Option String
  | .panicked reason _ => some reason
  | _ => none

/-- The fresh agent once `Run` has started it: after `SetState(Initializing)` and
`SetState(Running)`. -/
def runningAgent : BaseAgent :=
  match freshAgent.SetStateSeq [Initializing, Running] with
  | some (_, a) => a
  | none => freshAgent

/-- An execution in which the context is never cancelled, `Think` always asks to act, and `Act`
returns `a`, then `b`, then fails with `tool down`; later calls would succeed. -/
def failingEnv : RunEnv :=
  { ctxDone := fun _ => false
    think := fun _ => .ok true
    act := fun i =>
      if i = 0 then .ok "a" else if i = 1 then .ok "b" else if i = 2 then .error "tool down"
      else .ok "c" }

/-- The log entries of an agent, as role and content. -/
def BaseAgent.logEntries (a : BaseAgent) : List (String × String) :=
  a.Memory.Messages.map (fun m => (m.Role, m.Content))

/-- A client that answers its `k`-th call with the `k`-th text of a script, as a single-choice
response, and fails once the script is used up. -/
def scriptedLLM (script : List String) : LLMClient :=
  { replies := fun k =>
      match script[k]? with
      | some content => .response [content]
      | none => .failure "script used up"
    requests := [] }

/-- The number of model calls recorded by the client of a `ReactAgent`. -/
def ReactAgent.modelCalls (a : ReactAgent) : Nat := a.base.llmClient.requests.length

/-- The model output of the claim on the terminal line: a `Thought` line followed by a
`Final Answer` line. -/
def finalAnswerText (thought answer : String) : String :=
  "Thought: " ++ thought ++ "\nFinal Answer: " ++ answer

/-- The agent after the model call of `handleToolResult` on the tool result `result`. -/
def afterResultCall (a : BaseAgent) (result : String) : BaseAgent :=
  { a with
    llmClient :=
      (a.llmClient.GetCompletion [{ Role := "user", Content := resultPromptText result }]).2 }

/-- An agent whose `Act` returns the same pair for every prompt. -/
def constAgent (outcome : Except GoError String) : Agent := { Act := fun _ => outcome }

/-- A flow over three agents: `manus` answers `R1`, `react` answers `R2`, `browser` fails; the
model of the flow follows a script. -/
def sampleFlow (script : List String) : BaseFlow :=
  NewBaseFlow
    [("manus", constAgent (.ok "R1")), ("react", constAgent (.ok "R2")),
     ("browser", constAgent (.error "page not found"))]
    (scriptedLLM script)

/-- The user messages of the model calls a flow has made, oldest first. -/
def BaseFlow.userMessages (f : BaseFlow) : List String :=
  f.llmClient.requests.map (fun messages => String.join
    ((messages.filter (fun m => m.Role == "user")).map (fun m => m.Content)))

/-- The hook invocations the specification expects from a transition to `state` on an agent
whose last error is `lastError`: the one hook of the target when it is registered, none
otherwise. -/
def AgentLifecycle.callsFor (l : AgentLifecycle) (state : AgentState)
    (lastError : Option GoError) : List HookCall :=
  if state = Initializing then (l.OnInit.map (fun _ => HookCall.OnInit)).toList
  else if state = Running then (l.OnStart.map (fun _ => HookCall.OnStart)).toList
  else if state = Paused then (l.OnPause.map (fun _ => HookCall.OnPause)).toList
  else if state = Resuming then (l.OnResume.map (fun _ => HookCall.OnResume)).toList
  else if state = Finished then (l.OnComplete.map (fun _ => HookCall.OnComplete)).toList
  else if state = Error then (l.OnError.map (fun _ => HookCall.OnError lastError)).toList
  else if state = Terminated then (l.OnStop.map (fun _ => HookCall.OnStop)).toList
  else []

/-- The agent `busyAgent` with an `OnStart` hook registered, which returns nil. -/
def hookedBusyAgent : BaseAgent :=
  busyAgent.SetLifecycle ⟨none, some none, none, none, none, none, none⟩

/-- The event `SetState` builds for a change from `old` to `new`. -/
def stateChangeEvent (old new : AgentState) : AgentEvent :=
  { EventType := "state_change", Data := [("old_state", old), ("new_state", new)] }

/-- The representation invariant of the map `tools`: no key occurs twice.  It holds of
`NewToolCollection` and is kept by `Register` and `Remove`. -/
def ToolCollection.WellFormed (tc : ToolCollection) : Prop := tc.List.Nodup

instance (tc : ToolCollection) : Decidable tc.WellFormed := by
  unfold ToolCollection.WellFormed
  infer_instance

/-- A collection holding the tools `shell` and `file`. -/
def twoTools : ToolCollection := (shellTools.Register "file" (some (echoTool "file"))).2

/-- A script for `BaseAgent.Act` with two dispatch rounds: an action, a follow-up reply that
holds the marker, a second action, and a final answer. -/
def twoRoundScript : List String :=
  ["Action: shell\nAction Input: \x7b\"cmd\": \"ls\"\x7d",
   "Thought: look closer\nAction: shell\nAction Input: \x7b\x7d",
   "Action: shell\nAction Input: \x7b\"cmd\": \"wc\"\x7d",
   "There are 3 files."]

/-- Whether some line of a text begins with the literal `lit` (specification side). -/
def someLineBegins (lit : List Char) (text : List Char) : Bool :=
  (text.splitOn '\n').any (fun line => (dropLiteral lit line).isSome)

/-- A `ManusAgent` built by its constructor and put in the state `state`. -/
def manusIn (state : AgentState) (llmClient : LLMClient) : ManusAgent :=
  { NewManusAgent llmClient (some shellTools) with
    base := { NewBaseAgent "manus" llmClient (some shellTools) with State := state } }

/-- A `BrowserAgent` built by its constructor and put in the state `state`. -/
def browserIn (state : AgentState) (llmClient : LLMClient) : BrowserAgent :=
  { NewBrowserAgent llmClient with
    base := { NewBaseAgent "browser" llmClient (some NewToolCollection) with State := state } }

/-- An `SWEAgent` built by its constructor and put in the state `state`. -/
def sweIn (state : AgentState) : SWEAgent :=
  { NewSWEAgent silentLLM (echoTool "shell") (echoTool "file") with
    base := { NewBaseAgent "SWEAgent" silentLLM (some NewToolCollection) with State := state } }

/-- The members of a reply that is a JSON object, in source order with repeated keys kept;
`none` when the reply is not a JSON object. -/
def replyMembers (content : String) : Option (List (String × JValue)) :=
  match parseDocument false content.data with
  | .ok (.obj _) =>
    match topLevelMembers content.data with
    | .ok members => some members
    | .error _ => none
  | _ => none

/-- Arrays nested `k + 1` deep: `[]`, `[[]]`, `[[[]]]`, ... -/
def nestedArrays : Nat → JValue
  | 0 => .arr []
  | k + 1 => .arr [nestedArrays k]

/-- An argument map whose one entry holds arrays nested 10000 deep; the map has depth 10001. -/
def deepArguments : JObject := [("a", nestedArrays 9999)]

/-! # Theorems -/

/-! ## The lifecycle state machine -/

theorem transitionError_eq_none_iff (S T : AgentState) (hS : IsNamedState S)
    (hT : IsNamedState T) : transitionError S T = none ↔ T ∈ legalTargets S := by
  obtain ⟨hS0, hS7⟩ := hS
  obtain ⟨hT0, hT7⟩ := hT
  interval_cases S <;> interval_cases T <;> simp [transitionError, legalTargets]

theorem transitionError_terminal (S T : AgentState) (hS : IsTerminal S) :
    ∃ e, transitionError S T = some e := by
  rcases hS with h | h | h <;> subst h <;> simp [transitionError]

theorem callHook_fst (a : BaseAgent) (hook : Option (Option GoError)) (call : HookCall)
    (record : Bool) : (callHook a hook call record).1 = hook.join := by
  unfold callHook
  rcases hook with _ | _ | e <;> rfl

theorem callHook_State (a : BaseAgent) (hook : Option (Option GoError)) (call : HookCall)
    (record : Bool) : (callHook a hook call record).2.State = a.State := by
  unfold callHook
  rcases hook with _ | _ | e <;> cases record <;> rfl

theorem runLifecycle_fst (a : BaseAgent) (state : AgentState) :
    (runLifecycle a state).1 = (a.lifecycle.hookFor state a.lastError).join := by
  unfold runLifecycle AgentLifecycle.hookFor
  split_ifs <;> simp only [callHook_fst]
  · cases a.lifecycle.OnError <;> rfl
  · rfl

theorem runLifecycle_State (a : BaseAgent) (state : AgentState) :
    (runLifecycle a state).2.State = a.State := by
  unfold runLifecycle
  split_ifs <;> simp only [callHook_State]
  · cases a.lifecycle.OnError <;> rfl

theorem hookFor_join_of_allSucceed (l : AgentLifecycle) (h : l.AllSucceed)
    (state : AgentState) (lastError : Option GoError) :
    (l.hookFor state lastError).join = none := by
  obtain ⟨h1, h2, h3, h4, h5, h6, h7⟩ := h
  have key : ∀ o : Option (Option GoError), (∀ e, o ≠ some (some e)) → o.join = none := by
    intro o ho
    rcases o with _ | _ | e
    · rfl
    · rfl
    · exact absurd rfl (ho e)
  unfold AgentLifecycle.hookFor
  split_ifs
  · exact key _ h1
  · exact key _ h2
  · exact key _ h3
  · exact key _ h4
  · exact key _ h6
  · cases hE : l.OnError with
    | none => rfl
    | some f => simp [h7 f hE]
  · exact key _ h5
  · rfl

/-- What `SetState` does on a rejected transition: it returns the error, agent untouched. -/
theorem SetState_of_transitionError (a : BaseAgent) (T : AgentState) (e : GoError)
    (h : transitionError a.State T = some e) : a.SetState T = .done (some e) a := by
  unfold BaseAgent.SetState
  rw [h]

theorem callHook_eventChan (a : BaseAgent) (hook : Option (Option GoError)) (call : HookCall)
    (record : Bool) : (callHook a hook call record).2.eventChan = a.eventChan := by
  unfold callHook
  rcases hook with _ | _ | e <;> cases record <;> rfl

theorem runLifecycle_eventChan (a : BaseAgent) (state : AgentState) :
    (runLifecycle a state).2.eventChan = a.eventChan := by
  unfold runLifecycle
  split_ifs <;> simp only [callHook_eventChan]
  · cases a.lifecycle.OnError <;> rfl

theorem SetState_accepted_eq (a : BaseAgent) (T : AgentState)
    (h : transitionError a.State T = none) (room : a.eventChan.length < a.eventChanCap) :
    a.SetState T = .done (runLifecycle (afterEmit a T) T).1 (runLifecycle (afterEmit a T) T).2 := by
  unfold BaseAgent.SetState
  rw [h]
  simp only [BaseAgent.EmitEvent, room, if_true]
  rfl

theorem SetState_blocked_eq (a : BaseAgent) (T : AgentState)
    (h : transitionError a.State T = none) (full : ¬ a.eventChan.length < a.eventChanCap) :
    a.SetState T = .blocked { a with State := T } := by
  unfold BaseAgent.SetState
  rw [h]
  simp only [BaseAgent.EmitEvent, full, if_false]

/-- What `SetState` does on an accepted transition when the event buffer has room. -/
theorem SetState_of_accepted (a : BaseAgent) (T : AgentState)
    (h : transitionError a.State T = none) (room : a.eventChan.length < a.eventChanCap) :
    ∃ a', a.SetState T = .done ((a.lifecycle.hookFor T a.lastError).join) a' ∧
      a'.State = T ∧
      a'.eventChan = a.eventChan ++
        [{ EventType := "state_change", Data := [("old_state", a.State), ("new_state", T)] }] := by
  refine ⟨(runLifecycle (afterEmit a T) T).2, ?_, ?_, ?_⟩
  · rw [SetState_accepted_eq a T h room, runLifecycle_fst]
    rfl
  · rw [runLifecycle_State]
    rfl
  · rw [runLifecycle_eventChan]
    rfl

/-- C1 (counterexample): a fresh agent with no hooks is taken through one hundred legal
transitions, each returning nil; it is then in `Resuming` with a full event buffer, `Running` is a
legal target, and `SetState(Running)` does not return: it is parked on the event send. -/
theorem SetState_legal_target_blocks :
    (freshAgent.SetStateSeq hundredTransitions).map (fun r => r.1) =
        some (List.replicate 100 none) ∧
      busyAgent.State = Resuming ∧ busyAgent.lifecycle.AllSucceed ∧
      Running ∈ legalTargets busyAgent.State ∧
      busyAgent.SetState Running = .blocked { busyAgent with State := Running } ∧
      ¬ ∃ a', busyAgent.SetState Running = .done none a' := by
  have hseq : (freshAgent.SetStateSeq hundredTransitions).map (fun r => r.1) =
      some (List.replicate 100 none) := by decide
  have hst : busyAgent.State = Resuming := by decide
  have hb : busyAgent.SetState Running = .blocked { busyAgent with State := Running } :=
    SetState_blocked_eq busyAgent Running (by decide) (by decide)
  refine ⟨hseq, hst, ?_, by decide, hb, ?_⟩
  · have hl : busyAgent.lifecycle = ⟨none, none, none, none, none, none, none⟩ := by rfl
    unfold AgentLifecycle.AllSucceed
    rw [hl]
    simp
  · rintro ⟨a', h⟩
    rw [hb] at h
    cases h

/-- C1 (amended): on an agent in one of the eight states whose hooks are absent or all succeed,
and for a target `T` among the eight states: when the event buffer has room for one more event,
`SetState(T)` returns nil iff `T` is in the legal-target set of the current state, and when it
returns nil the state is `T`; when `T` is not a legal target it returns an error and the agent is
unchanged; when `T` is a legal target and the event buffer is full the call does not return, it
is parked on the event send with the state already assigned. -/
theorem SetState_nil_iff_legal (a : BaseAgent) (T : AgentState)
    (hS : IsNamedState a.State) (hT : IsNamedState T) (hooks : a.lifecycle.AllSucceed) :
    (a.eventChan.length < a.eventChanCap →
        ((∃ a', a.SetState T = .done none a') ↔ T ∈ legalTargets a.State) ∧
        (∀ a', a.SetState T = .done none a' → a'.State = T)) ∧
      (T ∉ legalTargets a.State → ∃ e, a.SetState T = .done (some e) a) ∧
      (T ∈ legalTargets a.State → ¬ a.eventChan.length < a.eventChanCap →
        a.SetState T = .blocked { a with State := T }) := by
  have hiff := transitionError_eq_none_iff a.State T hS hT
  refine ⟨fun room => ⟨⟨?_, ?_⟩, ?_⟩, ?_, ?_⟩
  · rintro ⟨a', h⟩
    rw [← hiff]
    cases hte : transitionError a.State T with
    | none => rfl
    | some e =>
      rw [SetState_of_transitionError a T e hte] at h
      cases h
  · intro hleg
    obtain ⟨a', h, -, -⟩ := SetState_of_accepted a T (hiff.mpr hleg) room
    rw [hookFor_join_of_allSucceed _ hooks] at h
    exact ⟨a', h⟩
  · intro a' h
    cases hte : transitionError a.State T with
    | none =>
      obtain ⟨a'', h2, hst, -⟩ := SetState_of_accepted a T hte room
      rw [h2, hookFor_join_of_allSucceed _ hooks] at h
      cases h
      exact hst
    | some e =>
      rw [SetState_of_transitionError a T e hte] at h
      cases h
  · intro hnot
    cases hte : transitionError a.State T with
    | none => exact absurd (hiff.mp hte) hnot
    | some e => exact ⟨e, SetState_of_transitionError a T e hte⟩
  · intro hleg full
    exact SetState_blocked_eq a T (hiff.mpr hleg) full

/-- C1 (witness): the fresh agent and the legal target `Initializing`. -/
theorem SetState_nil_iff_legal_witness :
    (freshAgent.eventChan.length < freshAgent.eventChanCap →
        ((∃ a', freshAgent.SetState Initializing = .done none a') ↔
          Initializing ∈ legalTargets freshAgent.State) ∧
        (∀ a', freshAgent.SetState Initializing = .done none a' → a'.State = Initializing)) ∧
      (Initializing ∉ legalTargets freshAgent.State →
        ∃ e, freshAgent.SetState Initializing = .done (some e) freshAgent) ∧
      (Initializing ∈ legalTargets freshAgent.State →
        ¬ freshAgent.eventChan.length < freshAgent.eventChanCap →
        freshAgent.SetState Initializing = .blocked { freshAgent with State := Initializing }) :=
  SetState_nil_iff_legal freshAgent Initializing (by decide) (by decide)
    (by simp [AgentLifecycle.AllSucceed, freshAgent, NewBaseAgent])

/-! ### Terminal states -/

theorem SetStateSeq_terminal (a : BaseAgent) (hS : IsTerminal a.State) (ts : List AgentState) :
    ∃ rs, a.SetStateSeq ts = some (rs, a) ∧ rs.length = ts.length ∧ ∀ r ∈ rs, r ≠ none := by
  induction ts with
  | nil => exact ⟨[], rfl, rfl, by simp⟩
  | cons t ts ih =>
    obtain ⟨e, he⟩ := transitionError_terminal a.State t hS
    obtain ⟨rs, hrs, hlen, hall⟩ := ih
    refine ⟨some e :: rs, ?_, by simp [hlen], ?_⟩
    · simp only [BaseAgent.SetStateSeq, SetState_of_transitionError a t e he, hrs]
    · intro r hr
      rcases List.mem_cons.mp hr with h | h
      · simp [h]
      · exact hall r h

/-- C2: terminal states are absorbing under `SetState`.  From an agent whose state is `Finished`,
`Error` or `Terminated`, every call of every finite sequence of `SetState` calls with arbitrary
targets returns (none blocks), returns an error, and leaves the agent, hence its state, as it
was. -/
theorem SetState_terminal_absorbing (a : BaseAgent) (hS : IsTerminal a.State)
    (ts : List AgentState) :
    (∀ T, ∃ e, a.SetState T = .done (some e) a) ∧
      ∃ rs, a.SetStateSeq ts = some (rs, a) ∧ rs.length = ts.length ∧ ∀ r ∈ rs, r ≠ none := by
  refine ⟨fun T => ?_, SetStateSeq_terminal a hS ts⟩
  obtain ⟨e, he⟩ := transitionError_terminal a.State T hS
  exact ⟨e, SetState_of_transitionError a T e he⟩

/-- C2 (witness): the agent in `Finished` and the calls `SetState(Idle)`, `SetState(Running)`. -/
theorem SetState_terminal_absorbing_witness :
    (∀ T, ∃ e, finishedAgent.SetState T = .done (some e) finishedAgent) ∧
      ∃ rs, finishedAgent.SetStateSeq [Idle, Running] = some (rs, finishedAgent) ∧
        rs.length = [Idle, Running].length ∧ ∀ r ∈ rs, r ≠ none :=
  SetState_terminal_absorbing finishedAgent (by decide) [Idle, Running]

/-! ### Hook failures -/

/-- C3 (counterexample): on a fresh agent whose `OnInit` hook fails, the legal transition
`Idle -> Initializing` returns the hook's error and the state afterwards is `Initializing`,
not `Idle`. -/
theorem SetState_hook_failure_keeps_target :
    Initializing ∈ legalTargets failingInitAgent.State ∧
      failingInitAgent.lifecycle.hookFor Initializing failingInitAgent.lastError =
        some (some "init failed") ∧
      failingInitAgent.SetState Initializing =
        .done (some "init failed")
          { failingInitAgent with
            State := Initializing
            eventChan := [⟨"state_change", [("old_state", Idle), ("new_state", Initializing)]⟩]
            hookCalls := [.OnInit]
            lastError := some "init failed" } ∧
      failingInitAgent.State = Idle ∧ Initializing ≠ Idle := by
  refine ⟨by decide, rfl, rfl, rfl, by decide⟩

/-- C3 (amended): for every legal transition `S -> T` between named states whose registered hook
for `T` returns an error `e`, on an agent whose event buffer has room, `SetState(T)` returns `e`;
the transition is not undone: the state afterwards is `T` and the `state_change` event has been
sent. -/
theorem SetState_hook_failure (a : BaseAgent) (T : AgentState) (e : GoError)
    (hS : IsNamedState a.State) (hT : IsNamedState T) (hleg : T ∈ legalTargets a.State)
    (hhook : a.lifecycle.hookFor T a.lastError = some (some e))
    (room : a.eventChan.length < a.eventChanCap) :
    ∃ a', a.SetState T = .done (some e) a' ∧ a'.State = T ∧
      a'.eventChan = a.eventChan ++
        [{ EventType := "state_change", Data := [("old_state", a.State), ("new_state", T)] }] := by
  obtain ⟨a', h, hst, hev⟩ :=
    SetState_of_accepted a T ((transitionError_eq_none_iff a.State T hS hT).mpr hleg) room
  rw [hhook] at h
  exact ⟨a', h, hst, hev⟩

/-- C3 (witness): the fresh agent with a failing `OnInit` hook and the target `Initializing`. -/
theorem SetState_hook_failure_witness :
    ∃ a', failingInitAgent.SetState Initializing = .done (some "init failed") a' ∧
      a'.State = Initializing ∧
      a'.eventChan = failingInitAgent.eventChan ++
        [{ EventType := "state_change",
           Data := [("old_state", failingInitAgent.State), ("new_state", Initializing)] }] :=
  SetState_hook_failure failingInitAgent Initializing "init failed" (by decide) (by decide)
    (by decide) rfl (by decide)

/-- The five hooks whose failure is stored: after an accepted transition to `Initializing`,
`Running`, `Paused`, `Resuming` or `Finished` whose hook returns `e`, `GetLastError` is `e`. -/
theorem SetState_records_hook_error (a : BaseAgent) (T : AgentState) (e : GoError)
    (hT : T = Initializing ∨ T = Running ∨ T = Paused ∨ T = Resuming ∨ T = Finished)
    (hacc : transitionError a.State T = none)
    (hhook : a.lifecycle.hookFor T a.lastError = some (some e))
    (room : a.eventChan.length < a.eventChanCap) :
    ∃ a', a.SetState T = .done (some e) a' ∧ a'.GetLastError = some e := by
  refine ⟨(runLifecycle (afterEmit a T) T).2, ?_, ?_⟩
  · rw [SetState_accepted_eq a T hacc room, runLifecycle_fst]
    show Exec.done (a.lifecycle.hookFor T a.lastError).join _ = _
    rw [hhook]
    rfl
  · rcases hT with h | h | h | h | h <;> subst h <;>
      simp [AgentLifecycle.hookFor, Initializing, Running, Paused, Resuming, Finished]
        at hhook <;>
      simp [runLifecycle, afterEmit, callHook, hhook, BaseAgent.GetLastError, Initializing,
        Running, Paused, Resuming, Finished]

/-- C4 (the code at the failing inputs): a failing `OnStop` hook makes `SetState(Terminated)`
return its error while `GetLastError` afterwards is still nil; a failing `OnError` hook makes
`SetState(Error)` return its error while `GetLastError` is still the earlier error. -/
theorem SetState_stop_and_error_hooks_not_recorded :
    failingStopAgent.SetState Terminated =
        .done (some "stop failed")
          { failingStopAgent with
            State := Terminated
            eventChan := [⟨"state_change", [("old_state", Idle), ("new_state", Terminated)]⟩]
            hookCalls := [.OnStop]
            lastError := none } ∧
      failingErrorAgent.SetState Error =
        .done (some "handler failed")
          { failingErrorAgent with
            State := Error
            eventChan := [⟨"state_change", [("old_state", Running), ("new_state", Error)]⟩]
            hookCalls := [.OnError (some "act failed")]
            lastError := some "act failed" } :=
  ⟨rfl, rfl⟩

/-! ## The `Run` loop -/

/-- The bound passed to `runLoop` is enough: once it covers the iterations the loop condition
still allows, one more unit of it changes nothing. -/
theorem runLoop_succ (env : RunEnv) (n : Nat) (a : BaseAgent)
    (h : a.MaxSteps ≤ a.CurrentStep + n) :
    a.runLoop env (n + 1) = a.runLoop env n := by
  induction n generalizing a with
  | zero =>
    have hc : ¬ a.CurrentStep < a.MaxSteps := by omega
    simp only [BaseAgent.runLoop, hc, if_false]
  | succ n ih =>
    rw [BaseAgent.runLoop]
    conv_rhs => rw [BaseAgent.runLoop]
    by_cases hc : a.CurrentStep < a.MaxSteps
    · simp only [hc, if_true]
      have ih1 := ih { a with CurrentStep := a.CurrentStep + 1 } (by
        show a.MaxSteps ≤ a.CurrentStep + 1 + (n : Int)
        push_cast at h
        omega)
      split
      · rfl
      · cases env.think a.CurrentStep.toNat with
        | error err => rfl
        | ok act =>
          cases act with
          | false => exact ih1
          | true =>
            cases env.act a.CurrentStep.toNat with
            | error err => rfl
            | ok result =>
              simp only
              split
              · rfl
              · exact ih _ (by
                  show a.MaxSteps ≤ a.CurrentStep + 1 + (n : Int)
                  push_cast at h
                  omega)
    · simp only [hc, if_false]

/-! ## Stall detection -/

theorem isStuckLoop_iff (last : String) (th : Int) (l : List Message) (c : Int) (hc : c < th) :
    isStuckLoop last th l c = true ↔
      th ≤ c + (l.countP (fun m => decide (m.Content = last)) : Nat) := by
  induction l generalizing c with
  | nil => simp [isStuckLoop]; omega
  | cons m l ih =>
    unfold isStuckLoop
    by_cases hm : m.Content = last
    · simp only [hm, if_true, List.countP_cons_of_pos, decide_True]
      by_cases hge : c + 1 ≥ th
      · simp only [hge, if_true, true_iff]
        push_cast
        omega
      · simp only [hge, if_false]
        rw [ih (c + 1) (by omega)]
        push_cast
        omega
    · simp only [hm, if_false]
      rw [ih c hc]
      simp [List.countP_cons, hm]

theorem isStuckLoop_contents (last : String) (th : Int) (l l' : List Message) (c : Int)
    (h : l.map (fun m => m.Content) = l'.map (fun m => m.Content)) :
    isStuckLoop last th l c = isStuckLoop last th l' c := by
  induction l generalizing l' c with
  | nil =>
    cases l' with
    | nil => rfl
    | cons m' l' => simp at h
  | cons m l ih =>
    cases l' with
    | nil => simp at h
    | cons m' l' =>
      simp only [List.map_cons, List.cons.injEq] at h
      obtain ⟨hm, hl⟩ := h
      unfold isStuckLoop
      rw [← hm, ih l' (c + 1) hl, ih l' c hl]

theorem IsStuck_append_last (a : BaseAgent) (before : List Message) (last : Message)
    (th : Int) (h : a.Memory.Messages = before ++ [last]) :
    a.IsStuck th =
      if before.length < 1 then false
      else isStuckLoop last.Content th before.reverse 0 := by
  unfold BaseAgent.IsStuck
  rw [h]
  simp only [List.length_append, List.length_singleton, List.reverse_append,
    List.reverse_singleton, List.singleton_append]
  by_cases hb : before.length < 1
  · have : before.length + 1 < 2 := by omega
    simp [hb, this]
  · have : ¬ before.length + 1 < 2 := by omega
    simp [hb, this]

theorem IsStuck_eq_true_iff (a : BaseAgent) (th : Int) (hth : 1 ≤ th) :
    a.IsStuck th = true ↔
      2 ≤ a.Memory.Messages.length ∧
      ∃ before last, a.Memory.Messages = before ++ [last] ∧
        th ≤ (before.countP (fun m => decide (m.Content = last.Content)) : Nat) := by
  rcases List.eq_nil_or_concat a.Memory.Messages with hnil | ⟨before, last, hcat⟩
  · simp [BaseAgent.IsStuck, hnil]
  · rw [List.concat_eq_append] at hcat
    rw [IsStuck_append_last a before last th hcat]
    constructor
    · intro h
      by_cases hb : before.length < 1
      · simp [hb] at h
      · simp only [hb, if_false] at h
        rw [isStuckLoop_iff _ _ _ _ (by omega)] at h
        refine ⟨by rw [hcat]; simp; omega, before, last, hcat, ?_⟩
        simpa [List.countP_reverse] using h
    · rintro ⟨hlen, before', last', hcat', hcount⟩
      rw [hcat] at hcat'
      obtain ⟨hb, hl⟩ := List.append_inj' hcat' rfl
      simp only [List.cons.injEq, and_true] at hl
      subst hb hl
      have hb : ¬ before.length < 1 := by
        rw [hcat] at hlen
        simp at hlen
        omega
      simp only [hb, if_false]
      rw [isStuckLoop_iff _ _ _ _ (by omega)]
      simpa [List.countP_reverse] using hcount

theorem IsStuck_contents (a b : BaseAgent) (th : Int)
    (hb : b.Memory.Messages.map (fun m => m.Content) =
      a.Memory.Messages.map (fun m => m.Content)) :
    b.IsStuck th = a.IsStuck th := by
  rcases List.eq_nil_or_concat a.Memory.Messages with hnil | ⟨before, last, hcat⟩
  · rw [hnil] at hb
    have : b.Memory.Messages = [] := by simpa using hb
    simp [BaseAgent.IsStuck, hnil, this]
  · rw [List.concat_eq_append] at hcat
    rcases List.eq_nil_or_concat b.Memory.Messages with hnil' | ⟨before', last', hcat'⟩
    · rw [hnil', hcat] at hb
      simp at hb
    · rw [List.concat_eq_append] at hcat'
      rw [hcat, hcat'] at hb
      simp only [List.map_append, List.map_cons, List.map_nil] at hb
      obtain ⟨h1, h2⟩ := List.append_inj' hb rfl
      simp only [List.cons.injEq, and_true] at h2
      have hlen : before'.length = before.length := by
        have := congrArg List.length h1
        simpa using this
      rw [IsStuck_append_last a before last th hcat,
        IsStuck_append_last b before' last' th hcat', hlen, h2]
      congr 1
      apply isStuckLoop_contents
      rw [List.map_reverse, List.map_reverse, h1]

/-- C9: for every agent and every threshold at least 1, `IsStuck(threshold)` is true iff the log
is some messages `before`, at least one, followed by a last message, and the number of messages
of `before` whose content equals the last content is at least the threshold.  Roles are ignored:
two agents whose logs carry the same contents in the same order get the same answer.  (`IsStuck`
only reads the receiver, so it is embedded as a function to `Bool`; the log is not changed.) -/
theorem IsStuck_iff (a : BaseAgent) (th : Int) (hth : 1 ≤ th) :
    (a.IsStuck th = true ↔
        2 ≤ a.Memory.Messages.length ∧
        ∃ before last, a.Memory.Messages = before ++ [last] ∧
          th ≤ (before.countP (fun m => decide (m.Content = last.Content)) : Nat)) ∧
      (∀ b : BaseAgent,
        b.Memory.Messages.map (fun m => m.Content) = a.Memory.Messages.map (fun m => m.Content) →
        b.IsStuck th = a.IsStuck th) :=
  ⟨IsStuck_eq_true_iff a th hth, fun b hb => IsStuck_contents a b th hb⟩

/-- C9 (witness): the log `x, y, x, x` and threshold 2. -/
theorem IsStuck_iff_witness :
    ((agentWithLog ["x", "y", "x", "x"]).IsStuck 2 = true ↔
        2 ≤ (agentWithLog ["x", "y", "x", "x"]).Memory.Messages.length ∧
        ∃ before last, (agentWithLog ["x", "y", "x", "x"]).Memory.Messages = before ++ [last] ∧
          (2 : Int) ≤ (before.countP (fun m => decide (m.Content = last.Content)) : Nat)) ∧
      (∀ b : BaseAgent,
        b.Memory.Messages.map (fun m => m.Content) =
          (agentWithLog ["x", "y", "x", "x"]).Memory.Messages.map (fun m => m.Content) →
        b.IsStuck 2 = (agentWithLog ["x", "y", "x", "x"]).IsStuck 2) :=
  IsStuck_iff (agentWithLog ["x", "y", "x", "x"]) 2 (by decide)

/-- C10 (counterexample): a log of exactly two entries with identical content is not stuck at
threshold 2, and the loop does not stop on it: with `Act` always returning the same text, `Run` on
a fresh agent passes the iteration at which the log is `same, same` and returns only at
iteration 2, with three entries in the log. -/
theorem IsStuck_two_identical_false :
    (agentWithLog ["same", "same"]).IsStuck 2 = false ∧
      (freshAgent.RunWith echoEnv).returned.map
          (fun r => (r.1, r.2.State, r.2.CurrentStep, r.2.Memory.Messages.map (fun m => m.Content))) =
        some (none, Finished, 2, ["same", "same", "same"]) := by
  constructor <;> decide

theorem IsStuck_of_repeated_tail (a : BaseAgent) (pre tail : List Message) (c : String)
    (hmsgs : a.Memory.Messages = pre ++ tail) (hlen : 3 ≤ tail.length)
    (hsame : ∀ m ∈ tail, m.Content = c) : a.IsStuck 2 = true := by
  rcases List.eq_nil_or_concat tail with hnil | ⟨t1, last, hcat⟩
  · rw [hnil] at hlen
    simp at hlen
  · rw [List.concat_eq_append] at hcat
    subst hcat
    have hl : 2 ≤ t1.length := by
      simp at hlen
      omega
    have hlast : last.Content = c := hsame last (by simp)
    have hcount : t1.countP (fun m => decide (m.Content = last.Content)) = t1.length := by
      rw [List.countP_eq_length]
      intro m hm
      simp [hlast, hsame m (by simp [hm])]
    rw [IsStuck_eq_true_iff a 2 (by decide)]
    refine ⟨by rw [hmsgs]; simp; omega, pre ++ t1, last, by rw [hmsgs, List.append_assoc], ?_⟩
    rw [List.countP_append, hcount]
    push_cast
    omega

/-! ## The tool registry and the dispatch step -/

theorem lookup_eq_none_iff (tc : ToolCollection) (name : String) :
    tc.lookup name = none ↔ name ∉ tc.List := by
  unfold ToolCollection.lookup ToolCollection.List
  rw [Option.map_eq_none', List.find?_eq_none]
  simp only [beq_iff_eq, List.mem_map, not_exists, not_and]

/-- After `Register(n, t)` with a non-nil tool, `Get(n)` returns `t` and no error. -/
theorem Register_then_Get (tc : ToolCollection) (name : String) (t : Tool) :
    (tc.Register name (some t)).1 = none ∧ (tc.Register name (some t)).2.Get name = .ok t := by
  simp [ToolCollection.Register, ToolCollection.Get, ToolCollection.lookup]

/-- For a name that is not registered, `Get` returns the error naming it. -/
theorem Get_unregistered (tc : ToolCollection) (name : String) (h : name ∉ tc.List) :
    tc.Get name = .error ("工具 " ++ name ++ " 不存在") := by
  unfold ToolCollection.Get
  rw [(lookup_eq_none_iff tc name).mpr h]

/-- The dispatch step of `BaseAgent.Act` on a name that is not registered: the call returns
the not-found error with the requested name and no tool has been invoked. -/
theorem BaseAgent_Act_not_found (n : Nat) (a : BaseAgent) (prompt : String)
    (tc : ToolCollection) (content : String) (others : List String) (action : String)
    (input : Option JObject) (htools : a.tools = some tc)
    (hreply : a.llmClient.replies a.llmClient.requests.length = .response (content :: others))
    (hparse : BaseAgent.parseLLMAction content = .ok (action, input))
    (hname : action ∉ tc.List) :
    ∃ a', BaseAgent.Act (n + 1) a prompt = some (.done (.error ("未找到工具: " ++ action)) a') ∧
      a'.toolCalls = a.toolCalls := by
  refine ⟨{ a with llmClient := (a.llmClient.GetCompletion
    [{ Role := "user", Content := buildPromptText tc.List prompt }]).2 }, ?_, rfl⟩
  simp only [BaseAgent.Act, htools, LLMClient.GetCompletion, hreply, hparse,
    Get_unregistered tc action hname]

/-- The dispatch step of `ReactAgent.Act`, likewise, for an action other than `Final Answer`. -/
theorem ReactAgent_Act_not_found (a : ReactAgent) (prompt : String)
    (tc : ToolCollection) (content : String) (others : List String)
    (thought action input : String) (htools : a.base.tools = some tc)
    (hreply :
      a.base.llmClient.replies a.base.llmClient.requests.length = .response (content :: others))
    (hparse : ReactAgent.parseReActOutput content = .ok (thought, action, input))
    (hfinal : action ≠ "Final Answer") (hname : action ∉ tc.List) :
    ∃ a', a.Act prompt = .done (.error ("未找到工具: " ++ action)) a' ∧
      a'.base.toolCalls = a.base.toolCalls := by
  refine ⟨{ a with base := { a.base with llmClient := (a.base.llmClient.GetCompletion
    [{ Role := "system", Content := reactSystemPrompt },
     { Role := "user", Content := prompt }]).2 } }, ?_, rfl⟩
  simp only [ReactAgent.Act, ReactAgent.actLoop, htools, LLMClient.GetCompletion, hreply, hparse,
    hfinal, if_false, Get_unregistered tc action hname]

/-- The dispatch step of `ManusAgent.Act`, likewise, on an agent whose own field `tools` is
set. -/
theorem ManusAgent_Act_not_found (a : ManusAgent) (prompt : String)
    (tc : ToolCollection) (content : String) (others : List String) (action : String)
    (input : Option JObject) (htools : a.tools = some tc)
    (hreply :
      a.base.llmClient.replies a.base.llmClient.requests.length = .response (content :: others))
    (hparse : ManusAgent.parseLLMAction content = .ok (action, input))
    (hname : action ∉ tc.List) :
    ∃ a', a.Act prompt = .done (.error ("未找到工具: " ++ action)) a' ∧
      a'.base.toolCalls = a.base.toolCalls := by
  refine ⟨{ a with base := { a.base with llmClient := (a.base.llmClient.GetCompletion
    [{ Role := "system", Content := manusSystemPrompt },
     { Role := "user", Content := prompt }]).2 } }, ?_, rfl⟩
  simp only [ManusAgent.Act, htools, LLMClient.GetCompletion, hreply, hparse,
    Get_unregistered tc action hname]

/-- C8 (the code at the failing input): a `ManusAgent` built by `NewManusAgent` with a
collection holding `shell`, whose model answers with the action `search`, does not return the
not-found error from `Act`: the lookup goes through the agent's own nil field `tools` and
panics.  The same reply on the `BaseAgent` and on the `ReactAgent` built with the same
collection returns the not-found error naming `search`, with no tool invoked. -/
theorem ManusAgent_dispatch_panics :
    ((NewManusAgent (replyingLLM "Action: search\nAction Input: \x7b\x7d")
        (some shellTools)).Act "task").panicReason = some nilToolsPanic ∧
      ((BaseAgent.Act 1 (NewBaseAgent "base" (replyingLLM "Action: search\nAction Input: \x7b\x7d")
          (some shellTools)) "task").bind Exec.returned).map (fun r => (r.1, r.2.toolCalls.length)) =
        some (.error "未找到工具: search", 0) ∧
      ((NewReactAgent (replyingLLM "Thought: t\nAction: search\nAction Input: \x7b\x7d")
          (some shellTools)).Act "task").returned.map (fun r => (r.1, r.2.base.toolCalls.length)) =
        some (.error "未找到工具: search", 0) := by
  refine ⟨by rfl, by rfl, by rfl⟩


/-! ## The action parser: failures -/

theorem dropLiteral_append (lit rest : List Char) : dropLiteral lit (lit ++ rest) = some rest := by
  induction lit with
  | nil => cases rest <;> rfl
  | cons l ls ih => simp [dropLiteral, ih]

theorem hasSubstring_of_append (sub pre post : List Char) :
    hasSubstring sub (pre ++ (sub ++ post)) = true := by
  induction pre with
  | nil =>
    cases h : sub ++ post with
    | nil =>
      have hs : sub = [] := (List.append_eq_nil.mp h).1
      subst hs
      rfl
    | cons c cs =>
      simp only [List.nil_append, hasSubstring, Bool.or_eq_true]
      left
      rw [← h, dropLiteral_append]
      rfl
  | cons p pre ih =>
    simp only [List.cons_append, hasSubstring, Bool.or_eq_true]
    right
    exact ih

/-- Every successful result of `parseLLMAction` comes from a match of the two-line pattern whose
payload decodes: a nil map only from the payload `null`, a map only from a JSON object, whose
entries it holds. -/
theorem parseLLMAction_ok_cases (llmOutput action : String) (params : Option JObject)
    (h : BaseAgent.parseLLMAction llmOutput = .ok (action, params)) :
    ∃ name input, findActionMatch llmOutput.data = some (name, input) ∧ action = String.mk name ∧
      ((params = none ∧ parseDocument false input = .ok .null) ∨
        ∃ fields, params = some fields ∧ parseDocument true input = .ok (.obj fields)) := by
  unfold BaseAgent.parseLLMAction at h
  cases hm : findActionMatch llmOutput.data with
  | none => simp [hm] at h
  | some m =>
    obtain ⟨name, input⟩ := m
    simp only [hm] at h
    refine ⟨name, input, rfl, ?_⟩
    cases hj : jsonUnmarshalMap (String.mk input) with
    | error e => simp [hj] at h
    | ok p =>
      simp only [hj, Except.ok.injEq, Prod.mk.injEq] at h
      obtain ⟨hname, hp⟩ := h
      subst hp
      refine ⟨hname.symm, ?_⟩
      unfold jsonUnmarshalMap at hj
      split at hj
      · cases hj
      · cases hj
        left
        refine ⟨rfl, ?_⟩
        assumption
      · cases hj
      · cases hj
      · cases hj
      · cases hj
      · split at hj
        · cases hj
        · cases hj
          right
          refine ⟨_, rfl, ?_⟩
          assumption
        · cases hj

/-- C6 (the code at the failing input): the payload `null` is accepted, with a nil argument
map and no error.  The other payloads of the claim are rejected: an absent payload, malformed
JSON, an array, a number and a string. -/
theorem parseLLMAction_null_payload :
    BaseAgent.parseLLMAction "Action: shell\nAction Input: null" = .ok ("shell", none) ∧
      BaseAgent.parseLLMAction "Action: shell\nAction Input: " =
        .error "解析工具参数失败: unexpected end of JSON input" ∧
      BaseAgent.parseLLMAction "Action: shell\nAction Input: \x7b\"path\": \"a.txt\"" =
        .error "解析工具参数失败: unexpected end of JSON input" ∧
      BaseAgent.parseLLMAction "Action: shell\nAction Input: \x7bpath: 1\x7d" =
        .error
          "解析工具参数失败: invalid character 'p' looking for beginning of object key string" ∧
      BaseAgent.parseLLMAction "Action: shell\nAction Input: [1, 2]" =
        .error ("解析工具参数失败: json: cannot unmarshal array into Go value of type " ++
          "map[string]interface \x7b\x7d") ∧
      BaseAgent.parseLLMAction "Action: shell\nAction Input: 42" =
        .error ("解析工具参数失败: json: cannot unmarshal number into Go value of type " ++
          "map[string]interface \x7b\x7d") ∧
      BaseAgent.parseLLMAction "Action: shell\nAction Input: \"ls\"" =
        .error ("解析工具参数失败: json: cannot unmarshal string into Go value of type " ++
          "map[string]interface \x7b\x7d") := by
  refine ⟨by rfl, by rfl, by rfl, by rfl, by rfl, by rfl, by rfl⟩

/-- C7 (the code at the failing input): the payload `{"path": "a.txt"` is malformed JSON; the
error returned is the decoder's diagnostic behind a fixed prefix, and this message does not
contain the payload: it cannot be split into a text, the payload and a text.  The other failure
branch of the same function does carry the offending text: when the pattern does not match, the
message is a fixed prefix followed by the whole model output. -/
theorem parseLLMAction_json_error_lacks_payload :
    BaseAgent.parseLLMAction "Action: shell\nAction Input: \x7b\"path\": \"a.txt\"" =
        .error "解析工具参数失败: unexpected end of JSON input" ∧
      findActionMatch "Action: shell\nAction Input: \x7b\"path\": \"a.txt\"".data =
        some ("shell".data, "\x7b\"path\": \"a.txt\"".data) ∧
      hasSubstring "\x7b\"path\": \"a.txt\"".data
        "解析工具参数失败: unexpected end of JSON input".data = false ∧
      (¬ ∃ pre post : List Char, "解析工具参数失败: unexpected end of JSON input".data =
        pre ++ ("\x7b\"path\": \"a.txt\"".data ++ post)) ∧
      BaseAgent.parseLLMAction "Action: shell" = .error "无法解析 LLM 输出: Action: shell" ∧
      ∀ llmOutput : String, findActionMatch llmOutput.data = none →
        BaseAgent.parseLLMAction llmOutput = .error ("无法解析 LLM 输出: " ++ llmOutput) ∧
          hasSubstring llmOutput.data ("无法解析 LLM 输出: " ++ llmOutput).data = true := by
  have hsub : hasSubstring "\x7b\"path\": \"a.txt\"".data
      "解析工具参数失败: unexpected end of JSON input".data = false := by decide
  refine ⟨by rfl, by decide, hsub, ?_, by rfl, fun llmOutput h => ⟨?_, ?_⟩⟩
  · rintro ⟨pre, post, h⟩
    have := hasSubstring_of_append "\x7b\"path\": \"a.txt\"".data pre post
    rw [← h, hsub] at this
    cases this
  · simp only [BaseAgent.parseLLMAction, h]
  · rw [String.data_append]
    have := hasSubstring_of_append llmOutput.data "无法解析 LLM 输出: ".data []
    simpa using this

/-! ## The action parser: round trip

### String literals -/

theorem hexVal_hexDigitChar (n : Nat) (h : n < 16) : hexVal (hexDigitChar n) = some n := by
  interval_cases n <;> decide

theorem decodeEscape_control (n : Nat) (h : n < 32) (cs : List Char) :
    decodeEscape ('u' :: '0' :: '0' :: hexDigitChar (n / 16) :: hexDigitChar (n % 16) :: cs) =
      .ok (Char.ofNat n, cs) := by
  have h0 : hexVal '0' = some 0 := by decide
  have h1 : hexVal (hexDigitChar (n / 16)) = some (n / 16) := hexVal_hexDigitChar _ (by omega)
  have h2 : hexVal (hexDigitChar (n % 16)) = some (n % 16) := hexVal_hexDigitChar _ (by omega)
  have hr : ((0 * 16 + 0) * 16 + n / 16) * 16 + n % 16 = n := by omega
  have hs : ¬ (0xD800 ≤ n ∧ n < 0xE000) := by omega
  simp only [decodeEscape, scanHex4, hexDigitAt, h0, h1, h2, hr, hs, if_true, if_false]

theorem scanStringAux_escapeChar (n : Nat) (c : Char) (cs : List Char) :
    scanStringAux (n + 1) (escapeChar c ++ cs) = consChar c (scanStringAux n cs) := by
  unfold escapeChar
  by_cases h1 : c = '"'
  · subst h1
    simp [scanStringAux, decodeEscape, simpleEscape]
  · by_cases h2 : c = '\\'
    · subst h2
      simp [scanStringAux, decodeEscape, simpleEscape]
    · by_cases h3 : c.toNat < 0x20
      · simp only [h1, h2, h3, if_true, if_false, List.cons_append, List.nil_append]
        rw [scanStringAux]
        simp only [Char.reduceEq, if_true, if_false, decodeEscape_control c.toNat h3]
        simp
      · simp only [h1, h2, h3, if_false, List.singleton_append]
        rw [scanStringAux]
        simp only [h1, h2, h3, if_false]

theorem scanStringAux_escapeString (s rest : List Char) (n : Nat) (hn : s.length < n) :
    scanStringAux n (escapeString s ++ '"' :: rest) = .ok (s, rest) := by
  induction s generalizing n with
  | nil =>
    obtain ⟨m, rfl⟩ : ∃ m, n = m + 1 := ⟨n - 1, by simp at hn; omega⟩
    simp [escapeString, scanStringAux]
  | cons c s ih =>
    obtain ⟨m, rfl⟩ : ∃ m, n = m + 1 := ⟨n - 1, by simp at hn; omega⟩
    simp only [escapeString, List.append_assoc]
    rw [scanStringAux_escapeChar, ih m (by simp at hn; omega)]
    rfl

theorem length_escapeString (s : List Char) : s.length ≤ (escapeString s).length := by
  induction s with
  | nil => simp [escapeString]
  | cons c s ih =>
    have : 1 ≤ (escapeChar c).length := by
      unfold escapeChar
      split_ifs <;> simp
    simp only [escapeString, List.length_append, List.length_cons]
    omega

theorem scanString_escapeString (s rest : List Char) :
    scanString (escapeString s ++ '"' :: rest) = .ok (s, rest) := by
  unfold scanString
  apply scanStringAux_escapeString
  have := length_escapeString s
  simp only [List.length_append, List.length_cons]
  omega

/-! ### Numbers -/

theorem isDigit_false_of_endsValue (c : Char) (r : List Char) (h : endsValue (c :: r) = true) :
    c.isDigit = false ∧ c ≠ '.' ∧ c ≠ 'e' ∧ c ≠ 'E' ∧ isSpace c = false := by
  simp only [endsValue, Bool.or_eq_true, beq_iff_eq] at h
  rcases h with (rfl | rfl) | rfl <;> decide

theorem spanDigits_append (cs tail : List Char) (ht : endsValue tail = true) :
    spanDigits (cs ++ tail) = ((spanDigits cs).1, (spanDigits cs).2 ++ tail) := by
  unfold spanDigits
  induction cs with
  | nil =>
    cases tail with
    | nil => rfl
    | cons c r => simp [List.takeWhile, List.dropWhile, (isDigit_false_of_endsValue c r ht).1]
  | cons d cs ih =>
    by_cases hd : d.isDigit = true
    · simp only [List.cons_append, List.takeWhile_cons, List.dropWhile_cons, hd, if_true]
      simp only [Prod.mk.injEq] at ih ⊢
      exact ⟨by rw [ih.1], ih.2⟩
    · simp [List.takeWhile_cons, List.dropWhile_cons, hd]

theorem scanExponent_append (acc cs tail l rest : List Char)
    (h : scanExponent acc cs = .ok (l, rest)) (ht : endsValue tail = true) :
    scanExponent acc (cs ++ tail) = .ok (l, rest ++ tail) := by
  unfold scanExponent at h ⊢
  cases cs with
  | nil =>
    simp only [Except.ok.injEq, Prod.mk.injEq] at h
    obtain ⟨rfl, rfl⟩ := h
    cases tail with
    | nil => rfl
    | cons c r =>
      obtain ⟨-, -, h1, h2, -⟩ := isDigit_false_of_endsValue c r ht
      simp [h1, h2]
  | cons e r =>
    simp only [List.cons_append]
    by_cases he : e = 'e' ∨ e = 'E'
    · simp only [he, if_true] at h ⊢
      cases r with
      | nil => simp at h
      | cons s r1 =>
        simp only [List.cons_append]
        by_cases hs : s = '+' ∨ s = '-'
        · simp only [hs, if_true] at h ⊢
          cases r1 with
          | nil => simp at h
          | cons d r2 =>
            simp only [List.cons_append] at h ⊢
            by_cases hd : d.isDigit = true
            · simp only [hd, if_true, Except.ok.injEq, Prod.mk.injEq] at h ⊢
              rw [← List.cons_append, spanDigits_append _ _ ht]
              obtain ⟨rfl, rfl⟩ := h
              exact ⟨rfl, rfl⟩
            · simp [hd] at h
        · simp only [hs, if_false] at h ⊢
          by_cases hd : s.isDigit = true
          · simp only [hd, if_true, Except.ok.injEq, Prod.mk.injEq] at h ⊢
            rw [← List.cons_append, spanDigits_append _ _ ht]
            obtain ⟨rfl, rfl⟩ := h
            exact ⟨rfl, rfl⟩
          · simp [hd] at h
    · simp only [he, if_false, Except.ok.injEq, Prod.mk.injEq] at h ⊢
      obtain ⟨rfl, rfl⟩ := h
      exact ⟨rfl, rfl⟩

theorem scanFraction_append (acc cs tail l rest : List Char)
    (h : scanFraction acc cs = .ok (l, rest)) (ht : endsValue tail = true) :
    scanFraction acc (cs ++ tail) = .ok (l, rest ++ tail) := by
  unfold scanFraction at h ⊢
  cases cs with
  | nil =>
    have h' : scanExponent acc [] = .ok (l, rest) := h
    cases tail with
    | nil => simpa using h
    | cons c r =>
      obtain ⟨-, h0, -, -, -⟩ := isDigit_false_of_endsValue c r ht
      simp only [List.nil_append, h0, if_false]
      exact scanExponent_append acc [] (c :: r) l rest h' ht
  | cons p r =>
    simp only [List.cons_append]
    by_cases hp : p = '.'
    · simp only [hp, if_true] at h ⊢
      cases r with
      | nil => simp at h
      | cons d r2 =>
        simp only [List.cons_append] at h ⊢
        by_cases hd : d.isDigit = true
        · simp only [hd, if_true] at h ⊢
          rw [← List.cons_append, spanDigits_append _ _ ht]
          exact scanExponent_append _ _ _ _ _ h ht
        · simp [hd] at h
    · simp only [hp, if_false] at h ⊢
      exact scanExponent_append acc (p :: r) tail l rest h ht

theorem scanInteger_append (acc cs tail l rest : List Char)
    (h : scanInteger acc cs = .ok (l, rest)) (ht : endsValue tail = true) :
    scanInteger acc (cs ++ tail) = .ok (l, rest ++ tail) := by
  unfold scanInteger at h ⊢
  cases cs with
  | nil => simp at h
  | cons d r =>
    simp only [List.cons_append]
    by_cases h0 : d = '0'
    · simp only [h0, if_true] at h ⊢
      exact scanFraction_append _ _ _ _ _ h ht
    · simp only [h0, if_false] at h ⊢
      by_cases hd : d.isDigit = true
      · simp only [hd, if_true] at h ⊢
        rw [spanDigits_append _ _ ht]
        exact scanFraction_append _ _ _ _ _ h ht
      · simp [hd] at h

theorem scanNumber_append (cs tail l rest : List Char)
    (h : scanNumber cs = .ok (l, rest)) (ht : endsValue tail = true) :
    scanNumber (cs ++ tail) = .ok (l, rest ++ tail) := by
  unfold scanNumber at h ⊢
  cases cs with
  | nil => simp at h
  | cons c r =>
    simp only [List.cons_append]
    by_cases hc : c = '-'
    · simp only [hc, if_true] at h ⊢
      exact scanInteger_append _ _ _ _ _ h ht
    · simp only [hc, if_false] at h ⊢
      exact scanInteger_append [] (c :: r) tail l rest h ht

/-! ### Values -/

theorem skipSpace_cons (c : Char) (r : List Char) (h : isSpace c = false) :
    skipSpace (c :: r) = c :: r := by
  simp [skipSpace, List.dropWhile, h]

theorem scanNumber_head (c : Char) (r l rest : List Char)
    (h : scanNumber (c :: r) = .ok (l, rest)) : c = '-' ∨ c.isDigit = true := by
  unfold scanNumber at h
  by_cases hc : c = '-'
  · exact Or.inl hc
  · right
    simp only [hc, if_false] at h
    unfold scanInteger at h
    by_cases h0 : c = '0'
    · subst h0
      decide
    · simp only [h0, if_false] at h
      by_cases hd : c.isDigit = true
      · exact hd
      · simp [hd] at h

theorem isNumberLexeme_scan (l : List Char) (h : isNumberLexeme l = true) :
    scanNumber l = .ok (l, []) := by
  unfold isNumberLexeme at h
  split at h
  · rename_i l' heq
    have : l' = l := by simpa using h
    rw [heq, this]
  · cases h

theorem head_ne_of_number_start (c : Char) (h : c = '-' ∨ c.isDigit = true) :
    c ≠ '{' ∧ c ≠ '[' ∧ c ≠ '"' ∧ c ≠ 't' ∧ c ≠ 'f' ∧ c ≠ 'n' ∧ isSpace c = false ∧
      c ≠ ']' ∧ c ≠ '}' := by
  rcases h with rfl | h
  · decide
  · refine ⟨?_, ?_, ?_, ?_, ?_, ?_, ?_, ?_, ?_⟩
    all_goals first
      | (rintro rfl; exact absurd h (by decide))
      | (cases hs : isSpace c with
          | false => rfl
          | true =>
            simp only [isSpace, Bool.or_eq_true, beq_iff_eq] at hs
            rcases hs with ((rfl | rfl) | rfl) | rfl <;> exact absurd h (by decide))

theorem setField_append_of_not_mem (fields : List (String × JValue)) (k : String) (v : JValue)
    (h : k ∉ fields.map Prod.fst) : setField fields k v = fields ++ [(k, v)] := by
  induction fields with
  | nil => rfl
  | cons f fs ih =>
    obtain ⟨k', v'⟩ := f
    simp only [List.map_cons, List.mem_cons, not_or] at h
    simp only [setField, List.cons_append]
    rw [if_neg (fun heq => h.1 heq.symm), ih h.2]

theorem foldl_setField (acc members : List (String × JValue))
    (h : ((acc ++ members).map Prod.fst).Nodup) :
    members.foldl (fun m kv => setField m kv.1 kv.2) acc = acc ++ members := by
  induction members generalizing acc with
  | nil => simp
  | cons m ms ih =>
    obtain ⟨k, v⟩ := m
    have hk : k ∉ acc.map Prod.fst := by
      rw [List.map_append, List.nodup_append] at h
      intro hmem
      exact h.2.2 hmem (by simp)
    simp only [List.foldl_cons]
    rw [setField_append_of_not_mem acc k v hk, ih]
    · simp
    · simpa using h

theorem buildObject_of_nodup (members : List (String × JValue))
    (h : (members.map Prod.fst).Nodup) : buildObject members = members := by
  unfold buildObject
  rw [foldl_setField [] members (by simpa using h)]
  rfl

theorem compact_head : ∀ (v : JValue), v.wellFormed = true →
    ∃ c r, v.compact = c :: r ∧ isSpace c = false ∧ c ≠ ']' ∧ c ≠ '}'
  | .null, _ => ⟨'n', _, rfl, by decide, by decide, by decide⟩
  | .bool true, _ => ⟨'t', _, rfl, by decide, by decide, by decide⟩
  | .bool false, _ => ⟨'f', _, rfl, by decide, by decide, by decide⟩
  | .str _, _ => ⟨'"', _, rfl, by decide, by decide, by decide⟩
  | .arr _, _ => ⟨'[', _, rfl, by decide, by decide, by decide⟩
  | .obj _, _ => ⟨'{', _, rfl, by decide, by decide, by decide⟩
  | .num l, h => by
    simp only [JValue.wellFormed, Bool.and_eq_true] at h
    have hs := isNumberLexeme_scan l.data h.1
    cases hl : l.data with
    | nil =>
      rw [hl] at hs
      simp [scanNumber] at hs
    | cons c r =>
      rw [hl] at hs
      have := head_ne_of_number_start c (scanNumber_head c r _ _ hs)
      exact ⟨c, r, by simp [JValue.compact, hl], this.2.2.2.2.2.2.1, this.2.2.2.2.2.2.2.1,
        this.2.2.2.2.2.2.2.2⟩

theorem compactElements_head (vs : List JValue) (hne : vs ≠ [])
    (h : wellFormedElements vs = true) :
    ∃ c r, compactElements vs = c :: r ∧ isSpace c = false ∧ c ≠ ']' := by
  match vs, hne, h with
  | [v], _, h =>
    simp only [wellFormedElements, Bool.and_eq_true] at h
    obtain ⟨c, r, hc, h1, h2, -⟩ := compact_head v h.1
    exact ⟨c, r ++ [']'], by simp [compactElements, hc], h1, h2⟩
  | v :: w :: ws, _, h =>
    simp only [wellFormedElements, Bool.and_eq_true] at h
    obtain ⟨c, r, hc, h1, h2, -⟩ := compact_head v h.1
    exact ⟨c, r ++ ',' :: compactElements (w :: ws), by simp [compactElements, hc], h1, h2⟩

theorem compactMembers_head (fs : List (String × JValue)) (hne : fs ≠ []) :
    ∃ r, compactMembers fs = '"' :: r := by
  match fs, hne with
  | [(k, v)], _ => exact ⟨_, by simp [compactMembers, quoteString]; rfl⟩
  | (k, v) :: m :: ms, _ => exact ⟨_, by simp [compactMembers, quoteString]; rfl⟩

mutual
theorem parseValue_compact : ∀ (v : JValue) (strict : Bool) (d n : Nat) (rest : List Char),
    v.wellFormed = true → d + v.depth ≤ maxNestingDepth → v.compact.length < n →
    endsValue rest = true → parseValue strict d n (v.compact ++ rest) = .ok (v, rest)
  | .null, strict, d, n, rest, _, _, hn, _ => by
    obtain ⟨m, rfl⟩ : ∃ m, n = m + 1 := ⟨n - 1, by simp [JValue.compact] at hn; omega⟩
    simp only [JValue.compact, List.cons_append, List.nil_append]
    rw [parseValue]
    simp [scanLiteral]
  | .bool true, strict, d, n, rest, _, _, hn, _ => by
    obtain ⟨m, rfl⟩ : ∃ m, n = m + 1 := ⟨n - 1, by simp [JValue.compact] at hn; omega⟩
    simp only [JValue.compact, List.cons_append, List.nil_append]
    rw [parseValue]
    simp [scanLiteral]
  | .bool false, strict, d, n, rest, _, _, hn, _ => by
    obtain ⟨m, rfl⟩ : ∃ m, n = m + 1 := ⟨n - 1, by simp [JValue.compact] at hn; omega⟩
    simp only [JValue.compact, List.cons_append, List.nil_append]
    rw [parseValue]
    simp [scanLiteral]
  | .str s, strict, d, n, rest, _, _, hn, _ => by
    obtain ⟨m, rfl⟩ : ∃ m, n = m + 1 := ⟨n - 1, by simp [JValue.compact, quoteString] at hn; omega⟩
    simp only [JValue.compact, quoteString, List.cons_append, List.append_assoc,
      List.singleton_append]
    rw [parseValue]
    simp [scanString_escapeString]
  | .num l, strict, d, n, rest, hwf, _, hn, hrest => by
    simp only [JValue.wellFormed, Bool.and_eq_true, Bool.not_eq_true'] at hwf
    have hs := isNumberLexeme_scan l.data hwf.1
    cases hl : l.data with
    | nil =>
      rw [hl] at hs
      simp [scanNumber] at hs
    | cons c r =>
      have hn' : 0 < n := by simp [JValue.compact] at hn; omega
      obtain ⟨m, rfl⟩ : ∃ m, n = m + 1 := ⟨n - 1, by omega⟩
      have hhead := scanNumber_head c r _ _ (hl ▸ hs)
      obtain ⟨h1, h2, h3, h4, h5, h6, -⟩ := head_ne_of_number_start c hhead
      have happ := scanNumber_append l.data rest l.data [] hs hrest
      rw [hl] at happ
      simp only [JValue.compact, hl, List.cons_append]
      rw [parseValue]
      simp only [h1, h2, h3, h4, h5, h6, if_false, hhead, if_true]
      simp only [List.cons_append, List.nil_append] at happ
      rw [happ]
      have hov : float64Overflows (c :: r) = false := by rw [← hl]; exact hwf.2
      simp only [hov, Bool.false_eq_true, and_false, if_false]
      have : String.mk (c :: r) = l := by rw [← hl]
      rw [this]
  | .arr [], strict, d, n, rest, _, hd, hn, _ => by
    obtain ⟨m, rfl⟩ : ∃ m, n = m + 1 :=
      ⟨n - 1, by simp [JValue.compact, compactElements] at hn; omega⟩
    have hd' : ¬ maxNestingDepth ≤ d := by
      simp only [JValue.depth] at hd
      omega
    simp only [JValue.compact, compactElements, List.cons_append, List.nil_append]
    rw [parseValue]
    simp [skipSpace, isSpace, hd']
  | .arr (x :: xs), strict, d, n, rest, hwf, hd, hn, _ => by
    obtain ⟨m, rfl⟩ : ∃ m, n = m + 1 := ⟨n - 1, by simp [JValue.compact] at hn; omega⟩
    simp only [JValue.wellFormed] at hwf
    simp only [JValue.depth] at hd
    have hd' : ¬ maxNestingDepth ≤ d := by omega
    obtain ⟨c, r, hc, hsp, hbr⟩ := compactElements_head (x :: xs) (by simp) hwf
    have ih := parseElements_compact (x :: xs) strict (d + 1) m rest (by simp) hwf (by omega)
      (by simp [JValue.compact] at hn; omega)
    simp only [JValue.compact, List.cons_append]
    rw [parseValue]
    rw [hc] at ih ⊢
    simp only [List.cons_append] at ih ⊢
    simp [skipSpace_cons c _ hsp, hbr, ih, hd']
  | .obj [], strict, d, n, rest, _, hd, hn, _ => by
    obtain ⟨m, rfl⟩ : ∃ m, n = m + 1 :=
      ⟨n - 1, by simp [JValue.compact, compactMembers] at hn; omega⟩
    have hd' : ¬ maxNestingDepth ≤ d := by
      simp only [JValue.depth] at hd
      omega
    simp only [JValue.compact, compactMembers, List.cons_append, List.nil_append]
    rw [parseValue]
    simp [skipSpace, isSpace, buildObject, hd']
  | .obj (f :: fs), strict, d, n, rest, hwf, hd, hn, _ => by
    obtain ⟨m, rfl⟩ : ∃ m, n = m + 1 := ⟨n - 1, by simp [JValue.compact] at hn; omega⟩
    simp only [JValue.wellFormed, Bool.and_eq_true, decide_eq_true_eq] at hwf
    simp only [JValue.depth] at hd
    have hd' : ¬ maxNestingDepth ≤ d := by omega
    obtain ⟨r, hc⟩ := compactMembers_head (f :: fs) (by simp)
    have ih := parseMembers_compact (f :: fs) strict (d + 1) m rest (by simp) hwf.1 (by omega)
      (by simp [JValue.compact] at hn; omega)
    simp only [JValue.compact, List.cons_append]
    rw [parseValue]
    rw [hc] at ih ⊢
    simp only [List.cons_append] at ih ⊢
    simp [skipSpace_cons '"' _ (by decide), ih, buildObject_of_nodup _ hwf.2, hd']
theorem parseElements_compact : ∀ (vs : List JValue) (strict : Bool) (d n : Nat)
    (rest : List Char), vs ≠ [] → wellFormedElements vs = true →
    d + depthElements vs ≤ maxNestingDepth → (compactElements vs).length < n →
    parseElements strict d n (compactElements vs ++ rest) = .ok (vs, rest)
  | [], _, _, _, _, hne, _, _, _ => absurd rfl hne
  | [v], strict, d, n, rest, _, hwf, hd, hn => by
    obtain ⟨m, rfl⟩ : ∃ m, n = m + 1 := ⟨n - 1, by simp [compactElements] at hn; omega⟩
    simp only [wellFormedElements, Bool.and_eq_true] at hwf
    simp only [depthElements] at hd
    have ih := parseValue_compact v strict d m (']' :: rest) hwf.1 (by omega)
      (by simp [compactElements] at hn; omega) (by simp [endsValue])
    simp only [compactElements, List.append_assoc, List.singleton_append]
    rw [parseElements, ih]
    simp [skipSpace_cons ']' _ (by decide)]
  | v :: w :: ws, strict, d, n, rest, _, hwf, hd, hn => by
    obtain ⟨m, rfl⟩ : ∃ m, n = m + 1 := ⟨n - 1, by simp [compactElements] at hn; omega⟩
    simp only [wellFormedElements, Bool.and_eq_true] at hwf
    have hwf' : wellFormedElements (w :: ws) = true := by
      simp only [wellFormedElements, Bool.and_eq_true]
      exact hwf.2
    have hd1 : d + v.depth ≤ maxNestingDepth := by
      rw [depthElements] at hd
      omega
    have hd2 : d + depthElements (w :: ws) ≤ maxNestingDepth := by
      rw [depthElements] at hd
      omega
    have ih1 := parseValue_compact v strict d m (',' :: (compactElements (w :: ws) ++ rest))
      hwf.1 hd1 (by simp [compactElements] at hn; omega) (by simp [endsValue])
    have ih2 := parseElements_compact (w :: ws) strict d m rest (by simp) hwf' hd2
      (by simp only [compactElements, List.length_append, List.length_cons] at hn; omega)
    obtain ⟨c, r, hc, hsp, -⟩ := compactElements_head (w :: ws) (by simp) hwf'
    simp only [compactElements, List.append_assoc, List.cons_append]
    rw [parseElements, ih1]
    rw [hc] at ih2 ⊢
    simp only [List.cons_append] at ih2 ⊢
    simp [skipSpace_cons ',' _ (by decide), skipSpace_cons c _ hsp, ih2]
theorem parseMembers_compact : ∀ (fs : List (String × JValue)) (strict : Bool) (d n : Nat)
    (rest : List Char), fs ≠ [] → wellFormedMembers fs = true →
    d + depthMembers fs ≤ maxNestingDepth → (compactMembers fs).length < n →
    parseMembers strict d n (compactMembers fs ++ rest) = .ok (fs, rest)
  | [], _, _, _, _, hne, _, _, _ => absurd rfl hne
  | [(k, v)], strict, d, n, rest, _, hwf, hd, hn => by
    obtain ⟨m, rfl⟩ : ∃ m, n = m + 1 := ⟨n - 1, by simp [compactMembers] at hn; omega⟩
    simp only [wellFormedMembers, Bool.and_eq_true] at hwf
    simp only [depthMembers] at hd
    obtain ⟨c, r, hc, hsp, -, -⟩ := compact_head v hwf.1
    have ih := parseValue_compact v strict d m ('}' :: rest) hwf.1 (by omega)
      (by simp [compactMembers] at hn; omega) (by simp [endsValue])
    simp only [compactMembers, quoteString, List.append_assoc, List.cons_append,
      List.singleton_append, List.nil_append]
    rw [parseMembers]
    rw [hc] at ih ⊢
    simp only [List.cons_append] at ih ⊢
    simp [scanString_escapeString, skipSpace_cons ':' _ (by decide), skipSpace_cons c _ hsp, ih,
      skipSpace_cons '}' _ (by decide)]
  | (k, v) :: f :: fs, strict, d, n, rest, _, hwf, hd, hn => by
    obtain ⟨m, rfl⟩ : ∃ m, n = m + 1 := ⟨n - 1, by simp [compactMembers] at hn; omega⟩
    simp only [wellFormedMembers, Bool.and_eq_true] at hwf
    have hwf' : wellFormedMembers (f :: fs) = true := by
      simpa [wellFormedMembers] using hwf.2
    have hd1 : d + v.depth ≤ maxNestingDepth := by
      rw [depthMembers] at hd
      omega
    have hd2 : d + depthMembers (f :: fs) ≤ maxNestingDepth := by
      rw [depthMembers] at hd
      omega
    obtain ⟨c, r, hc, hsp, -, -⟩ := compact_head v hwf.1
    have ih1 := parseValue_compact v strict d m (',' :: (compactMembers (f :: fs) ++ rest))
      hwf.1 hd1 (by simp [compactMembers] at hn; omega) (by simp [endsValue])
    have ih2 := parseMembers_compact (f :: fs) strict d m rest (by simp) hwf' hd2
      (by simp only [compactMembers, List.length_append, List.length_cons] at hn; omega)
    obtain ⟨r', hc'⟩ := compactMembers_head (f :: fs) (by simp)
    simp only [compactMembers, quoteString, List.append_assoc, List.cons_append,
      List.singleton_append, List.nil_append]
    rw [parseMembers]
    rw [hc] at ih1 ⊢
    rw [hc'] at ih1 ih2 ⊢
    simp only [List.cons_append] at ih1 ih2 ⊢
    simp [scanString_escapeString, skipSpace_cons ':' _ (by decide), skipSpace_cons c _ hsp, ih1,
      skipSpace_cons ',' _ (by decide), skipSpace_cons '"' _ (by decide), ih2]
end

theorem parseDocument_compact (v : JValue) (strict : Bool) (h : v.wellFormed = true)
    (hd : v.depth ≤ maxNestingDepth) : parseDocument strict v.compact = .ok v := by
  obtain ⟨c, r, hc, hsp, -, -⟩ := compact_head v h
  have hp := parseValue_compact v strict 0 (2 * v.compact.length + 2) [] h (by omega)
    (by omega) rfl
  unfold parseDocument
  rw [hc] at hp ⊢
  rw [skipSpace_cons c r hsp]
  simp only [List.append_nil] at hp
  rw [hp]
  rfl

theorem jsonUnmarshalMap_compact (args : JObject) (h : (JValue.obj args).wellFormed = true)
    (hd : (JValue.obj args).depth ≤ maxNestingDepth) :
    jsonUnmarshalMap (String.mk (JValue.obj args).compact) = .ok (some args) := by
  unfold jsonUnmarshalMap
  simp only [parseDocument_compact (.obj args) _ h hd]

/-! ### No newline in a compact text -/

theorem hexDigitChar_ne_newline (n : Nat) (h : n < 16) : hexDigitChar n ≠ '\n' := by
  interval_cases n <;> decide

theorem escapeString_no_newline (s : List Char) : '\n' ∉ escapeString s := by
  induction s with
  | nil => simp [escapeString]
  | cons c s ih =>
    simp only [escapeString, List.mem_append, not_or]
    refine ⟨?_, ih⟩
    unfold escapeChar
    split_ifs with h1 h2 h3
    · decide
    · decide
    · have ha := hexDigitChar_ne_newline (c.toNat / 16) (by omega)
      have hb := hexDigitChar_ne_newline (c.toNat % 16) (by omega)
      simp only [List.mem_cons, List.mem_singleton, not_or, List.not_mem_nil, or_false]
      exact ⟨by decide, by decide, by decide, by decide, fun h => ha h.symm, fun h => hb h.symm⟩
    · simp only [List.mem_singleton]
      rintro rfl
      exact h3 (by decide)

theorem quoteString_no_newline (s : String) : '\n' ∉ quoteString s := by
  have := escapeString_no_newline s.data
  simp only [quoteString, List.mem_cons, List.mem_append, List.mem_singleton, not_or,
    List.not_mem_nil, or_false]
  exact ⟨by decide, this, by decide⟩

theorem spanDigits_no_newline (cs : List Char) : '\n' ∉ (spanDigits cs).1 := by
  intro h
  have := List.mem_takeWhile_imp h
  exact absurd this (by decide)

theorem scanExponent_no_newline (acc cs l rest : List Char)
    (h : scanExponent acc cs = .ok (l, rest)) (hacc : '\n' ∉ acc) : '\n' ∉ l := by
  unfold scanExponent at h
  cases cs with
  | nil =>
    simp only [Except.ok.injEq, Prod.mk.injEq] at h
    exact h.1 ▸ hacc
  | cons e r =>
    by_cases he : e = 'e' ∨ e = 'E'
    · simp only [he, if_true] at h
      have hne : e ≠ '\n' := by rcases he with rfl | rfl <;> decide
      split at h
      · cases h
      · rename_i d r' hsr
        by_cases hd : d.isDigit = true
        · simp only [hd, if_true, Except.ok.injEq, Prod.mk.injEq] at h
          rw [← h.1]
          simp only [List.mem_append, List.mem_cons, not_or]
          refine ⟨⟨hacc, fun h => hne h.symm, ?_⟩, spanDigits_no_newline _⟩
          cases r with
          | nil => simp
          | cons s r1 =>
            by_cases hs : s = '+' ∨ s = '-'
            · simp only [hs, if_true, List.mem_singleton]
              rcases hs with rfl | rfl <;> decide
            · simp [hs]
        · simp [hd] at h
    · simp only [he, if_false, Except.ok.injEq, Prod.mk.injEq] at h
      exact h.1 ▸ hacc

theorem scanFraction_no_newline (acc cs l rest : List Char)
    (h : scanFraction acc cs = .ok (l, rest)) (hacc : '\n' ∉ acc) : '\n' ∉ l := by
  unfold scanFraction at h
  cases cs with
  | nil => exact scanExponent_no_newline acc [] l rest h hacc
  | cons p r =>
    by_cases hp : p = '.'
    · simp only [hp, if_true] at h
      cases r with
      | nil => simp at h
      | cons d r2 =>
        by_cases hd : d.isDigit = true
        · simp only [hd, if_true] at h
          refine scanExponent_no_newline _ _ l rest h ?_
          simp only [List.mem_append, List.mem_cons, not_or]
          exact ⟨hacc, by decide, spanDigits_no_newline _⟩
        · simp [hd] at h
    · simp only [hp, if_false] at h
      exact scanExponent_no_newline acc (p :: r) l rest h hacc

theorem scanNumber_no_newline (cs l rest : List Char)
    (h : scanNumber cs = .ok (l, rest)) : '\n' ∉ l := by
  have key : ∀ acc cs, scanInteger acc cs = .ok (l, rest) → '\n' ∉ acc → '\n' ∉ l := by
    intro acc cs h hacc
    unfold scanInteger at h
    cases cs with
    | nil => simp at h
    | cons d r =>
      by_cases h0 : d = '0'
      · simp only [h0, if_true] at h
        refine scanFraction_no_newline _ _ l rest h ?_
        simp only [List.mem_append, List.mem_singleton, not_or]
        exact ⟨hacc, by decide⟩
      · simp only [h0, if_false] at h
        by_cases hd : d.isDigit = true
        · simp only [hd, if_true] at h
          refine scanFraction_no_newline _ _ l rest h ?_
          simp only [List.mem_append, List.mem_cons, not_or]
          refine ⟨hacc, ?_, spanDigits_no_newline _⟩
          rintro rfl
          exact absurd hd (by decide)
        · simp [hd] at h
  unfold scanNumber at h
  cases cs with
  | nil => simp at h
  | cons c r =>
    by_cases hc : c = '-'
    · simp only [hc, if_true] at h
      exact key _ _ h (by decide)
    · simp only [hc, if_false] at h
      exact key _ _ h (by simp)

mutual
theorem compact_no_newline : ∀ (v : JValue), v.wellFormed = true → '\n' ∉ v.compact
  | .null, _ => by decide
  | .bool true, _ => by decide
  | .bool false, _ => by decide
  | .str s, _ => quoteString_no_newline s
  | .num l, h => by
    simp only [JValue.wellFormed, Bool.and_eq_true] at h
    exact scanNumber_no_newline _ _ _ (isNumberLexeme_scan l.data h.1)
  | .arr vs, h => by
    simp only [JValue.wellFormed] at h
    simp only [JValue.compact, List.mem_cons, not_or]
    exact ⟨by decide, compactElements_no_newline vs h⟩
  | .obj fs, h => by
    simp only [JValue.wellFormed, Bool.and_eq_true] at h
    simp only [JValue.compact, List.mem_cons, not_or]
    exact ⟨by decide, compactMembers_no_newline fs h.1⟩
theorem compactElements_no_newline : ∀ (vs : List JValue), wellFormedElements vs = true →
    '\n' ∉ compactElements vs
  | [], _ => by decide
  | [v], h => by
    simp only [wellFormedElements, Bool.and_eq_true] at h
    simp only [compactElements, List.mem_append, List.mem_singleton, not_or]
    exact ⟨compact_no_newline v h.1, by decide⟩
  | v :: w :: ws, h => by
    simp only [wellFormedElements, Bool.and_eq_true] at h
    have h' : wellFormedElements (w :: ws) = true := by
      simp only [wellFormedElements, Bool.and_eq_true]
      exact h.2
    simp only [compactElements, List.mem_append, List.mem_cons, not_or]
    exact ⟨compact_no_newline v h.1, by decide, compactElements_no_newline (w :: ws) h'⟩
theorem compactMembers_no_newline : ∀ (fs : List (String × JValue)),
    wellFormedMembers fs = true → '\n' ∉ compactMembers fs
  | [], _ => by decide
  | [(k, v)], h => by
    simp only [wellFormedMembers, Bool.and_eq_true] at h
    simp only [compactMembers, List.mem_append, List.mem_cons, List.mem_singleton, not_or]
    exact ⟨quoteString_no_newline k, by decide, compact_no_newline v h.1, by decide⟩
  | (k, v) :: f :: fs, h => by
    simp only [wellFormedMembers, Bool.and_eq_true] at h
    have h' : wellFormedMembers (f :: fs) = true := by
      simpa [wellFormedMembers] using h.2
    simp only [compactMembers, List.mem_append, List.mem_cons, not_or]
    exact ⟨quoteString_no_newline k, by decide, compact_no_newline v h.1, by decide,
      compactMembers_no_newline (f :: fs) h'⟩
end

/-! ### The pattern on the serialised action -/

theorem takeWhile_word_append (name tail : List Char) (hw : ∀ c ∈ name, isWordChar c = true) :
    (name ++ '\n' :: tail).takeWhile isWordChar = name ∧
      (name ++ '\n' :: tail).dropWhile isWordChar = '\n' :: tail := by
  have hnl : isWordChar '\n' = false := by decide
  induction name with
  | nil => exact ⟨by simp [List.takeWhile, hnl], by simp [List.dropWhile, hnl]⟩
  | cons c cs ih =>
    have hc : isWordChar c = true := hw c (by simp)
    have ih' := ih (fun x hx => hw x (by simp [hx]))
    simp only [List.cons_append, List.takeWhile_cons, List.dropWhile_cons, hc, if_true]
    exact ⟨by rw [ih'.1], ih'.2⟩

theorem takeWhile_no_newline (payload : List Char) (hp : '\n' ∉ payload) :
    payload.takeWhile (fun c => c != '\n') = payload := by
  induction payload with
  | nil => rfl
  | cons c cs ih =>
    simp only [List.mem_cons, not_or] at hp
    have hc : (c != '\n') = true := by
      simp only [bne_iff_ne, ne_eq]
      exact fun h => hp.1 h.symm
    simp only [List.takeWhile_cons, hc, if_true]
    rw [ih hp.2]

/-- The two lines as a character list. -/
theorem matchActionAt_lines (name payload : List Char) (hne : name ≠ [])
    (hw : ∀ c ∈ name, isWordChar c = true) (hp : '\n' ∉ payload) :
    matchActionAt ("Action: ".data ++ (name ++ ("\nAction Input: ".data ++ payload))) =
      some (name, payload) := by
  unfold matchActionAt
  rw [dropLiteral_append]
  have hsplit : "\nAction Input: ".data ++ payload = '\n' :: ("Action Input: ".data ++ payload) :=
    rfl
  rw [hsplit]
  obtain ⟨h1, h2⟩ := takeWhile_word_append name ("Action Input: ".data ++ payload) hw
  simp only [h1, h2]
  cases name with
  | nil => exact absurd rfl hne
  | cons w ws =>
    simp only
    have : dropLiteral "\nAction Input: ".data ('\n' :: ("Action Input: ".data ++ payload)) =
        some payload := dropLiteral_append "\nAction Input: ".data payload
    rw [this]
    simp only [takeWhile_no_newline payload hp]

theorem dropLiteral_before_newline (lit pre main r : List Char) (hl : '\n' ∉ lit)
    (hpre : '\n' ∉ pre) (h : dropLiteral lit (pre ++ '\n' :: main) = some r) :
    ∃ pre', r = pre' ++ '\n' :: main ∧ '\n' ∉ pre' := by
  induction lit generalizing pre with
  | nil =>
    have : dropLiteral [] (pre ++ '\n' :: main) = some (pre ++ '\n' :: main) := by
      cases pre <;> rfl
    rw [this] at h
    exact ⟨pre, (Option.some.inj h).symm, hpre⟩
  | cons l ls ih =>
    simp only [List.mem_cons, not_or] at hl
    cases pre with
    | nil =>
      simp only [List.nil_append, dropLiteral] at h
      rw [if_neg (fun heq => hl.1 heq.symm)] at h
      cases h
    | cons p ps =>
      simp only [List.mem_cons, not_or] at hpre
      simp only [List.cons_append, dropLiteral] at h
      by_cases hlp : l = p
      · rw [if_pos hlp] at h
        exact ih ps hl.2 hpre.2 h
      · rw [if_neg hlp] at h
        cases h

theorem dropLiteral_after_word (lit pre main : List Char) (hpre : '\n' ∉ pre)
    (hmain : dropLiteral lit main = none) :
    dropLiteral ('\n' :: lit) ((pre ++ '\n' :: main).dropWhile isWordChar) = none := by
  induction pre with
  | nil =>
    have hnl : isWordChar '\n' = false := by decide
    have : ('\n' :: main).dropWhile isWordChar = '\n' :: main := by
      simp [List.dropWhile, hnl]
    simp only [List.nil_append, this, dropLiteral, if_true]
    exact hmain
  | cons p ps ih =>
    simp only [List.mem_cons, not_or] at hpre
    by_cases hp : isWordChar p = true
    · simp only [List.cons_append, List.dropWhile_cons, hp, if_true]
      exact ih hpre.2
    · simp only [List.cons_append, List.dropWhile_cons, hp, if_false, dropLiteral]
      rw [if_neg hpre.1]

theorem matchActionAt_before_newline (pre main : List Char) (hpre : '\n' ∉ pre)
    (hmain : dropLiteral "Action Input: ".data main = none) :
    matchActionAt (pre ++ '\n' :: main) = none := by
  unfold matchActionAt
  cases h : dropLiteral "Action: ".data (pre ++ '\n' :: main) with
  | none => rfl
  | some r =>
    obtain ⟨pre', rfl, hpre'⟩ := dropLiteral_before_newline _ pre main r (by decide) hpre h
    have hd : dropLiteral "\nAction Input: ".data
        ((pre' ++ '\n' :: main).dropWhile isWordChar) = none :=
      dropLiteral_after_word "Action Input: ".data pre' main hpre' hmain
    show (match (pre' ++ '\n' :: main).takeWhile isWordChar with
      | [] => none
      | w :: ws =>
        match dropLiteral "\nAction Input: ".data
            ((pre' ++ '\n' :: main).dropWhile isWordChar) with
        | none => none
        | some r1 => some (w :: ws, r1.takeWhile (fun c => c != '\n'))) = none
    rw [hd]
    cases (pre' ++ '\n' :: main).takeWhile isWordChar <;> rfl

theorem findActionMatch_skip_line (pre main : List Char) (hpre : '\n' ∉ pre)
    (hmain : dropLiteral "Action Input: ".data main = none) :
    findActionMatch (pre ++ '\n' :: main) = findActionMatch main := by
  induction pre with
  | nil =>
    have := matchActionAt_before_newline [] main (by simp) hmain
    simp only [List.nil_append] at this ⊢
    simp only [findActionMatch, this]
  | cons p ps ih =>
    simp only [List.mem_cons, not_or] at hpre
    have := matchActionAt_before_newline (p :: ps) main (by simp [hpre, Ne.symm hpre.1]) hmain
    simp only [List.cons_append] at this ⊢
    simp only [findActionMatch, this]
    exact ih hpre.2

theorem actionLines_data (toolName : String) (args : JObject) :
    (actionLines toolName args).data =
      "Action: ".data ++ (toolName.data ++
        ("\nAction Input: ".data ++ (JValue.obj args).compact)) := by
  simp [actionLines, String.data_append]

theorem findActionMatch_actionText (thought : Option String) (toolName : String)
    (args : JObject) (hname : isIdentifier toolName = true)
    (hargs : (JValue.obj args).wellFormed = true)
    (hthought : ∀ t, thought = some t → '\n' ∉ t.data) :
    findActionMatch (actionText thought toolName args).data =
      some (toolName.data, (JValue.obj args).compact) := by
  simp only [isIdentifier, Bool.and_eq_true, Bool.not_eq_true', List.isEmpty_eq_false,
    List.all_eq_true] at hname
  have hlines : matchActionAt (actionLines toolName args).data =
      some (toolName.data, (JValue.obj args).compact) := by
    rw [actionLines_data]
    exact matchActionAt_lines _ _ (by simpa using hname.1) hname.2 (compact_no_newline _ hargs)
  have hfind : findActionMatch (actionLines toolName args).data =
      some (toolName.data, (JValue.obj args).compact) := by
    have hcons : (actionLines toolName args).data =
        'A' :: ("ction: ".data ++ (toolName.data ++
          ("\nAction Input: ".data ++ (JValue.obj args).compact))) := by
      rw [actionLines_data]
      rfl
    rw [hcons] at hlines ⊢
    simp only [findActionMatch, hlines]
  cases thought with
  | none => exact hfind
  | some t =>
    have hdata : (actionText (some t) toolName args).data =
        ("Thought: ".data ++ t.data) ++ '\n' :: (actionLines toolName args).data := by
      simp [actionText, String.data_append]
    rw [hdata, findActionMatch_skip_line _ _ ?_ ?_, hfind]
    · have := hthought t rfl
      simp only [List.mem_append, not_or]
      exact ⟨by decide, this⟩
    · rw [actionLines_data]
      rfl

/-- C5 (amended): parser round trip.  For every tool name that is a non-empty identifier (one
or more word characters) and every argument map whose nesting depth, the map itself counted,
is at most `maxNestingDepth` = 10000 (a map as a Go program holds it: keys pairwise distinct,
numbers finite `float64` lexemes), `parseLLMAction` applied to the text `Action: <toolName>`,
newline, `Action Input: <compact JSON object of the arguments>`, optionally preceded by a
one-line `Thought: ...`, returns no error and the pair of the tool name and the argument map;
and the copies of `parseLLMAction` in `ManusAgent` and `BrowserAgent` return the same as the
one in `BaseAgent` on every input. -/
theorem parseLLMAction_roundtrip (thought : Option String) (toolName : String)
    (args : JObject) (hname : isIdentifier toolName = true)
    (hargs : (JValue.obj args).wellFormed = true)
    (hdepth : (JValue.obj args).depth ≤ maxNestingDepth)
    (hthought : ∀ t, thought = some t → '\n' ∉ t.data) :
    BaseAgent.parseLLMAction (actionText thought toolName args) = .ok (toolName, some args) ∧
      (∀ llmOutput : String,
        ManusAgent.parseLLMAction llmOutput = BaseAgent.parseLLMAction llmOutput ∧
        BrowserAgent.parseLLMAction llmOutput = BaseAgent.parseLLMAction llmOutput) := by
  refine ⟨?_, fun _ => ⟨rfl, rfl⟩⟩
  unfold BaseAgent.parseLLMAction
  rw [findActionMatch_actionText thought toolName args hname hargs hthought]
  simp only [jsonUnmarshalMap_compact args hargs hdepth]

/-- C5 (witness): the tool `file_ops` with an argument map holding a string with a quote and a
newline, a number, a nested array and a nested map, after a `Thought` line. -/
theorem parseLLMAction_roundtrip_witness :
    BaseAgent.parseLLMAction (actionText (some "use the shell") "file_ops" sampleArgs) =
        .ok ("file_ops", some sampleArgs) ∧
      (∀ llmOutput : String,
        ManusAgent.parseLLMAction llmOutput = BaseAgent.parseLLMAction llmOutput ∧
        BrowserAgent.parseLLMAction llmOutput = BaseAgent.parseLLMAction llmOutput) :=
  parseLLMAction_roundtrip (some "use the shell") "file_ops" sampleArgs (by decide) (by decide)
    (by decide)
    (by
      intro t ht
      cases ht
      decide)

/-! ## The decoder: the recursion bound is never reached -/

theorem hexDigitAt_length (cs r : List Char) (x : Nat) (h : hexDigitAt cs = .ok (x, r)) :
    r.length + 1 = cs.length := by
  unfold hexDigitAt at h
  cases cs with
  | nil => simp at h
  | cons c cs =>
    cases hv : hexVal c with
    | none => simp [hv] at h
    | some y =>
      simp only [hv, Except.ok.injEq, Prod.mk.injEq] at h
      simp [h.2]

theorem scanHex4_length (cs r : List Char) (x : Nat) (h : scanHex4 cs = .ok (x, r)) :
    r.length + 4 = cs.length := by
  unfold scanHex4 at h
  cases h1 : hexDigitAt cs with
  | error e => simp [h1] at h
  | ok p1 =>
    obtain ⟨x1, r1⟩ := p1
    simp only [h1] at h
    cases h2 : hexDigitAt r1 with
    | error e => simp [h2] at h
    | ok p2 =>
      obtain ⟨x2, r2⟩ := p2
      simp only [h2] at h
      cases h3 : hexDigitAt r2 with
      | error e => simp [h3] at h
      | ok p3 =>
        obtain ⟨x3, r3⟩ := p3
        simp only [h3] at h
        cases h4 : hexDigitAt r3 with
        | error e => simp [h4] at h
        | ok p4 =>
          obtain ⟨x4, r4⟩ := p4
          simp only [h4, Except.ok.injEq, Prod.mk.injEq] at h
          have l1 := hexDigitAt_length _ _ _ h1
          have l2 := hexDigitAt_length _ _ _ h2
          have l3 := hexDigitAt_length _ _ _ h3
          have l4 := hexDigitAt_length _ _ _ h4
          rw [← h.2]
          omega

theorem decodeEscape_length (cs r : List Char) (ch : Char)
    (h : decodeEscape cs = .ok (ch, r)) : r.length < cs.length := by
  unfold decodeEscape at h
  cases cs with
  | nil => simp at h
  | cons e r1 =>
    by_cases he : e = 'u'
    · simp only [he, if_true] at h
      cases hx : scanHex4 r1 with
      | error err => simp [hx] at h
      | ok p =>
        obtain ⟨x, r5⟩ := p
        have hl := scanHex4_length _ _ _ hx
        simp only [hx] at h
        split_ifs at h with hs
        · split at h
          · simp only [Except.ok.injEq, Prod.mk.injEq] at h
            rw [← h.2]
            simp only [List.length_drop, List.length_cons]
            omega
          · simp only [Except.ok.injEq, Prod.mk.injEq] at h
            rw [← h.2]
            simp only [List.length_cons]
            omega
        · simp only [Except.ok.injEq, Prod.mk.injEq] at h
          rw [← h.2]
          simp only [List.length_cons]
          omega
    · simp only [he, if_false] at h
      cases hs : simpleEscape e with
      | none => simp [hs] at h
      | some c =>
        simp only [hs, Except.ok.injEq, Prod.mk.injEq] at h
        rw [← h.2]
        simp

theorem consChar_ok (c : Char) (x : Except JsonError (List Char × List Char))
    (s r : List Char) (h : consChar c x = .ok (s, r)) : ∃ s', x = .ok (s', r) := by
  unfold consChar at h
  split at h
  · rename_i s' rest
    simp only [Except.ok.injEq, Prod.mk.injEq] at h
    exact ⟨s', by rw [h.2]⟩
  · cases h

theorem scanStringAux_length (n : Nat) (cs s r : List Char)
    (h : scanStringAux n cs = .ok (s, r)) : r.length < cs.length := by
  induction n generalizing cs s with
  | zero => simp [scanStringAux] at h
  | succ n ih =>
    cases cs with
    | nil => simp [scanStringAux] at h
    | cons c rest =>
      rw [scanStringAux] at h
      split_ifs at h with h1 h2 h3
      · simp only [Except.ok.injEq, Prod.mk.injEq] at h
        rw [← h.2]
        simp
      · cases hd : decodeEscape rest with
        | error e => simp [hd] at h
        | ok p =>
          obtain ⟨ch, r'⟩ := p
          simp only [hd] at h
          obtain ⟨s', hs'⟩ := consChar_ok _ _ _ _ h
          have := ih r' s' hs'
          have := decodeEscape_length _ _ _ hd
          simp only [List.length_cons]
          omega
      · obtain ⟨s', hs'⟩ := consChar_ok _ _ _ _ h
        have := ih rest s' hs'
        simp only [List.length_cons]
        omega

theorem scanString_length (cs s r : List Char) (h : scanString cs = .ok (s, r)) :
    r.length < cs.length :=
  scanStringAux_length _ cs s r h

theorem spanDigits_length (cs : List Char) : (spanDigits cs).2.length ≤ cs.length :=
  (List.dropWhile_sublist _).length_le

theorem scanExponent_length (acc cs l r : List Char)
    (h : scanExponent acc cs = .ok (l, r)) : r.length ≤ cs.length := by
  unfold scanExponent at h
  cases cs with
  | nil =>
    simp only [Except.ok.injEq, Prod.mk.injEq] at h
    simp [← h.2]
  | cons e rest =>
    by_cases he : e = 'e' ∨ e = 'E'
    · simp only [he, if_true] at h
      cases rest with
      | nil => simp at h
      | cons s r1 =>
        by_cases hs : s = '+' ∨ s = '-'
        · simp only [hs, if_true] at h
          cases r1 with
          | nil => simp at h
          | cons d r2 =>
            by_cases hd : d.isDigit = true
            · simp only [hd, if_true, Except.ok.injEq, Prod.mk.injEq] at h
              rw [← h.2]
              have h1 := spanDigits_length (d :: r2)
              simp only [List.length_cons] at h1 ⊢
              omega
            · simp [hd] at h
        · simp only [hs, if_false] at h
          by_cases hd : s.isDigit = true
          · simp only [hd, if_true, Except.ok.injEq, Prod.mk.injEq] at h
            rw [← h.2]
            have h1 := spanDigits_length (s :: r1)
            simp only [List.length_cons] at h1 ⊢
            omega
          · simp [hd] at h
    · simp only [he, if_false, Except.ok.injEq, Prod.mk.injEq] at h
      simp [← h.2]

theorem scanFraction_length (acc cs l r : List Char)
    (h : scanFraction acc cs = .ok (l, r)) : r.length ≤ cs.length := by
  unfold scanFraction at h
  cases cs with
  | nil => exact scanExponent_length _ _ _ _ h
  | cons p rest =>
    by_cases hp : p = '.'
    · simp only [hp, if_true] at h
      cases rest with
      | nil => simp at h
      | cons d r2 =>
        by_cases hd : d.isDigit = true
        · simp only [hd, if_true] at h
          have h1 := scanExponent_length _ _ _ _ h
          have h2 := spanDigits_length (d :: r2)
          simp only [List.length_cons] at h1 h2 ⊢
          omega
        · simp [hd] at h
    · simp only [hp, if_false] at h
      exact scanExponent_length _ _ _ _ h

theorem scanInteger_length (acc cs l r : List Char)
    (h : scanInteger acc cs = .ok (l, r)) : r.length < cs.length := by
  unfold scanInteger at h
  cases cs with
  | nil => simp at h
  | cons d rest =>
    by_cases h0 : d = '0'
    · simp only [h0, if_true] at h
      have := scanFraction_length _ _ _ _ h
      simp only [List.length_cons]
      omega
    · simp only [h0, if_false] at h
      by_cases hd : d.isDigit = true
      · simp only [hd, if_true] at h
        have h1 := scanFraction_length _ _ _ _ h
        have h2 := spanDigits_length rest
        simp only [List.length_cons]
        omega
      · simp [hd] at h

theorem scanNumber_length (cs l r : List Char)
    (h : scanNumber cs = .ok (l, r)) : r.length < cs.length := by
  unfold scanNumber at h
  cases cs with
  | nil => simp at h
  | cons c rest =>
    by_cases hc : c = '-'
    · simp only [hc, if_true] at h
      have := scanInteger_length _ _ _ _ h
      simp only [List.length_cons]
      omega
    · simp only [hc, if_false] at h
      exact scanInteger_length _ _ _ _ h

theorem scanLiteral_length (name : String) (expected cs r : List Char)
    (h : scanLiteral name expected cs = .ok r) : r.length ≤ cs.length := by
  induction expected generalizing cs with
  | nil =>
    simp only [scanLiteral, Except.ok.injEq] at h
    simp [h]
  | cons e es ih =>
    cases cs with
    | nil => simp [scanLiteral] at h
    | cons c cs =>
      simp only [scanLiteral] at h
      split_ifs at h with hce
      have := ih cs h
      simp only [List.length_cons]
      omega

theorem skipSpace_length (cs : List Char) : (skipSpace cs).length ≤ cs.length :=
  (List.dropWhile_sublist _).length_le

/-- The bound that `scanString` passes is never reached. -/
theorem scanStringAux_succ (n : Nat) (cs : List Char) (h : cs.length ≤ n) :
    scanStringAux (n + 1) cs = scanStringAux n cs := by
  induction n generalizing cs with
  | zero =>
    have : cs = [] := by
      cases cs with
      | nil => rfl
      | cons c cs => simp at h
    subst this
    simp [scanStringAux]
  | succ n ih =>
    cases cs with
    | nil => simp [scanStringAux]
    | cons c rest =>
      rw [scanStringAux, scanStringAux]
      simp only [List.length_cons] at h
      split_ifs with h1 h2 h3
      · rfl
      · cases hd : decodeEscape rest with
        | error e => rfl
        | ok p =>
          obtain ⟨ch, r⟩ := p
          have := decodeEscape_length _ _ _ hd
          simp only
          rw [ih r (by omega)]
      · rfl
      · rw [ih rest (by omega)]

theorem parse_length (strict : Bool) (n : Nat) :
    (∀ d cs v r, parseValue strict d n cs = .ok (v, r) → r.length < cs.length) ∧
      (∀ d cs vs r, parseElements strict d n cs = .ok (vs, r) → r.length < cs.length) ∧
      (∀ d cs ms r, parseMembers strict d n cs = .ok (ms, r) → r.length < cs.length) := by
  induction n with
  | zero => simp [parseValue, parseElements, parseMembers]
  | succ n ih =>
    obtain ⟨ihV, ihE, ihM⟩ := ih
    refine ⟨?_, ?_, ?_⟩
    · intro d cs v r h
      cases cs with
      | nil => simp [parseValue] at h
      | cons c rest =>
        rw [parseValue] at h
        have hsk := skipSpace_length rest
        split_ifs at h with h1 h2 h3 h4 h5 h6 h7
        · cases hs : skipSpace rest with
          | nil => simp [hs] at h
          | cons c1 r1 =>
            rw [hs] at hsk
            simp only [hs] at h
            split_ifs at h with hc
            · simp only [Except.ok.injEq, Prod.mk.injEq] at h
              rw [← h.2]
              simp only [List.length_cons] at hsk ⊢
              omega
            · cases hm : parseMembers strict (d + 1) n (c1 :: r1) with
              | error e => simp [hm] at h
              | ok p =>
                obtain ⟨ms, r2⟩ := p
                simp only [hm, Except.ok.injEq, Prod.mk.injEq] at h
                have := ihM _ _ _ _ hm
                rw [← h.2]
                simp only [List.length_cons] at hsk this ⊢
                omega
        · cases hs : skipSpace rest with
          | nil => simp [hs] at h
          | cons c1 r1 =>
            rw [hs] at hsk
            simp only [hs] at h
            split_ifs at h with hc
            · simp only [Except.ok.injEq, Prod.mk.injEq] at h
              rw [← h.2]
              simp only [List.length_cons] at hsk ⊢
              omega
            · cases hm : parseElements strict (d + 1) n (c1 :: r1) with
              | error e => simp [hm] at h
              | ok p =>
                obtain ⟨vs, r2⟩ := p
                simp only [hm, Except.ok.injEq, Prod.mk.injEq] at h
                have := ihE _ _ _ _ hm
                rw [← h.2]
                simp only [List.length_cons] at hsk this ⊢
                omega
        · cases hm : scanString rest with
          | error e => simp [hm] at h
          | ok p =>
            obtain ⟨s, r2⟩ := p
            simp only [hm, Except.ok.injEq, Prod.mk.injEq] at h
            have := scanString_length _ _ _ hm
            rw [← h.2]
            simp only [List.length_cons]
            omega
        · cases hm : scanLiteral "true" ['r', 'u', 'e'] rest with
          | error e => simp [hm] at h
          | ok r2 =>
            simp only [hm, Except.ok.injEq, Prod.mk.injEq] at h
            have := scanLiteral_length _ _ _ _ hm
            rw [← h.2]
            simp only [List.length_cons]
            omega
        · cases hm : scanLiteral "false" ['a', 'l', 's', 'e'] rest with
          | error e => simp [hm] at h
          | ok r2 =>
            simp only [hm, Except.ok.injEq, Prod.mk.injEq] at h
            have := scanLiteral_length _ _ _ _ hm
            rw [← h.2]
            simp only [List.length_cons]
            omega
        · cases hm : scanLiteral "null" ['u', 'l', 'l'] rest with
          | error e => simp [hm] at h
          | ok r2 =>
            simp only [hm, Except.ok.injEq, Prod.mk.injEq] at h
            have := scanLiteral_length _ _ _ _ hm
            rw [← h.2]
            simp only [List.length_cons]
            omega
        · cases hm : scanNumber (c :: rest) with
          | error e => simp [hm] at h
          | ok p =>
            obtain ⟨l, r2⟩ := p
            simp only [hm] at h
            have := scanNumber_length _ _ _ hm
            split_ifs at h
            simp only [Except.ok.injEq, Prod.mk.injEq] at h
            rw [← h.2]
            exact this
    · intro d cs vs r h
      rw [parseElements] at h
      cases hv : parseValue strict d n cs with
      | error e => simp [hv] at h
      | ok p =>
        obtain ⟨v, r1⟩ := p
        simp only [hv] at h
        have h1 := ihV _ _ _ _ hv
        have hsk := skipSpace_length r1
        cases hs : skipSpace r1 with
        | nil => simp [hs] at h
        | cons c r2 =>
          rw [hs] at hsk
          simp only [hs] at h
          split_ifs at h with hc1 hc2
          · cases he : parseElements strict d n (skipSpace r2) with
            | error e => simp [he] at h
            | ok q =>
              obtain ⟨vs', r3⟩ := q
              simp only [he, Except.ok.injEq, Prod.mk.injEq] at h
              have h2 := ihE _ _ _ _ he
              have h3 := skipSpace_length r2
              rw [← h.2]
              simp only [List.length_cons] at hsk
              omega
          · simp only [Except.ok.injEq, Prod.mk.injEq] at h
            rw [← h.2]
            simp only [List.length_cons] at hsk
            omega
    · intro d cs ms r h
      cases cs with
      | nil => simp [parseMembers] at h
      | cons q r0 =>
        rw [parseMembers] at h
        split_ifs at h with hq
        cases hk : scanString r0 with
        | error e => simp [hk] at h
        | ok p =>
          obtain ⟨k, r1⟩ := p
          simp only [hk] at h
          have h0 := scanString_length _ _ _ hk
          have hsk1 := skipSpace_length r1
          cases hs : skipSpace r1 with
          | nil => simp [hs] at h
          | cons c r2 =>
            rw [hs] at hsk1
            simp only [hs] at h
            split_ifs at h with hc
            have hsk2 := skipSpace_length r2
            cases hv : parseValue strict d n (skipSpace r2) with
            | error e => simp [hv] at h
            | ok p2 =>
              obtain ⟨v, r3⟩ := p2
              simp only [hv] at h
              have h1 := ihV _ _ _ _ hv
              have hsk3 := skipSpace_length r3
              cases hs3 : skipSpace r3 with
              | nil => simp [hs3] at h
              | cons c1 r4 =>
                rw [hs3] at hsk3
                simp only [hs3] at h
                split_ifs at h with hc1 hc2
                · cases hm : parseMembers strict d n (skipSpace r4) with
                  | error e => simp [hm] at h
                  | ok p3 =>
                    obtain ⟨ms', r5⟩ := p3
                    simp only [hm, Except.ok.injEq, Prod.mk.injEq] at h
                    have h2 := ihM _ _ _ _ hm
                    have hsk4 := skipSpace_length r4
                    rw [← h.2]
                    simp only [List.length_cons] at hsk1 hsk3 ⊢
                    omega
                · simp only [Except.ok.injEq, Prod.mk.injEq] at h
                  rw [← h.2]
                  simp only [List.length_cons] at hsk1 hsk3 ⊢
                  omega

theorem parse_fuel_succ (strict : Bool) (n : Nat) :
    (∀ d cs, 2 * cs.length ≤ n →
        parseValue strict d (n + 1) cs = parseValue strict d n cs) ∧
      (∀ d cs, 2 * cs.length + 1 ≤ n →
        parseElements strict d (n + 1) cs = parseElements strict d n cs) ∧
      (∀ d cs, 2 * cs.length + 1 ≤ n →
        parseMembers strict d (n + 1) cs = parseMembers strict d n cs) := by
  induction n with
  | zero =>
    refine ⟨?_, ?_, ?_⟩
    · intro d cs h
      have : cs = [] := by
        cases cs with
        | nil => rfl
        | cons c cs => simp at h
      subst this
      simp [parseValue]
    · intro d cs h
      omega
    · intro d cs h
      omega
  | succ n ih =>
    obtain ⟨ihV, ihE, ihM⟩ := ih
    refine ⟨?_, ?_, ?_⟩
    · intro d cs hlen
      cases cs with
      | nil => simp [parseValue]
      | cons c rest =>
        rw [parseValue, parseValue]
        have hsk := skipSpace_length rest
        simp only [List.length_cons] at hlen
        cases hs : skipSpace rest with
        | nil => rfl
        | cons c1 r1 =>
          rw [hs] at hsk
          simp only [List.length_cons] at hsk
          dsimp only
          rw [ihM (d + 1) (c1 :: r1) (by simp only [List.length_cons]; omega),
            ihE (d + 1) (c1 :: r1) (by simp only [List.length_cons]; omega)]
    · intro d cs hlen
      rw [parseElements]
      conv_rhs => rw [parseElements]
      rw [ihV d cs (by omega)]
      cases hv : parseValue strict d n cs with
      | error e => rfl
      | ok p =>
        obtain ⟨v, r1⟩ := p
        have h1 := (parse_length strict n).1 _ _ _ _ hv
        have hsk := skipSpace_length r1
        simp only
        cases hs : skipSpace r1 with
        | nil => rfl
        | cons c r2 =>
          rw [hs] at hsk
          simp only [List.length_cons] at hsk
          have hsk2 := skipSpace_length r2
          simp only
          rw [ihE d (skipSpace r2) (by omega)]
    · intro d cs hlen
      cases cs with
      | nil => simp [parseMembers]
      | cons q r0 =>
        rw [parseMembers, parseMembers]
        simp only [List.length_cons] at hlen
        split_ifs with hq
        · cases hk : scanString r0 with
          | error e => rfl
          | ok p =>
            obtain ⟨k, r1⟩ := p
            have h0 := scanString_length _ _ _ hk
            have hsk1 := skipSpace_length r1
            simp only
            cases hs : skipSpace r1 with
            | nil => rfl
            | cons c r2 =>
              rw [hs] at hsk1
              simp only [List.length_cons] at hsk1
              have hsk2 := skipSpace_length r2
              simp only
              rw [ihV d (skipSpace r2) (by omega)]
              split_ifs with hc
              · cases hv : parseValue strict d n (skipSpace r2) with
                | error e => rfl
                | ok p2 =>
                  obtain ⟨v, r3⟩ := p2
                  have h1 := (parse_length strict n).1 _ _ _ _ hv
                  have hsk3 := skipSpace_length r3
                  simp only
                  cases hs3 : skipSpace r3 with
                  | nil => rfl
                  | cons c1 r4 =>
                    rw [hs3] at hsk3
                    simp only [List.length_cons] at hsk3
                    have hsk4 := skipSpace_length r4
                    simp only
                    rw [ihM d (skipSpace r4) (by omega)]
              · rfl
        · rfl

/-- The bound on nested calls that `parseDocument` passes is never reached: any bound of at
least twice the length of the input gives the same result. -/
theorem parseValue_fuel (strict : Bool) (d : Nat) (cs : List Char) (n : Nat)
    (h : 2 * cs.length ≤ n) :
    parseValue strict d n cs = parseValue strict d (2 * cs.length) cs := by
  induction n with
  | zero =>
    have : 2 * cs.length = 0 := by omega
    rw [this]
  | succ n ih =>
    by_cases hn : 2 * cs.length ≤ n
    · rw [(parse_fuel_succ strict n).1 d cs hn, ih hn]
    · have : 2 * cs.length = n + 1 := by omega
      rw [this]

/-! ## The conversation log -/

/-- C20: for every log `m` and message `x`, after `AddMessage(x)` the message list is the
previous list followed by `x`: the length grows by exactly one, every earlier index holds the
entry it held before, and `LastMessage` returns `x`; on a log without entries `LastMessage`
returns nil. -/
theorem Memory_append_only (m : Memory) (x : Message) :
    (m.AddMessage x).Messages = m.Messages ++ [x] ∧
      (m.AddMessage x).Messages.length = m.Messages.length + 1 ∧
      (∀ i, i < m.Messages.length → (m.AddMessage x).Messages[i]? = m.Messages[i]?) ∧
      (m.AddMessage x).Messages[m.Messages.length]? = some x ∧
      (m.AddMessage x).LastMessage = some x ∧
      NewMemory.LastMessage = none ∧
      (m.Messages = [] → m.LastMessage = none) := by
  refine ⟨rfl, by simp [Memory.AddMessage], fun i hi => ?_, by simp [Memory.AddMessage],
    by simp [Memory.AddMessage, Memory.LastMessage], rfl, fun h => ?_⟩
  · simp [Memory.AddMessage, List.getElem?_append_left hi]
  · simp [Memory.LastMessage, h]

/-! ## The `Run` loop: cancellation and failures -/

theorem runLoop_of_loopContinue (env : RunEnv) (n : Nat) (a b : BaseAgent)
    (h : a.loopContinue env = some b) : a.runLoop env (n + 1) = b.runLoop env n := by
  unfold BaseAgent.loopContinue at h
  rw [BaseAgent.runLoop]
  by_cases hc : a.CurrentStep < a.MaxSteps
  · simp only [hc, if_true] at h ⊢
    cases hctx : env.ctxDone a.CurrentStep.toNat with
    | true => simp [hctx] at h
    | false =>
      simp only [hctx] at h ⊢
      cases hth : env.think a.CurrentStep.toNat with
      | error err => simp [hth] at h
      | ok sa =>
        cases sa with
        | false =>
          simp only [hth, Bool.false_eq_true, if_false, Option.some.injEq] at h ⊢
          rw [← h]
        | true =>
          simp only [hth, Bool.false_eq_true, if_false] at h ⊢
          cases hact : env.act a.CurrentStep.toNat with
          | error err => simp [hact] at h
          | ok result =>
            simp only [hact] at h ⊢
            split at h
            · cases h
            · rename_i hst
              simp only [Option.some.injEq] at h
              simp only [hst, Bool.false_eq_true, if_false]
              rw [← h]
  · simp [hc] at h

theorem runLoop_of_loopAfter (env : RunEnv) (j n : Nat) (a b : BaseAgent)
    (h : a.loopAfter env j = some b) : a.runLoop env (j + n) = b.runLoop env n := by
  induction j generalizing a with
  | zero =>
    simp only [BaseAgent.loopAfter, Option.some.injEq] at h
    rw [h, Nat.zero_add]
  | succ j ih =>
    rw [BaseAgent.loopAfter] at h
    cases hc : a.loopContinue env with
    | none => simp [hc] at h
    | some c =>
      simp only [hc] at h
      rw [show j + 1 + n = (j + n) + 1 by omega, runLoop_of_loopContinue env _ a c hc]
      exact ih c h

/-- A pass that continues changes only the step counter and, when it acted, the log. -/
theorem loopContinue_fields (env : RunEnv) (a b : BaseAgent)
    (h : a.loopContinue env = some b) :
    a.CurrentStep < a.MaxSteps ∧ b.CurrentStep = a.CurrentStep + 1 ∧ b.State = a.State ∧
      b.MaxSteps = a.MaxSteps ∧ b.lastError = a.lastError ∧ b.lifecycle = a.lifecycle ∧
      b.eventChan = a.eventChan ∧ b.eventChanCap = a.eventChanCap := by
  unfold BaseAgent.loopContinue at h
  by_cases hc : a.CurrentStep < a.MaxSteps
  · simp only [hc, if_true] at h
    cases hctx : env.ctxDone a.CurrentStep.toNat with
    | true => simp [hctx] at h
    | false =>
      simp only [hctx] at h
      cases hth : env.think a.CurrentStep.toNat with
      | error err => simp [hth] at h
      | ok sa =>
        cases sa with
        | false =>
          simp only [hth, Bool.false_eq_true, if_false, Option.some.injEq] at h
          subst h
          exact ⟨hc, rfl, rfl, rfl, rfl, rfl, rfl, rfl⟩
        | true =>
          simp only [hth, Bool.false_eq_true, if_false] at h
          cases hact : env.act a.CurrentStep.toNat with
          | error err => simp [hact] at h
          | ok result =>
            simp only [hact] at h
            split at h
            · cases h
            · simp only [Option.some.injEq] at h
              subst h
              exact ⟨hc, rfl, rfl, rfl, rfl, rfl, rfl, rfl⟩
  · simp [hc] at h

theorem loopAfter_fields (env : RunEnv) (j : Nat) (a b : BaseAgent)
    (h : a.loopAfter env j = some b) :
    b.CurrentStep = a.CurrentStep + j ∧ b.State = a.State ∧
      b.MaxSteps = a.MaxSteps ∧ b.lastError = a.lastError ∧ b.lifecycle = a.lifecycle ∧
      b.eventChan = a.eventChan ∧ b.eventChanCap = a.eventChanCap := by
  induction j generalizing a with
  | zero =>
    simp only [BaseAgent.loopAfter, Option.some.injEq] at h
    subst h
    simp
  | succ j ih =>
    rw [BaseAgent.loopAfter] at h
    cases hc : a.loopContinue env with
    | none => simp [hc] at h
    | some c =>
      simp only [hc] at h
      obtain ⟨-, h1, h2, h3, h4, h5, h6, h7⟩ := loopContinue_fields env a c hc
      obtain ⟨g1, g2, g3, g4, g5, g6, g7⟩ := ih c h
      refine ⟨?_, g2.trans h2, g3.trans h3, g4.trans h4, g5.trans h5, g6.trans h6, g7.trans h7⟩
      rw [g1, h1]
      push_cast
      omega

/-- A pass consults the environment only at the index of its own step. -/
theorem loopContinue_congr (env env' : RunEnv) (a : BaseAgent)
    (h : env'.ctxDone a.CurrentStep.toNat = env.ctxDone a.CurrentStep.toNat ∧
      env'.think a.CurrentStep.toNat = env.think a.CurrentStep.toNat ∧
      env'.act a.CurrentStep.toNat = env.act a.CurrentStep.toNat) :
    a.loopContinue env' = a.loopContinue env := by
  unfold BaseAgent.loopContinue
  simp only [h.1, h.2.1, h.2.2]

theorem loopAfter_congr (env env' : RunEnv) (j : Nat) (a b : BaseAgent)
    (hreach : a.loopAfter env j = some b)
    (h : ∀ i, i ≤ b.CurrentStep.toNat → env'.ctxDone i = env.ctxDone i ∧
      env'.think i = env.think i ∧ env'.act i = env.act i) :
    a.loopAfter env' j = some b := by
  induction j generalizing a with
  | zero => exact hreach
  | succ j ih =>
    rw [BaseAgent.loopAfter] at hreach ⊢
    cases hc : a.loopContinue env with
    | none => simp [hc] at hreach
    | some c =>
      simp only [hc] at hreach
      obtain ⟨hlt, h1, -⟩ := loopContinue_fields env a c hc
      obtain ⟨g1, -, g3, -⟩ := loopAfter_fields env j c b hreach
      have hidx : a.CurrentStep.toNat ≤ b.CurrentStep.toNat := by
        have hb : a.CurrentStep < b.CurrentStep := by rw [g1, h1]; omega
        omega
      rw [loopContinue_congr env env' a (h _ hidx), hc]
      exact ih c hreach

theorem runLifecycle_Error_fields (a : BaseAgent) :
    (runLifecycle a Error).2.lastError = a.lastError ∧
      (runLifecycle a Error).2.Memory = a.Memory ∧
      (runLifecycle a Error).2.CurrentStep = a.CurrentStep := by
  unfold runLifecycle
  simp only [Error, Initializing, Running, Paused, Resuming, Finished]
  simp only [show ¬ ((6 : Int) = 1) by decide, show ¬ ((6 : Int) = 2) by decide,
    show ¬ ((6 : Int) = 3) by decide, show ¬ ((6 : Int) = 4) by decide,
    show ¬ ((6 : Int) = 5) by decide, if_false, if_true]
  cases a.lifecycle.OnError <;> exact ⟨rfl, rfl, rfl⟩

/-- The agent that `SetState(Error)` leaves when called in `Running`, whether the event send
completes or not: its state is `Error`; its last error, its log and its step counter are
untouched. -/
theorem SetState_Error_agent (a : BaseAgent) (h : a.State = Running) :
    (a.SetState Error).agent.State = Error ∧ (a.SetState Error).agent.lastError = a.lastError ∧
      (a.SetState Error).agent.Memory = a.Memory ∧
      (a.SetState Error).agent.CurrentStep = a.CurrentStep := by
  have hacc : transitionError a.State Error = none := by
    rw [h]
    decide
  by_cases room : a.eventChan.length < a.eventChanCap
  · rw [SetState_accepted_eq a Error hacc room]
    obtain ⟨h1, h2, h3⟩ := runLifecycle_Error_fields (afterEmit a Error)
    refine ⟨by rw [Exec.agent, runLifecycle_State]; rfl, ?_, ?_, ?_⟩
    · rw [Exec.agent, h1]; rfl
    · rw [Exec.agent, h2]; rfl
    · rw [Exec.agent, h3]; rfl
  · rw [SetState_blocked_eq a Error hacc room]
    exact ⟨rfl, rfl, rfl, rfl⟩

/-- On an agent without hooks an accepted transition with room in the event buffer returns nil
and changes the state and the event buffer only. -/
theorem SetState_no_hooks (a : BaseAgent) (T : AgentState)
    (hhooks : a.lifecycle = ⟨none, none, none, none, none, none, none⟩)
    (h : transitionError a.State T = none) (room : a.eventChan.length < a.eventChanCap) :
    a.SetState T = .done none (afterEmit a T) := by
  rw [SetState_accepted_eq a T h room]
  have hl : (afterEmit a T).lifecycle = ⟨none, none, none, none, none, none, none⟩ := hhooks
  have hr : runLifecycle (afterEmit a T) T = (none, afterEmit a T) := by
    unfold runLifecycle
    rw [hl]
    simp only [callHook]
    split_ifs <;> rfl
  rw [hr]

/-- Passes in which the context is not cancelled and `Think` reports no action only advance the
step counter. -/
theorem loopAfter_no_action (env : RunEnv) (k : Nat) (a : BaseAgent) (hpos : 0 ≤ a.CurrentStep)
    (hk : a.CurrentStep + k ≤ a.MaxSteps)
    (h : ∀ i, i < k → env.ctxDone (a.CurrentStep.toNat + i) = false ∧
      env.think (a.CurrentStep.toNat + i) = .ok false) :
    a.loopAfter env k = some { a with CurrentStep := a.CurrentStep + k } := by
  induction k generalizing a with
  | zero =>
    rw [BaseAgent.loopAfter]
    cases a
    simp
  | succ k ih =>
    have h0 := h 0 (by omega)
    rw [Nat.add_zero] at h0
    have hlt : a.CurrentStep < a.MaxSteps := by
      push_cast at hk
      omega
    have hc : a.loopContinue env = some { a with CurrentStep := a.CurrentStep + 1 } := by
      simp only [BaseAgent.loopContinue, hlt, if_true, h0.1, h0.2, Bool.false_eq_true, if_false]
    rw [BaseAgent.loopAfter, hc]
    simp only
    rw [ih { a with CurrentStep := a.CurrentStep + 1 } (by show 0 ≤ a.CurrentStep + 1; omega)
      (by show a.CurrentStep + 1 + (k : Int) ≤ a.MaxSteps; push_cast at hk; omega)
      (fun i hi => by
        have hi1 := h (i + 1) (by omega)
        have hidx : (a.CurrentStep + 1).toNat + i = a.CurrentStep.toNat + (i + 1) := by omega
        show env.ctxDone ((a.CurrentStep + 1).toNat + i) = false ∧
          env.think ((a.CurrentStep + 1).toNat + i) = .ok false
        rw [hidx]
        exact hi1)]
    congr 2
    show a.CurrentStep + 1 + (k : Int) = a.CurrentStep + ((k + 1 : Nat) : Int)
    push_cast
    omega

/-- An iteration that observes the cancellation returns what `SetState(Terminated)` returns. -/
theorem runLoop_cancelled (env : RunEnv) (n : Nat) (b : BaseAgent)
    (hstep : b.CurrentStep < b.MaxSteps) (hc : env.ctxDone b.CurrentStep.toNat = true) :
    b.runLoop env (n + 1) = b.SetState Terminated := by
  simp only [BaseAgent.runLoop, hstep, if_true, hc]

/-- C11 (the code on every input of the claim): on an agent in `Idle` without hooks, with room
for the two start events, whose context is first observed as cancelled at the start of
iteration `k` (`k < MaxSteps`), `Run` does stop iterating, but it returns the error of the
rejected transition `Running -> Terminated` and the agent is left in `Running`, not in
`Terminated`; the table accepts `Terminated` from `Idle` and from `Paused` only. -/
theorem Run_cancel_rejected (a : BaseAgent) (ctxDone : Nat → Bool)
    (act : Nat → Except GoError String) (k : Nat)
    (hidle : a.State = Idle)
    (hhooks : a.lifecycle = ⟨none, none, none, none, none, none, none⟩)
    (room : a.eventChan.length + 2 ≤ a.eventChanCap) (hk : (k : Int) < a.MaxSteps)
    (hbefore : ∀ i, i < k → ctxDone i = false) (hcancel : ctxDone k = true) :
    (∃ a', a.Run ctxDone act = .done (some "invalid state transition from Running to 7") a' ∧
      a'.State = Running ∧ a'.State ≠ Terminated ∧ a'.CurrentStep = k) ∧
      transitionError Running Terminated ≠ none ∧
      transitionError Idle Terminated = none ∧ transitionError Paused Terminated = none := by
  refine ⟨?_, by decide, by decide, by decide⟩
  have h1 : a.SetState Initializing = .done none (afterEmit a Initializing) :=
    SetState_no_hooks a Initializing hhooks (by rw [hidle]; decide) (by omega)
  have h2 : (afterEmit a Initializing).SetState Running =
      .done none (afterEmit (afterEmit a Initializing) Running) :=
    SetState_no_hooks _ Running hhooks
      (by show transitionError Initializing Running = none; decide) (by
      show (a.eventChan ++ [_]).length < a.eventChanCap
      rw [List.length_append, List.length_singleton]
      omega)
  obtain ⟨n, hn⟩ : ∃ n, a.MaxSteps.toNat = k + (n + 1) := ⟨a.MaxSteps.toNat - k - 1, by omega⟩
  let a3 : BaseAgent := { afterEmit (afterEmit a Initializing) Running with CurrentStep := 0 }
  let env : RunEnv := { ctxDone := ctxDone, think := fun _ => a.Think, act := act }
  have hreach : a3.loopAfter env k = some { a3 with CurrentStep := a3.CurrentStep + k } :=
    loopAfter_no_action env k a3 (le_refl _)
      (by show (0 : Int) + k ≤ a.MaxSteps; omega)
      (fun i hi => ⟨by show ctxDone ((0 : Int).toNat + i) = false
                       rw [Int.toNat_zero, Nat.zero_add]
                       exact hbefore i hi, rfl⟩)
  refine ⟨{ a3 with CurrentStep := a3.CurrentStep + k }, ?_, rfl,
    by show Running ≠ Terminated; decide, ?_⟩
  · show BaseAgent.RunWith env a = _
    unfold BaseAgent.RunWith
    rw [h1]
    simp only
    rw [h2]
    simp only
    show a3.runLoop env a.MaxSteps.toNat = _
    rw [hn, runLoop_of_loopAfter env k (n + 1) a3 _ hreach,
      runLoop_cancelled env n { a3 with CurrentStep := a3.CurrentStep + k }
        (by show (0 : Int) + k < a.MaxSteps; omega)
        (by show ctxDone ((0 : Int) + (k : Int)).toNat = true
            rw [show ((0 : Int) + (k : Int)).toNat = k by omega]
            exact hcancel)]
    exact SetState_of_transitionError { a3 with CurrentStep := a3.CurrentStep + k } Terminated
      "invalid state transition from Running to 7"
      (by show transitionError Running Terminated = some _; decide)
  · show (0 : Int) + k = k
    omega

/-- C11 (the failing input): the fresh agent with a context already cancelled when the loop
starts. -/
theorem Run_cancel_rejected_witness :
    (∃ a', freshAgent.Run (fun _ => true) (fun _ => .ok "") =
        .done (some "invalid state transition from Running to 7") a' ∧
      a'.State = Running ∧ a'.State ≠ Terminated ∧ a'.CurrentStep = (0 : Nat)) ∧
      transitionError Running Terminated ≠ none ∧
      transitionError Idle Terminated = none ∧ transitionError Paused Terminated = none :=
  Run_cancel_rejected freshAgent (fun _ => true) (fun _ => .ok "") 0 (by decide) (by rfl)
    (by decide) (by decide) (fun i hi => absurd hi (Nat.not_lt_zero i)) rfl

/-- C12: in the loop of `Run` entered in `Running`, let `b` be the agent at the start of the
first iteration at which `Think` or `Act` fails, with error `e` (the `j` passes before it
continued, the context is not cancelled at it).  Then the loop ends there with what
`SetState(Error)` does after the assignment of the last error: the agent is left in `Error` with
last error `e`, its log and its step counter are those of `b`, and the outcomes of `Think` and
`Act` at later iterations are not consulted, the result being the same for every execution that
agrees up to this iteration.  The bound `m` on the iterations only has to exceed `j`, which the
bound `MaxSteps` that `Run` passes does when the loop starts at step 0. -/
theorem Run_first_failure_ends_loop (env : RunEnv) (a b : BaseAgent) (j m : Nat) (e : GoError)
    (hrun : a.State = Running) (hreach : a.loopAfter env j = some b) (hm : j < m)
    (hstep : b.CurrentStep < b.MaxSteps)
    (hctx : env.ctxDone b.CurrentStep.toNat = false)
    (hfail : env.think b.CurrentStep.toNat = .error e ∨
      (env.think b.CurrentStep.toNat = .ok true ∧ env.act b.CurrentStep.toNat = .error e)) :
    a.runLoop env m = BaseAgent.SetState { b with lastError := some e } Error ∧
      (a.runLoop env m).agent.State = Error ∧
      (a.runLoop env m).agent.lastError = some e ∧
      (a.runLoop env m).agent.Memory = b.Memory ∧
      (a.runLoop env m).agent.CurrentStep = b.CurrentStep ∧
      (∀ env' : RunEnv,
        (∀ i, i ≤ b.CurrentStep.toNat → env'.ctxDone i = env.ctxDone i ∧
          env'.think i = env.think i ∧ env'.act i = env.act i) →
        a.runLoop env' m = a.runLoop env m) ∧
      (a.CurrentStep = 0 → j < a.MaxSteps.toNat) := by
  have key : ∀ env' : RunEnv,
      (∀ i, i ≤ b.CurrentStep.toNat → env'.ctxDone i = env.ctxDone i ∧
        env'.think i = env.think i ∧ env'.act i = env.act i) →
      a.runLoop env' m = BaseAgent.SetState { b with lastError := some e } Error := by
    intro env' hagree
    obtain ⟨n, rfl⟩ : ∃ n, m = j + (n + 1) := ⟨m - j - 1, by omega⟩
    rw [runLoop_of_loopAfter env' j (n + 1) a b (loopAfter_congr env env' j a b hreach hagree),
      BaseAgent.runLoop]
    obtain ⟨hc, ht, ha⟩ := hagree _ (le_refl _)
    simp only [hstep, if_true, hc, ht, ha, hctx, Bool.false_eq_true, if_false]
    rcases hfail with hf | ⟨hf1, hf2⟩
    · simp only [hf]
    · simp only [hf1, hf2]
  have hself := key env (fun i _ => ⟨rfl, rfl, rfl⟩)
  have hb : b.State = Running := (loopAfter_fields env j a b hreach).2.1.trans hrun
  obtain ⟨s1, s2, s3, s4⟩ := SetState_Error_agent { b with lastError := some e } hb
  have hfuel : a.CurrentStep = 0 → j < a.MaxSteps.toNat := by
    intro h0
    obtain ⟨g1, -, g3, -⟩ := loopAfter_fields env j a b hreach
    rw [g1, g3, h0] at hstep
    omega
  rw [hself]
  exact ⟨rfl, s1, s2, s3, s4, fun env' hagree => key env' hagree, hfuel⟩

/-- C12 (witness): the fresh agent started by `Run`, with `Act` succeeding at iterations 0 and
1 and failing at iteration 2. -/
theorem Run_first_failure_ends_loop_witness :
    freshAgent.RunWith failingEnv = runningAgent.runLoop failingEnv 10 ∧
      (runningAgent.runLoop failingEnv 10).agent.State = Error ∧
      (runningAgent.runLoop failingEnv 10).agent.lastError = some "tool down" ∧
      (runningAgent.runLoop failingEnv 10).agent.logEntries =
        [("assistant", "a"), ("assistant", "b")] ∧
      (runningAgent.runLoop failingEnv 10).agent.CurrentStep = 2 ∧
      (∀ env' : RunEnv,
        (∀ i, i ≤ 2 → env'.ctxDone i = failingEnv.ctxDone i ∧
          env'.think i = failingEnv.think i ∧ env'.act i = failingEnv.act i) →
        runningAgent.runLoop env' 10 = runningAgent.runLoop failingEnv 10) ∧
      (runningAgent.CurrentStep = 0 → 2 < runningAgent.MaxSteps.toNat) := by
  have h := Run_first_failure_ends_loop failingEnv runningAgent
    ((runningAgent.loopAfter failingEnv 2).getD runningAgent) 2 10 "tool down"
    (by decide) (by rfl) (by decide) (by decide) (by rfl) (Or.inr ⟨by rfl, by rfl⟩)
  refine ⟨by rfl, h.2.1, h.2.2.1, ?_, ?_, h.2.2.2.2.2.1, h.2.2.2.2.2.2⟩
  · rw [BaseAgent.logEntries, h.2.2.2.1]
    rfl
  · rw [h.2.2.2.2.1]
    rfl

/-! ## The `ReAct` loop -/

theorem dropLiteral_eq_some_iff (lit cs r : List Char) :
    dropLiteral lit cs = some r ↔ cs = lit ++ r := by
  induction lit generalizing cs with
  | nil => simp [dropLiteral, eq_comm]
  | cons l ls ih =>
    cases cs with
    | nil => simp [dropLiteral]
    | cons c cs =>
      by_cases hc : l = c
      · subst hc
        simp [dropLiteral, ih]
      · have hc' : ¬ c = l := fun h => hc h.symm
        simp [dropLiteral, hc, hc']

/-- The function `hasSubstring` is `strings.Contains`: it holds iff the text splits around an
occurrence of the literal. -/
theorem hasSubstring_iff (sub s : List Char) :
    hasSubstring sub s = true ↔ ∃ pre post, s = pre ++ sub ++ post := by
  constructor
  · intro h
    induction s with
    | nil =>
      rw [hasSubstring, Option.isSome_iff_exists] at h
      obtain ⟨r, hr⟩ := h
      exact ⟨[], r, by simpa using (dropLiteral_eq_some_iff sub [] r).mp hr⟩
    | cons c cs ih =>
      rw [hasSubstring, Bool.or_eq_true] at h
      rcases h with h | h
      · rw [Option.isSome_iff_exists] at h
        obtain ⟨r, hr⟩ := h
        exact ⟨[], r, by simpa using (dropLiteral_eq_some_iff sub _ r).mp hr⟩
      · obtain ⟨pre, post, hs⟩ := ih h
        exact ⟨c :: pre, post, by rw [hs]; rfl⟩
  · rintro ⟨pre, post, rfl⟩
    rw [List.append_assoc]
    exact hasSubstring_of_append sub pre post

/-- The leftmost-occurrence search fails exactly on the texts that do not contain the literal. -/
theorem findLiteral_eq_none_iff (lit s : List Char) :
    findLiteral lit s = none ↔ hasSubstring lit s = false := by
  induction s with
  | nil =>
    rw [findLiteral, hasSubstring]
    cases dropLiteral lit [] <;> simp
  | cons c cs ih =>
    rw [findLiteral, hasSubstring]
    cases h : dropLiteral lit (c :: cs) with
    | none => simpa using ih
    | some r => simp

theorem findLiteral_append (lit rest : List Char) :
    findLiteral lit (lit ++ rest) = some rest := by
  have h := dropLiteral_append lit rest
  cases hl : lit ++ rest with
  | nil =>
    rw [hl] at h
    rw [findLiteral, h]
  | cons c cs =>
    rw [hl] at h
    rw [findLiteral, h]

/-- C16: in a round of the loop of `ReactAgent.Act` (any number of rounds left, any agent, any
conversation so far) in which the reply parses to the action `Final Answer`, the call returns
the parsed action input and a nil error; the round has recorded one model call, the one that
produced the reply, and has looked up and invoked no tool (the trace of tool invocations is
unchanged, and the tool collection, nil or not, is not consulted). -/
theorem ReactAgent_final_answer_round (n : Nat) (a : ReactAgent) (messages : List LLMMessage)
    (content : String) (others : List String) (thought input : String)
    (hreply :
      a.base.llmClient.replies a.base.llmClient.requests.length = .response (content :: others))
    (hparse : ReactAgent.parseReActOutput content = .ok (thought, "Final Answer", input)) :
    ∃ a', ReactAgent.actLoop (n + 1) a messages = .done (.ok input) a' ∧
      a'.base.toolCalls = a.base.toolCalls ∧
      a'.base.llmClient.requests = a.base.llmClient.requests ++ [messages] := by
  refine ⟨{ a with base := { a.base with llmClient := (a.base.llmClient.GetCompletion
    messages).2 } }, ?_, rfl, rfl⟩
  simp only [ReactAgent.actLoop, LLMClient.GetCompletion, hreply, hparse, if_true]

/-- C16 (witness): an agent built without a tool collection whose model answers at once with
the action `Final Answer`; and a script whose second reply is the final answer. -/
theorem ReactAgent_final_answer_round_witness :
    (∃ a', (NewReactAgent (replyingLLM "Thought: done\nAction: Final Answer\nAction Input: 42")
          none).Act "task" = .done (.ok "42") a' ∧
        a'.base.toolCalls = [] ∧
        a'.base.llmClient.requests =
          [] ++ [[⟨"system", reactSystemPrompt⟩, ⟨"user", "task"⟩]]) ∧
      ((NewReactAgent (scriptedLLM ["Thought: look\nAction: shell\nAction Input: ls",
            "Thought: done\nAction: Final Answer\nAction Input: two files"])
          (some shellTools)).Act "task").returned.map
          (fun r => (r.1, r.2.modelCalls, r.2.base.toolCalls)) =
        some (.ok "two files", 2, [("shell", .text "ls")]) :=
  ⟨ReactAgent_final_answer_round 4
      (NewReactAgent (replyingLLM "Thought: done\nAction: Final Answer\nAction Input: 42") none)
      [⟨"system", reactSystemPrompt⟩, ⟨"user", "task"⟩]
      "Thought: done\nAction: Final Answer\nAction Input: 42" [] "done" "42" (by rfl) (by rfl),
    by rfl⟩

/-- C17 (the code on the outputs of the claim): when the model output is a `Thought` line
followed by a `Final Answer` line and the text `Action: ` does not occur in it,
`parseReActOutput` fails for want of an `Action` line, and `ReactAgent.Act` returns that parse
error, not the answer; no tool is invoked.  The terminal action is recognised only when written
as the action `Final Answer` with the answer as its `Action Input`. -/
theorem ReactAgent_final_answer_line_rejected (a : ReactAgent) (prompt thought answer : String)
    (others : List String)
    (hreply : a.base.llmClient.replies a.base.llmClient.requests.length =
      .response (finalAnswerText thought answer :: others))
    (hno : hasSubstring "Action: ".data (finalAnswerText thought answer).data = false) :
    ReactAgent.parseReActOutput (finalAnswerText thought answer) =
        .error ("无法解析 Action: " ++ finalAnswerText thought answer) ∧
      ∃ a', a.Act prompt =
          .done (.error ("解析 LLM 输出失败: " ++
            ("无法解析 Action: " ++ finalAnswerText thought answer))) a' ∧
        a'.base.toolCalls = a.base.toolCalls := by
  have hthought : ∃ r, findLine "Thought: " (finalAnswerText thought answer).data = some r := by
    have hd : (finalAnswerText thought answer).data =
        "Thought: ".data ++ (thought.data ++ "\nFinal Answer: ".data ++ answer.data) := by
      simp [finalAnswerText, String.data_append]
    rw [findLine, hd, findLiteral_append]
    exact ⟨_, rfl⟩
  obtain ⟨r, hr⟩ := hthought
  have haction : findLine "Action: " (finalAnswerText thought answer).data = none := by
    rw [findLine, (findLiteral_eq_none_iff _ _).mpr hno]
    rfl
  have hparse : ReactAgent.parseReActOutput (finalAnswerText thought answer) =
      .error ("无法解析 Action: " ++ finalAnswerText thought answer) := by
    simp only [ReactAgent.parseReActOutput, hr, haction]
  refine ⟨hparse, { a with base := { a.base with llmClient := (a.base.llmClient.GetCompletion
    [{ Role := "system", Content := reactSystemPrompt },
     { Role := "user", Content := prompt }]).2 } }, ?_, rfl⟩
  simp only [ReactAgent.Act, ReactAgent.actLoop, LLMClient.GetCompletion, hreply, hparse]

/-- C17 (the failing input): the reply `Thought: 我已经完成任务` / `Final Answer: 42`; the
same answer written as the action `Final Answer` is returned. -/
theorem ReactAgent_final_answer_line_rejected_witness :
    (ReactAgent.parseReActOutput (finalAnswerText "我已经完成任务" "42") =
        .error ("无法解析 Action: " ++ finalAnswerText "我已经完成任务" "42") ∧
      ∃ a', (NewReactAgent (replyingLLM (finalAnswerText "我已经完成任务" "42"))
          (some shellTools)).Act "task" =
          .done (.error ("解析 LLM 输出失败: " ++
            ("无法解析 Action: " ++ finalAnswerText "我已经完成任务" "42"))) a' ∧
        a'.base.toolCalls =
          (NewReactAgent (replyingLLM (finalAnswerText "我已经完成任务" "42"))
            (some shellTools)).base.toolCalls) ∧
      ((NewReactAgent
          (replyingLLM "Thought: 我已经完成任务\nAction: Final Answer\nAction Input: 42")
          (some shellTools)).Act "task").returned.map (fun r => r.1) = some (.ok "42") :=
  ⟨ReactAgent_final_answer_line_rejected
      (NewReactAgent (replyingLLM (finalAnswerText "我已经完成任务" "42")) (some shellTools))
      "task" "我已经完成任务" "42" [] (by rfl) (by rfl),
    by rfl⟩

/-- Rounds that all dispatch a registered tool with success use up the bound: the loop returns
the fixed text after one model call and one tool invocation per round. -/
theorem actLoop_scripted (tc : ToolCollection) (n : Nat) (a : ReactAgent)
    (messages : List LLMMessage) (htools : a.base.tools = some tc)
    (hscript : ∀ i, i < n → ∃ content others thought action input tool result,
      a.base.llmClient.replies (a.base.llmClient.requests.length + i) =
          .response (content :: others) ∧
        ReactAgent.parseReActOutput content = .ok (thought, action, input) ∧
        action ≠ "Final Answer" ∧ tc.Get action = .ok tool ∧
        tool.Run (.text input) = .ok result) :
    ∃ a', ReactAgent.actLoop n a messages = .done (.ok "达到最大步骤限制，任务未完成") a' ∧
      a'.base.llmClient.requests.length = a.base.llmClient.requests.length + n ∧
      a'.base.toolCalls.length = a.base.toolCalls.length + n := by
  induction n generalizing a messages with
  | zero => exact ⟨a, rfl, rfl, rfl⟩
  | succ n ih =>
    obtain ⟨content, others, thought, action, input, tool, result, h1, h2, h3, h4, h5⟩ :=
      hscript 0 (Nat.succ_pos n)
    rw [Nat.add_zero] at h1
    have hstep : ReactAgent.actLoop (n + 1) a messages =
        ReactAgent.actLoop n
          { a with base := { a.base with
              llmClient := { a.base.llmClient with
                requests := a.base.llmClient.requests ++ [messages] }
              toolCalls := a.base.toolCalls ++ [(action, .text input)] } }
          (messages ++
            [{ Role := "assistant",
               Content := "Thought: " ++ thought ++ "\nAction: " ++ action ++
                 "\nAction Input: " ++ input },
             { Role := "system", Content := "Observation: " ++ result.render }]) := by
      simp only [ReactAgent.actLoop, LLMClient.GetCompletion, h1, h2, h3, if_false, htools, h4,
        h5]
    rw [hstep]
    obtain ⟨a', e1, e2, e3⟩ := ih
      { a with base := { a.base with
          llmClient := { a.base.llmClient with
            requests := a.base.llmClient.requests ++ [messages] }
          toolCalls := a.base.toolCalls ++ [(action, .text input)] } }
      (messages ++
        [{ Role := "assistant",
           Content := "Thought: " ++ thought ++ "\nAction: " ++ action ++
             "\nAction Input: " ++ input },
         { Role := "system", Content := "Observation: " ++ result.render }])
      htools
      (fun i hi => by
        have h := hscript (i + 1) (by omega)
        show ∃ content others thought action input tool result,
          a.base.llmClient.replies ((a.base.llmClient.requests ++ [messages]).length + i) =
              .response (content :: others) ∧ _
        rw [List.length_append, List.length_singleton,
          show a.base.llmClient.requests.length + 1 + i =
            a.base.llmClient.requests.length + (i + 1) by omega]
        exact h)
    refine ⟨a', e1, ?_, ?_⟩
    · rw [e2]
      show (a.base.llmClient.requests ++ [messages]).length + n = _
      rw [List.length_append, List.length_singleton]
      omega
    · rw [e3]
      show (a.base.toolCalls ++ [(action, ToolInput.text input)]).length + n = _
      rw [List.length_append, List.length_singleton]
      omega

/-- The loop with `n` rounds left makes at most `n` model calls, whatever the replies. -/
theorem actLoop_calls_le (n : Nat) (a : ReactAgent) (messages : List LLMMessage) :
    (ReactAgent.actLoop n a messages).agent.base.llmClient.requests.length ≤
      a.base.llmClient.requests.length + n := by
  induction n generalizing a messages with
  | zero => exact le_refl _
  | succ n ih =>
    rw [ReactAgent.actLoop]
    have hlen : (a.base.llmClient.GetCompletion messages).2.requests.length =
        a.base.llmClient.requests.length + 1 := by
      simp [LLMClient.GetCompletion]
    simp only
    repeat' split
    all_goals first
      | (simp only [Exec.agent, hlen]; omega)
      | (refine le_trans (ih _ _) ?_
         simp only [hlen]
         omega)

/-- C18: for every script of model replies whose first five all parse to an action other than
`Final Answer` on a registered tool that succeeds, `ReactAgent.Act` returns the fixed text
`达到最大步骤限制，任务未完成` and a nil error after exactly five model calls and five tool
invocations; and in no execution, whatever the agent and the replies, does `Act` make more than
five model calls. -/
theorem ReactAgent_round_budget (a : ReactAgent) (prompt : String) (tc : ToolCollection)
    (htools : a.base.tools = some tc)
    (hscript : ∀ i, i < 5 → ∃ content others thought action input tool result,
      a.base.llmClient.replies (a.base.llmClient.requests.length + i) =
          .response (content :: others) ∧
        ReactAgent.parseReActOutput content = .ok (thought, action, input) ∧
        action ≠ "Final Answer" ∧ tc.Get action = .ok tool ∧
        tool.Run (.text input) = .ok result) :
    (∃ a', a.Act prompt = .done (.ok "达到最大步骤限制，任务未完成") a' ∧
      a'.base.llmClient.requests.length = a.base.llmClient.requests.length + 5 ∧
      a'.base.toolCalls.length = a.base.toolCalls.length + 5) ∧
      ∀ (b : ReactAgent) (p : String),
        (b.Act p).agent.base.llmClient.requests.length ≤
          b.base.llmClient.requests.length + 5 :=
  ⟨actLoop_scripted tc 5 a _ htools hscript, fun b _ => actLoop_calls_le 5 b _⟩

/-- C18 (witness): a model that asks for the registered tool `shell` at every call. -/
theorem ReactAgent_round_budget_witness :
    (∃ a', (NewReactAgent (replyingLLM "Thought: next\nAction: shell\nAction Input: ls")
          (some shellTools)).Act "task" = .done (.ok "达到最大步骤限制，任务未完成") a' ∧
      a'.base.llmClient.requests.length =
        (NewReactAgent (replyingLLM "Thought: next\nAction: shell\nAction Input: ls")
          (some shellTools)).base.llmClient.requests.length + 5 ∧
      a'.base.toolCalls.length =
        (NewReactAgent (replyingLLM "Thought: next\nAction: shell\nAction Input: ls")
          (some shellTools)).base.toolCalls.length + 5) ∧
      ∀ (b : ReactAgent) (p : String),
        (b.Act p).agent.base.llmClient.requests.length ≤
          b.base.llmClient.requests.length + 5 :=
  ReactAgent_round_budget
    (NewReactAgent (replyingLLM "Thought: next\nAction: shell\nAction Input: ls")
      (some shellTools)) "task" shellTools rfl
    (fun _ _ => ⟨"Thought: next\nAction: shell\nAction Input: ls", [], "next", "shell", "ls",
      echoTool "shell", .str "shell", rfl, by rfl, by decide, by rfl, rfl⟩)

/-! ## The follow-up step of `BaseAgent.Act` -/

/-- C19: `handleToolResult` makes one model call with the tool-result prompt.  If the reply does
not contain the text `Action:`, the call returns that reply and a nil error, and no tool has
been invoked; if the reply contains `Action:`, the call is what `Act` does when entered with the
reply as its prompt. -/
theorem handleToolResult_marker (n : Nat) (a : BaseAgent) (prompt result content : String)
    (others : List String)
    (hreply : a.llmClient.replies a.llmClient.requests.length = .response (content :: others)) :
    ((¬ ∃ pre post, content.data = pre ++ "Action:".data ++ post) →
        a.handleToolResult n prompt result = some (.done (.ok content) (afterResultCall a result)) ∧
          (afterResultCall a result).toolCalls = a.toolCalls) ∧
      ((∃ pre post, content.data = pre ++ "Action:".data ++ post) →
        a.handleToolResult n prompt result = BaseAgent.Act n (afterResultCall a result) content) ∧
      (afterResultCall a result).llmClient.requests =
        a.llmClient.requests ++ [[{ Role := "user", Content := resultPromptText result }]] := by
  refine ⟨fun h => ⟨?_, rfl⟩, fun h => ?_, rfl⟩
  · have hs : hasSubstring "Action:".data content.data = false := by
      rw [← Bool.not_eq_true, hasSubstring_iff]
      exact h
    simp only [BaseAgent.handleToolResult, BaseAgent.handleToolResultWith,
      LLMClient.GetCompletion, hreply, hs, Bool.false_eq_true, if_false]
    rfl
  · have hs : hasSubstring "Action:".data content.data = true := (hasSubstring_iff _ _).mpr h
    simp only [BaseAgent.handleToolResult, BaseAgent.handleToolResultWith,
      LLMClient.GetCompletion, hreply, hs, if_true]
    rfl

/-- C19 (witness): after the tool result `3 files`, a reply without the marker is returned as
it is; a reply with the marker starts a second dispatch, which invokes the tool `shell`. -/
theorem handleToolResult_marker_witness :
    (((¬ ∃ pre post, "There are 3 files.".data = pre ++ "Action:".data ++ post) →
        (NewBaseAgent "base" (replyingLLM "There are 3 files.")
            (some shellTools)).handleToolResult 3 "count" "3 files" =
          some (.done (.ok "There are 3 files.")
            (afterResultCall (NewBaseAgent "base" (replyingLLM "There are 3 files.")
              (some shellTools)) "3 files")) ∧
        (afterResultCall (NewBaseAgent "base" (replyingLLM "There are 3 files.")
            (some shellTools)) "3 files").toolCalls =
          (NewBaseAgent "base" (replyingLLM "There are 3 files.") (some shellTools)).toolCalls) ∧
      ((∃ pre post, "There are 3 files.".data = pre ++ "Action:".data ++ post) →
        (NewBaseAgent "base" (replyingLLM "There are 3 files.")
            (some shellTools)).handleToolResult 3 "count" "3 files" =
          BaseAgent.Act 3 (afterResultCall (NewBaseAgent "base" (replyingLLM "There are 3 files.")
            (some shellTools)) "3 files") "There are 3 files.") ∧
      (afterResultCall (NewBaseAgent "base" (replyingLLM "There are 3 files.")
          (some shellTools)) "3 files").llmClient.requests =
        (NewBaseAgent "base" (replyingLLM "There are 3 files.")
          (some shellTools)).llmClient.requests ++
          [[{ Role := "user", Content := resultPromptText "3 files" }]]) ∧
      (((NewBaseAgent "base"
            (scriptedLLM ["Thought: again\nAction: shell\nAction Input: \x7b\x7d",
              "Action: shell\nAction Input: \x7b\x7d", "done"])
            (some shellTools)).handleToolResult 3 "count" "3 files").bind Exec.returned).map
          (fun r => (r.1, r.2.toolCalls.map (fun c => c.1), r.2.llmClient.requests.length)) =
        some (.ok "done", ["shell"], 3) :=
  ⟨handleToolResult_marker 3
      (NewBaseAgent "base" (replyingLLM "There are 3 files.") (some shellTools))
      "count" "3 files" "There are 3 files." [] rfl,
    by rfl⟩

/-! ## The flow: selection, workers, integration -/

/-- The selection step on a reply that decodes: one model call, then the validation of the
names in order. -/
theorem analyzeTask_of_reply (f : BaseFlow) (prompt content : String) (others : List String)
    (response : SelectionResponse)
    (hreply : f.llmClient.replies f.llmClient.requests.length = .response (content :: others))
    (hdecode : jsonUnmarshalResponse content = .ok response) :
    f.analyzeTask prompt =
      match response.Agents.find? (fun agentName => (f.lookup agentName).isNone) with
      | some agentName =>
        .done (.error ("未知的智能体: " ++ agentName))
          { f with llmClient := (f.llmClient.GetCompletion (analyzeMessages prompt)).2 }
      | none =>
        .done (.ok response.Agents)
          { f with llmClient := (f.llmClient.GetCompletion (analyzeMessages prompt)).2 } := by
  simp only [BaseFlow.analyzeTask, LLMClient.GetCompletion, hreply, hdecode]

/-- C13: when the selection reply decodes to a list holding a name that is not a key of the
agent map, `analyzeTask` returns the unknown-agent error naming the first such name of the list,
and `Execute` returns an empty result and that error wrapped as an analysis failure; `Act` has
been called on no agent and the only model call made is the selection call, so the integration
step did not run.  Known names listed before or after the unknown one change nothing. -/
theorem Execute_unknown_agent (f : BaseFlow) (order : List Nat) (prompt content : String)
    (others : List String) (response : SelectionResponse) (name : String)
    (hreply : f.llmClient.replies f.llmClient.requests.length = .response (content :: others))
    (hdecode : jsonUnmarshalResponse content = .ok response)
    (hlisted : name ∈ response.Agents) (hunknown : f.lookup name = none) :
    ∃ unknown f', unknown ∈ response.Agents ∧ f.lookup unknown = none ∧
      (∃ known rest, response.Agents = known ++ unknown :: rest ∧
        ∀ n ∈ known, f.lookup n ≠ none) ∧
      f.analyzeTask prompt = .done (.error ("未知的智能体: " ++ unknown)) f' ∧
      f.Execute order prompt =
        .done ("", some ("任务分析失败: " ++ ("未知的智能体: " ++ unknown))) f' ∧
      f'.actCalls = f.actCalls ∧
      f'.llmClient.requests = f.llmClient.requests ++ [analyzeMessages prompt] := by
  have han := analyzeTask_of_reply f prompt content others response hreply hdecode
  cases hfind : response.Agents.find? (fun agentName => (f.lookup agentName).isNone) with
  | none =>
    rw [List.find?_eq_none] at hfind
    have := hfind name hlisted
    simp [hunknown] at this
  | some unknown =>
    rw [hfind] at han
    obtain ⟨hp, known, rest, hsplit, hknown⟩ := List.find?_eq_some.mp hfind
    refine ⟨unknown, { f with llmClient := (f.llmClient.GetCompletion (analyzeMessages prompt)).2 },
      List.mem_of_find?_eq_some hfind, by simpa using hp, ⟨known, rest, hsplit, ?_⟩, han, ?_, rfl,
      rfl⟩
    · intro n hn
      have := hknown n hn
      intro hnone
      simp [hnone] at this
    · rw [BaseFlow.Execute, han]

/-- C13 (witness): the selection lists the known agent `manus` and the unknown name `ghost`. -/
theorem Execute_unknown_agent_witness :
    ∃ unknown f',
      unknown ∈ ({ Agents := ["manus", "ghost"], Reason := "x" } : SelectionResponse).Agents ∧
      (sampleFlow ["\x7b\"agents\": [\"manus\", \"ghost\"], \"reason\": \"x\"\x7d"]).lookup
        unknown = none ∧
      (∃ known rest,
        ({ Agents := ["manus", "ghost"], Reason := "x" } : SelectionResponse).Agents =
          known ++ unknown :: rest ∧
        ∀ n ∈ known,
          (sampleFlow ["\x7b\"agents\": [\"manus\", \"ghost\"], \"reason\": \"x\"\x7d"]).lookup
            n ≠ none) ∧
      (sampleFlow ["\x7b\"agents\": [\"manus\", \"ghost\"], \"reason\": \"x\"\x7d"]).analyzeTask
          "task" = .done (.error ("未知的智能体: " ++ unknown)) f' ∧
      (sampleFlow ["\x7b\"agents\": [\"manus\", \"ghost\"], \"reason\": \"x\"\x7d"]).Execute
          [0, 1] "task" =
        .done ("", some ("任务分析失败: " ++ ("未知的智能体: " ++ unknown))) f' ∧
      f'.actCalls =
        (sampleFlow ["\x7b\"agents\": [\"manus\", \"ghost\"], \"reason\": \"x\"\x7d"]).actCalls ∧
      f'.llmClient.requests =
        (sampleFlow
          ["\x7b\"agents\": [\"manus\", \"ghost\"], \"reason\": \"x\"\x7d"]).llmClient.requests ++
          [analyzeMessages "task"] :=
  Execute_unknown_agent
    (sampleFlow ["\x7b\"agents\": [\"manus\", \"ghost\"], \"reason\": \"x\"\x7d"]) [0, 1] "task"
    "\x7b\"agents\": [\"manus\", \"ghost\"], \"reason\": \"x\"\x7d" []
    { Agents := ["manus", "ghost"], Reason := "x" } "ghost" (by rfl) (by rfl) (by decide)
    (by rfl)

theorem range_filterMap_getElem {α : Type} (l : List α) :
    (List.range l.length).filterMap (fun i => l[i]?) = l := by
  induction l with
  | nil => rfl
  | cons x xs ih =>
    rw [List.length_cons, List.range_succ_eq_map, List.filterMap_cons, List.filterMap_map]
    simp only [List.getElem?_cons_zero]
    congr 1
    have hf : ((fun i => (x :: xs)[i]?) ∘ Nat.succ) = fun i => xs[i]? := by
      funext i
      simp
    rw [hf]
    exact ih

/-- Whatever the order of arrival, the values that arrive are those the workers sent. -/
theorem arrived_perm {α : Type} (sends : List α) (order : List Nat)
    (horder : order.Perm (List.range sends.length)) :
    (order.filterMap (fun i => sends[i]?)).Perm sends := by
  have h := horder.filterMap (fun i => sends[i]?)
  rwa [range_filterMap_getElem] at h

theorem spawnWorkers_some (f : BaseFlow) (prompt : String) (names : List String)
    (hknown : ∀ n ∈ names, f.lookup n ≠ none) :
    ∃ sends, f.spawnWorkers prompt names = some sends := by
  induction names with
  | nil => exact ⟨[], rfl⟩
  | cons n ns ih =>
    obtain ⟨sends, hs⟩ := ih (fun m hm => hknown m (List.mem_cons_of_mem _ hm))
    cases hl : f.lookup n with
    | none => exact absurd hl (hknown n (List.mem_cons_self _ _))
    | some ag =>
      exact ⟨workerSend n (ag.Act prompt) :: sends, by simp only [BaseFlow.spawnWorkers, hl, hs]⟩

/-- The sends of the workers: one per selected name, in the order of the selection, each the
send of the worker for that name. -/
theorem spawnWorkers_forall2 (f : BaseFlow) (prompt : String) (names : List String)
    (sends : List (Except GoError agentResult))
    (h : f.spawnWorkers prompt names = some sends) :
    List.Forall₂ (fun n s => ∃ ag, f.lookup n = some ag ∧ s = workerSend n (ag.Act prompt))
      names sends := by
  induction names generalizing sends with
  | nil =>
    simp only [BaseFlow.spawnWorkers, Option.some.injEq] at h
    subst h
    exact List.Forall₂.nil
  | cons n ns ih =>
    rw [BaseFlow.spawnWorkers] at h
    cases hl : f.lookup n with
    | none => simp [hl] at h
    | some ag =>
      simp only [hl] at h
      cases hs : f.spawnWorkers prompt ns with
      | none => simp [hs] at h
      | some rest =>
        simp only [hs, Option.some.injEq] at h
        subst h
        exact List.Forall₂.cons ⟨ag, hl, rfl⟩ (ih rest hs)

theorem sentError_workerSend (n : String) (x : Except GoError String) (err : GoError) :
    sentError (workerSend n x) = some err ↔
      ∃ e, x = .error e ∧ err = "智能体 " ++ n ++ " 执行失败: " ++ e := by
  cases x with
  | error e => simp [workerSend, sentError, eq_comm]
  | ok r => simp [workerSend, sentError]

theorem sentResult_workerSend (n : String) (x : Except GoError String) (r : agentResult) :
    sentResult (workerSend n x) = some r ↔ r.agentName = n ∧ x = .ok r.result := by
  cases x with
  | error e => simp [workerSend, sentResult]
  | ok res =>
    simp only [workerSend, sentResult, Option.some.injEq, Except.ok.injEq]
    constructor
    · rintro rfl
      exact ⟨rfl, rfl⟩
    · rintro ⟨h1, h2⟩
      cases r
      simp_all

theorem forall2_mem_right {α β : Type} {R : α → β → Prop} {l₁ : List α} {l₂ : List β}
    (h : List.Forall₂ R l₁ l₂) (b : β) (hb : b ∈ l₂) : ∃ a ∈ l₁, R a b := by
  induction h with
  | nil => simp at hb
  | cons hr _ ih =>
    rcases List.mem_cons.mp hb with rfl | hb'
    · exact ⟨_, List.mem_cons_self _ _, hr⟩
    · obtain ⟨a, ha, hab⟩ := ih hb'
      exact ⟨a, List.mem_cons_of_mem _ ha, hab⟩

theorem forall2_mem_left {α β : Type} {R : α → β → Prop} {l₁ : List α} {l₂ : List β}
    (h : List.Forall₂ R l₁ l₂) (a : α) (ha : a ∈ l₁) : ∃ b ∈ l₂, R a b := by
  induction h with
  | nil => simp at ha
  | cons hr _ ih =>
    rcases List.mem_cons.mp ha with rfl | ha'
    · exact ⟨_, List.mem_cons_self _ _, hr⟩
    · obtain ⟨b, hb, hab⟩ := ih ha'
      exact ⟨b, List.mem_cons_of_mem _ hb, hab⟩

/-- The selection step when every listed name is a key of the map. -/
theorem analyzeTask_of_known (f : BaseFlow) (prompt content : String) (others : List String)
    (response : SelectionResponse)
    (hreply : f.llmClient.replies f.llmClient.requests.length = .response (content :: others))
    (hdecode : jsonUnmarshalResponse content = .ok response)
    (hknown : ∀ n ∈ response.Agents, f.lookup n ≠ none) :
    f.analyzeTask prompt = .done (.ok response.Agents) (f.analyzed prompt) := by
  rw [analyzeTask_of_reply f prompt content others response hreply hdecode]
  have hfind : response.Agents.find? (fun agentName => (f.lookup agentName).isNone) = none := by
    rw [List.find?_eq_none]
    intro n hn
    have := hknown n hn
    cases hl : f.lookup n with
    | none => exact absurd hl this
    | some ag => simp
  rw [hfind]
  rfl

/-- The part of `Execute` after the workers were spawned. -/
theorem Execute_of_sends (f : BaseFlow) (order : List Nat) (prompt : String)
    (agents : List String) (sends : List (Except GoError agentResult))
    (han : f.analyzeTask prompt = .done (.ok agents) (f.analyzed prompt))
    (hspawn : f.spawnWorkers prompt agents = some sends) :
    f.Execute order prompt =
      match (order.filterMap (fun i => sends[i]?)).filterMap sentError with
      | err :: _ => .done ("", some err) (f.dispatched prompt agents)
      | [] =>
        match (f.dispatched prompt agents).integrateResults prompt
            ((order.filterMap (fun i => sends[i]?)).filterMap sentResult) with
        | .blocked f3 => .blocked f3
        | .panicked reason f3 => .panicked reason f3
        | .done (.error err) f3 => .done ("", some ("结果整合失败: " ++ err)) f3
        | .done (.ok finalResult) f3 => .done (finalResult, none) f3 := by
  rw [BaseFlow.Execute, han]
  simp only [hspawn]
  rfl

/-- C14: when the selection decodes to names that are all keys of the map and the `Act` of at
least one selected agent returns an error, then for every order in which the workers' sends
arrive `Execute` returns an empty result and an error that is the error of one of the failing
workers wrapped with the name of its agent (so the error of the failing agent when exactly one
fails); every selected agent was called, and the only model call made is the selection call: the
integration call is not made. -/
theorem Execute_fail_fast (f : BaseFlow) (order : List Nat) (prompt content : String)
    (others : List String) (response : SelectionResponse)
    (hreply : f.llmClient.replies f.llmClient.requests.length = .response (content :: others))
    (hdecode : jsonUnmarshalResponse content = .ok response)
    (hknown : ∀ n ∈ response.Agents, f.lookup n ≠ none)
    (horder : order.Perm (List.range response.Agents.length))
    (hfail : ∃ n ag e, n ∈ response.Agents ∧ f.lookup n = some ag ∧ ag.Act prompt = .error e) :
    ∃ n ag e f', n ∈ response.Agents ∧ f.lookup n = some ag ∧ ag.Act prompt = .error e ∧
      f.Execute order prompt = .done ("", some ("智能体 " ++ n ++ " 执行失败: " ++ e)) f' ∧
      f'.llmClient.requests = f.llmClient.requests ++ [analyzeMessages prompt] ∧
      f'.actCalls = f.actCalls ++ response.Agents := by
  have han := analyzeTask_of_known f prompt content others response hreply hdecode hknown
  obtain ⟨sends, hspawn⟩ := spawnWorkers_some f prompt response.Agents hknown
  have hrel := spawnWorkers_forall2 f prompt response.Agents sends hspawn
  have hperm : ((order.filterMap (fun i => sends[i]?)).filterMap sentError).Perm
      (sends.filterMap sentError) :=
    (arrived_perm sends order (by rw [← hrel.length_eq]; exact horder)).filterMap sentError
  have hexec := Execute_of_sends f order prompt response.Agents sends han hspawn
  cases herr : (order.filterMap (fun i => sends[i]?)).filterMap sentError with
  | nil =>
    exfalso
    obtain ⟨n, ag, e, hn, hl, hact⟩ := hfail
    obtain ⟨s, hs, ag', hl', hs'⟩ := forall2_mem_left hrel n hn
    rw [hl] at hl'
    cases hl'
    have hmem : ("智能体 " ++ n ++ " 执行失败: " ++ e) ∈ sends.filterMap sentError :=
      List.mem_filterMap.mpr ⟨s, hs, by rw [hs', sentError_workerSend]; exact ⟨e, hact, rfl⟩⟩
    rw [herr] at hperm
    rw [List.nil_perm.mp hperm] at hmem
    simp at hmem
  | cons err rest =>
    rw [herr] at hexec hperm
    have hmem : err ∈ sends.filterMap sentError := hperm.subset (List.mem_cons_self _ _)
    obtain ⟨s, hs, hse⟩ := List.mem_filterMap.mp hmem
    obtain ⟨n, hn, ag, hl, hs'⟩ := forall2_mem_right hrel s hs
    rw [hs', sentError_workerSend] at hse
    obtain ⟨e, hact, rfl⟩ := hse
    exact ⟨n, ag, e, f.dispatched prompt response.Agents, hn, hl, hact, hexec, rfl, rfl⟩

/-- C14 (witness): `manus`, `react` and `browser` are dispatched and `browser` alone fails; the
error returned is the one of `browser`, in each of the six orders of arrival. -/
theorem Execute_fail_fast_witness :
    (∃ n ag e f',
      n ∈ ({ Agents := ["manus", "react", "browser"], Reason := "" } : SelectionResponse).Agents ∧
      (sampleFlow ["\x7b\"agents\": [\"manus\", \"react\", \"browser\"]\x7d", "merged"]).lookup n =
        some ag ∧
      ag.Act "task" = .error e ∧
      (sampleFlow ["\x7b\"agents\": [\"manus\", \"react\", \"browser\"]\x7d", "merged"]).Execute
          [1, 2, 0] "task" = .done ("", some ("智能体 " ++ n ++ " 执行失败: " ++ e)) f' ∧
      f'.llmClient.requests =
        (sampleFlow ["\x7b\"agents\": [\"manus\", \"react\", \"browser\"]\x7d",
          "merged"]).llmClient.requests ++ [analyzeMessages "task"] ∧
      f'.actCalls =
        (sampleFlow ["\x7b\"agents\": [\"manus\", \"react\", \"browser\"]\x7d",
          "merged"]).actCalls ++
          ({ Agents := ["manus", "react", "browser"], Reason := "" } : SelectionResponse).Agents) ∧
      ∀ order ∈ [[0, 1, 2], [0, 2, 1], [1, 0, 2], [1, 2, 0], [2, 0, 1], [2, 1, 0]],
        ((sampleFlow ["\x7b\"agents\": [\"manus\", \"react\", \"browser\"]\x7d",
            "merged"]).Execute order "task").returned.map
            (fun r => (r.1, r.2.actCalls, r.2.llmClient.requests.length)) =
          some (("", some "智能体 browser 执行失败: page not found"),
            ["manus", "react", "browser"], 1) :=
  ⟨Execute_fail_fast
      (sampleFlow ["\x7b\"agents\": [\"manus\", \"react\", \"browser\"]\x7d", "merged"])
      [1, 2, 0] "task" "\x7b\"agents\": [\"manus\", \"react\", \"browser\"]\x7d" []
      { Agents := ["manus", "react", "browser"], Reason := "" } (by rfl) (by rfl)
      (by
        intro n hn
        simp only [List.mem_cons, List.mem_singleton, List.not_mem_nil, or_false] at hn
        rcases hn with rfl | rfl | rfl <;> exact Option.isSome_iff_ne_none.mp (by rfl))
      (by decide)
      ⟨"browser", constAgent (.error "page not found"), "page not found", by decide, by rfl,
        rfl⟩,
    by decide⟩

theorem sends_all_ok (f : BaseFlow) (prompt : String) (names : List String)
    (sends : List (Except GoError agentResult))
    (hrel : List.Forall₂
      (fun n s => ∃ ag, f.lookup n = some ag ∧ s = workerSend n (ag.Act prompt)) names sends)
    (hsucc : ∀ n ∈ names, ∃ ag r, f.lookup n = some ag ∧ ag.Act prompt = .ok r) :
    sends.filterMap sentError = [] ∧
      (sends.filterMap sentResult).map (fun r => r.agentName) = names := by
  induction hrel with
  | nil => exact ⟨rfl, rfl⟩
  | @cons n s ns ss hr _ ih =>
    obtain ⟨ag, hl, hs⟩ := hr
    obtain ⟨ag', r, hl', hact⟩ := hsucc n (List.mem_cons_self _ _)
    rw [hl] at hl'
    cases hl'
    obtain ⟨h1, h2⟩ := ih (fun m hm => hsucc m (List.mem_cons_of_mem _ hm))
    subst hs
    rw [hact]
    simp only [workerSend, List.filterMap_cons, sentError, sentResult, List.map_cons, h1, h2]
    exact ⟨trivial, trivial⟩

/-- C15: when the selection decodes to names whose agents all return a result from `Act`, and
the model answers the second call of the flow with the text `final`, then for every order of
arrival `Execute` returns `final` and a nil error.  The flow has made two model calls, the
selection call and one integration call; the user message of the integration call is the task
header followed by one segment `<agentName> 的结果：\n<result>\n\n` per collected result, and the
collected results are the results of the selected agents, one per selected name. -/
theorem Execute_all_success (f : BaseFlow) (order : List Nat) (prompt content final : String)
    (others others' : List String) (response : SelectionResponse)
    (hreply : f.llmClient.replies f.llmClient.requests.length = .response (content :: others))
    (hdecode : jsonUnmarshalResponse content = .ok response)
    (hsucc : ∀ n ∈ response.Agents, ∃ ag r, f.lookup n = some ag ∧ ag.Act prompt = .ok r)
    (horder : order.Perm (List.range response.Agents.length))
    (hmerge :
      f.llmClient.replies (f.llmClient.requests.length + 1) = .response (final :: others')) :
    ∃ (results : List agentResult) (f' : BaseFlow), f.Execute order prompt = .done (final, none) f' ∧
      (results.map (fun r => r.agentName)).Perm response.Agents ∧
      (∀ r ∈ results, ∃ ag, f.lookup r.agentName = some ag ∧ ag.Act prompt = .ok r.result) ∧
      f'.llmClient.requests = f.llmClient.requests ++
        [analyzeMessages prompt,
         [{ Role := "system", Content := integrateSystemPrompt },
          { Role := "user",
            Content := "原始任务：" ++ prompt ++ "\n\n各智能体执行结果：\n" ++
              String.join
                (results.map (fun r => r.agentName ++ " 的结果：\n" ++ r.result ++ "\n\n")) }]] ∧
      f'.actCalls = f.actCalls ++ response.Agents := by
  have hknown : ∀ n ∈ response.Agents, f.lookup n ≠ none := by
    intro n hn
    obtain ⟨ag, r, hl, -⟩ := hsucc n hn
    rw [hl]
    exact Option.some_ne_none ag
  have han := analyzeTask_of_known f prompt content others response hreply hdecode hknown
  obtain ⟨sends, hspawn⟩ := spawnWorkers_some f prompt response.Agents hknown
  have hrel := spawnWorkers_forall2 f prompt response.Agents sends hspawn
  have harr := arrived_perm sends order (by rw [← hrel.length_eq]; exact horder)
  obtain ⟨hnoerr, hnames⟩ := sends_all_ok f prompt response.Agents sends hrel hsucc
  have herr : (order.filterMap (fun i => sends[i]?)).filterMap sentError = [] := by
    have h := harr.filterMap sentError
    rw [hnoerr] at h
    exact List.perm_nil.mp h
  have hres := harr.filterMap sentResult
  have hexec := Execute_of_sends f order prompt response.Agents sends han hspawn
  rw [herr] at hexec
  refine ⟨(order.filterMap (fun i => sends[i]?)).filterMap sentResult,
    { f.dispatched prompt response.Agents with
      llmClient := ((f.dispatched prompt response.Agents).llmClient.GetCompletion
        (integrateMessages prompt
          ((order.filterMap (fun i => sends[i]?)).filterMap sentResult))).2 },
    ?_, ?_, ?_, ?_, rfl⟩
  · rw [hexec]
    have hidx : (f.dispatched prompt response.Agents).llmClient.replies
        (f.dispatched prompt response.Agents).llmClient.requests.length =
        .response (final :: others') := by
      show f.llmClient.replies (f.llmClient.requests ++ [analyzeMessages prompt]).length = _
      rw [List.length_append, List.length_singleton]
      exact hmerge
    simp only [BaseFlow.integrateResults, LLMClient.GetCompletion, hidx]
  · rw [← hnames]
    exact hres.map _
  · intro r hr
    obtain ⟨s, hs, hsr⟩ := List.mem_filterMap.mp (hres.subset hr)
    obtain ⟨n, -, ag, hl, hs'⟩ := forall2_mem_right hrel s hs
    rw [hs', sentResult_workerSend] at hsr
    obtain ⟨hname, hact⟩ := hsr
    rw [hname]
    exact ⟨ag, hl, hact⟩
  · show (f.llmClient.requests ++ [analyzeMessages prompt]) ++ [integrateMessages prompt _] = _
    rw [List.append_assoc]
    rfl

/-- C15 (witness): `manus` answers `R1` and `react` answers `R2`, the result of `react`
arriving first; the integration message holds the two segments, once each. -/
theorem Execute_all_success_witness :
    (∃ (results : List agentResult) (f' : BaseFlow),
      (sampleFlow ["\x7b\"agents\": [\"manus\", \"react\"]\x7d", "merged"]).Execute [1, 0]
          "task" = .done ("merged", none) f' ∧
      (results.map (fun r => r.agentName)).Perm
        ({ Agents := ["manus", "react"], Reason := "" } : SelectionResponse).Agents ∧
      (∀ r ∈ results, ∃ ag,
        (sampleFlow ["\x7b\"agents\": [\"manus\", \"react\"]\x7d", "merged"]).lookup
            r.agentName = some ag ∧
          ag.Act "task" = .ok r.result) ∧
      f'.llmClient.requests =
        (sampleFlow ["\x7b\"agents\": [\"manus\", \"react\"]\x7d",
          "merged"]).llmClient.requests ++
        [analyzeMessages "task",
         [{ Role := "system", Content := integrateSystemPrompt },
          { Role := "user",
            Content := "原始任务：" ++ "task" ++ "\n\n各智能体执行结果：\n" ++
              String.join
                (results.map (fun r => r.agentName ++ " 的结果：\n" ++ r.result ++ "\n\n")) }]] ∧
      f'.actCalls =
        (sampleFlow ["\x7b\"agents\": [\"manus\", \"react\"]\x7d", "merged"]).actCalls ++
          ({ Agents := ["manus", "react"], Reason := "" } : SelectionResponse).Agents) ∧
      ((sampleFlow ["\x7b\"agents\": [\"manus\", \"react\"]\x7d", "merged"]).Execute [1, 0]
          "task").returned.map (fun r => (r.1, r.2.actCalls, r.2.userMessages)) =
        some (("merged", none), ["manus", "react"],
          ["task",
           "原始任务：task\n\n各智能体执行结果：\nreact 的结果：\nR2\n\nmanus 的结果：\nR1\n\n"]) :=
  ⟨Execute_all_success
      (sampleFlow ["\x7b\"agents\": [\"manus\", \"react\"]\x7d", "merged"]) [1, 0] "task"
      "\x7b\"agents\": [\"manus\", \"react\"]\x7d" "merged" [] []
      { Agents := ["manus", "react"], Reason := "" } (by rfl) (by rfl)
      (by
        intro n hn
        simp only [List.mem_cons, List.mem_singleton, List.not_mem_nil, or_false] at hn
        rcases hn with rfl | rfl
        · exact ⟨constAgent (.ok "R1"), "R1", by rfl, rfl⟩
        · exact ⟨constAgent (.ok "R2"), "R2", by rfl, rfl⟩)
      (by decide) (by rfl),
    by rfl⟩

/-! ## Events and hooks of `SetState` -/

theorem callHook_hookCalls (a : BaseAgent) (hook : Option (Option GoError)) (call : HookCall)
    (record : Bool) :
    (callHook a hook call record).2.hookCalls =
      a.hookCalls ++ (hook.map (fun _ => call)).toList := by
  unfold callHook
  rcases hook with _ | _ | e <;> cases record <;> simp

/-- The second `switch` of `SetState` invokes the hook of the target state when it is
registered, and nothing else. -/
theorem runLifecycle_hookCalls (a : BaseAgent) (state : AgentState) :
    (runLifecycle a state).2.hookCalls =
      a.hookCalls ++ a.lifecycle.callsFor state a.lastError := by
  unfold runLifecycle AgentLifecycle.callsFor
  split_ifs <;> simp only [callHook_hookCalls]
  · cases a.lifecycle.OnError <;> simp
  · simp

/-- C21 (counterexample): the agent `busyAgent` is in `Resuming` with one hundred events in its
buffer; `SetState(Running)` changes the state to `Running` and is then parked on the send, so
the state has changed and no event has been enqueued: the buffer is the one before the call. -/
theorem SetState_full_buffer_no_event :
    busyAgent.State = Resuming ∧ transitionError busyAgent.State Running = none ∧
      (busyAgent.SetState Running).agent.State = Running ∧
      (busyAgent.SetState Running).agent.eventChan = busyAgent.eventChan ∧
      (busyAgent.SetState Running).agent.eventChan.length = 100 ∧
      (busyAgent.SetState Running).returned.isNone = true := by
  have hb : busyAgent.SetState Running = .blocked { busyAgent with State := Running } :=
    SetState_blocked_eq busyAgent Running (by decide) (by decide)
  rw [hb]
  exact ⟨by decide, by decide, rfl, rfl, by decide, rfl⟩

/-- C21 (amended): a `SetState` call whose transition is accepted and whose agent has room in
the event buffer leaves the state `T` and has enqueued exactly one event, at the end of the
buffer: a `state_change` with `old_state` the previous state and `new_state = T`; a call
rejected as an invalid transition leaves the buffer and the state as they were; a call whose
transition is accepted on a full buffer assigns the state and is parked on the send, with no
event enqueued. -/
theorem SetState_emits_one_event (a : BaseAgent) (T : AgentState) :
    (transitionError a.State T = none → a.eventChan.length < a.eventChanCap →
        (∃ r a', a.SetState T = .done r a' ∧ a'.State = T ∧
          a'.eventChan = a.eventChan ++ [stateChangeEvent a.State T])) ∧
      (∀ e, transitionError a.State T = some e → a.SetState T = .done (some e) a) ∧
      (transitionError a.State T = none → ¬ a.eventChan.length < a.eventChanCap →
        a.SetState T = .blocked { a with State := T } ∧
          (a.SetState T).agent.eventChan = a.eventChan) := by
  refine ⟨fun h room => ?_, fun e h => SetState_of_transitionError a T e h, fun h full => ?_⟩
  · obtain ⟨a', h1, h2, h3⟩ := SetState_of_accepted a T h room
    exact ⟨_, a', h1, h2, h3⟩
  · have hb := SetState_blocked_eq a T h full
    rw [hb]
    exact ⟨rfl, rfl⟩

/-- C21 (witness): the first transition of the fresh agent. -/
theorem SetState_emits_one_event_witness :
    (transitionError freshAgent.State Initializing = none →
        freshAgent.eventChan.length < freshAgent.eventChanCap →
        (∃ r a', freshAgent.SetState Initializing = .done r a' ∧ a'.State = Initializing ∧
          a'.eventChan =
            freshAgent.eventChan ++ [stateChangeEvent freshAgent.State Initializing])) ∧
      (∀ e, transitionError freshAgent.State Initializing = some e →
        freshAgent.SetState Initializing = .done (some e) freshAgent) ∧
      (transitionError freshAgent.State Initializing = none →
        ¬ freshAgent.eventChan.length < freshAgent.eventChanCap →
        freshAgent.SetState Initializing = .blocked { freshAgent with State := Initializing } ∧
          (freshAgent.SetState Initializing).agent.eventChan = freshAgent.eventChan) :=
  SetState_emits_one_event freshAgent Initializing

/-- C23 (counterexample): the agent `hookedBusyAgent` is in `Resuming` with a full event buffer
and a registered `OnStart` hook; `SetState(Running)` performs the legal transition to `Running`
and is parked on the event send before the hook: no hook has been invoked. -/
theorem SetState_full_buffer_no_hook :
    hookedBusyAgent.State = Resuming ∧ Running ∈ legalTargets hookedBusyAgent.State ∧
      hookedBusyAgent.lifecycle.OnStart = some none ∧
      (hookedBusyAgent.SetState Running).agent.State = Running ∧
      (hookedBusyAgent.SetState Running).agent.hookCalls = [] ∧
      (hookedBusyAgent.SetState Running).returned.isNone = true := by
  have hb : hookedBusyAgent.SetState Running =
      .blocked { hookedBusyAgent with State := Running } :=
    SetState_blocked_eq hookedBusyAgent Running (by decide) (by decide)
  rw [hb]
  exact ⟨by decide, by decide, rfl, rfl, by decide, rfl⟩

/-- C23 (amended): a `SetState` call whose transition to `T` is accepted and whose agent has
room in the event buffer invokes the hook that corresponds to `T`, once, when it is registered
(`OnError` is handed the current last error) and no hook otherwise, and no other hook; the call
returns what that hook returns.  A rejected transition invokes no hook.  A call whose
transition is accepted on a full event buffer is parked before the hooks and invokes none. -/
theorem SetState_hook_dispatch (a : BaseAgent) (T : AgentState) :
    (transitionError a.State T = none → a.eventChan.length < a.eventChanCap →
        ∃ a', a.SetState T = .done (a.lifecycle.hookFor T a.lastError).join a' ∧
          a'.hookCalls = a.hookCalls ++ a.lifecycle.callsFor T a.lastError ∧
          (a.lifecycle.callsFor T a.lastError).length ≤ 1 ∧
          ((a.lifecycle.callsFor T a.lastError).length = 1 ↔
            (a.lifecycle.hookFor T a.lastError).isSome = true)) ∧
      (∀ e, transitionError a.State T = some e →
        (a.SetState T).agent.hookCalls = a.hookCalls) ∧
      (transitionError a.State T = none → ¬ a.eventChan.length < a.eventChanCap →
        (a.SetState T).agent.hookCalls = a.hookCalls) := by
  refine ⟨fun h room => ?_, fun e h => ?_, fun h full => ?_⟩
  · refine ⟨(runLifecycle (afterEmit a T) T).2, ?_, ?_, ?_, ?_⟩
    · rw [SetState_accepted_eq a T h room, runLifecycle_fst]
      rfl
    · rw [runLifecycle_hookCalls]
      rfl
    · unfold AgentLifecycle.callsFor
      split_ifs
      · cases a.lifecycle.OnInit <;> simp
      · cases a.lifecycle.OnStart <;> simp
      · cases a.lifecycle.OnPause <;> simp
      · cases a.lifecycle.OnResume <;> simp
      · cases a.lifecycle.OnComplete <;> simp
      · cases a.lifecycle.OnError <;> simp
      · cases a.lifecycle.OnStop <;> simp
      · simp
    · unfold AgentLifecycle.callsFor AgentLifecycle.hookFor
      split_ifs
      · cases a.lifecycle.OnInit <;> simp
      · cases a.lifecycle.OnStart <;> simp
      · cases a.lifecycle.OnPause <;> simp
      · cases a.lifecycle.OnResume <;> simp
      · cases a.lifecycle.OnComplete <;> simp
      · cases a.lifecycle.OnError <;> simp
      · cases a.lifecycle.OnStop <;> simp
      · simp
  · rw [SetState_of_transitionError a T e h]
    rfl
  · rw [SetState_blocked_eq a T h full]
    rfl

/-- C23 (witness): the agent with a failing `OnInit` hook, taken to `Initializing`. -/
theorem SetState_hook_dispatch_witness :
    (transitionError failingInitAgent.State Initializing = none →
        failingInitAgent.eventChan.length < failingInitAgent.eventChanCap →
        ∃ a', failingInitAgent.SetState Initializing =
            .done (failingInitAgent.lifecycle.hookFor Initializing
              failingInitAgent.lastError).join a' ∧
          a'.hookCalls = failingInitAgent.hookCalls ++
            failingInitAgent.lifecycle.callsFor Initializing failingInitAgent.lastError ∧
          (failingInitAgent.lifecycle.callsFor Initializing
            failingInitAgent.lastError).length ≤ 1 ∧
          ((failingInitAgent.lifecycle.callsFor Initializing
              failingInitAgent.lastError).length = 1 ↔
            (failingInitAgent.lifecycle.hookFor Initializing
              failingInitAgent.lastError).isSome = true)) ∧
      (∀ e, transitionError failingInitAgent.State Initializing = some e →
        (failingInitAgent.SetState Initializing).agent.hookCalls = failingInitAgent.hookCalls) ∧
      (transitionError failingInitAgent.State Initializing = none →
        ¬ failingInitAgent.eventChan.length < failingInitAgent.eventChanCap →
        (failingInitAgent.SetState Initializing).agent.hookCalls =
          failingInitAgent.hookCalls) :=
  SetState_hook_dispatch failingInitAgent Initializing

/-! ## One iteration of the `Run` loop and the conversation log -/

theorem callHook_Memory (a : BaseAgent) (hook : Option (Option GoError)) (call : HookCall)
    (record : Bool) : (callHook a hook call record).2.Memory = a.Memory := by
  unfold callHook
  rcases hook with _ | _ | e <;> cases record <;> rfl

theorem runLifecycle_Memory (a : BaseAgent) (state : AgentState) :
    (runLifecycle a state).2.Memory = a.Memory := by
  unfold runLifecycle
  split_ifs <;> simp only [callHook_Memory]
  · cases a.lifecycle.OnError <;> rfl

/-- The call `SetState` leaves the log alone, whatever its outcome. -/
theorem SetState_Memory (a : BaseAgent) (T : AgentState) :
    (a.SetState T).agent.Memory = a.Memory := by
  cases h : transitionError a.State T with
  | some e =>
    rw [SetState_of_transitionError a T e h]
    rfl
  | none =>
    by_cases room : a.eventChan.length < a.eventChanCap
    · rw [SetState_accepted_eq a T h room, Exec.agent, runLifecycle_Memory]
      rfl
    · rw [SetState_blocked_eq a T h room]
      rfl

/-- C22: in an iteration of the loop of `Run` (step counter below `MaxSteps`, context not
cancelled), with the outcomes of `Think` and `Act` taken from the execution `env`.  When
`Think` reports no action, the loop goes to the next iteration with the log as it was, and the
outcome of `Act` at this iteration is not consulted: the same holds whatever `Act` would return.
When `Think` reports an action and `Act` returns the text `r`, the log after the iteration is
the log before it followed by the one entry `assistant`/`r`: the loop either goes on from it or,
on a stall, returns through `SetState(Finished)`, which leaves the log alone; the length grows
by one and every earlier index holds the entry it held. -/
theorem Run_iteration_log (env : RunEnv) (n : Nat) (a : BaseAgent)
    (hstep : a.CurrentStep < a.MaxSteps) (hctx : env.ctxDone a.CurrentStep.toNat = false) :
    (env.think a.CurrentStep.toNat = .ok false →
        ∀ act' : Nat → Except GoError String,
          BaseAgent.runLoop { env with act := act' } (n + 1) a =
              BaseAgent.runLoop { env with act := act' } n
                { a with CurrentStep := a.CurrentStep + 1 } ∧
            BaseAgent.loopContinue { env with act := act' } a =
              some { a with CurrentStep := a.CurrentStep + 1 } ∧
            ({ a with CurrentStep := a.CurrentStep + 1 } : BaseAgent).Memory = a.Memory) ∧
      (∀ r, env.think a.CurrentStep.toNat = .ok true → env.act a.CurrentStep.toNat = .ok r →
        ∃ a1 : BaseAgent,
          a1.Memory.Messages = a.Memory.Messages ++ [{ Role := "assistant", Content := r }] ∧
          a1.Memory.Messages.length = a.Memory.Messages.length + 1 ∧
          (∀ i, i < a.Memory.Messages.length →
            a1.Memory.Messages[i]? = a.Memory.Messages[i]?) ∧
          (a1.IsStuck 2 = true →
            a.runLoop env (n + 1) = a1.SetState Finished ∧
              (a.runLoop env (n + 1)).agent.Memory = a1.Memory) ∧
          (a1.IsStuck 2 = false →
            a.runLoop env (n + 1) =
                BaseAgent.runLoop env n { a1 with CurrentStep := a.CurrentStep + 1 } ∧
              a.loopContinue env = some { a1 with CurrentStep := a.CurrentStep + 1 })) := by
  refine ⟨fun hth act' => ⟨?_, ?_, rfl⟩, fun r hth hact => ?_⟩
  · simp only [BaseAgent.runLoop, hstep, if_true, hctx, hth, Bool.false_eq_true, if_false]
  · simp only [BaseAgent.loopContinue, hstep, if_true, hctx, hth, Bool.false_eq_true, if_false]
  · refine ⟨{ a with Memory := a.Memory.AddMessage { Role := "assistant", Content := r } },
      rfl, ?_, ?_, ?_, ?_⟩
    · simp [Memory.AddMessage]
    · intro i hi
      simp [Memory.AddMessage, List.getElem?_append_left hi]
    · intro hst
      have hrun : a.runLoop env (n + 1) = BaseAgent.SetState
          { a with Memory := a.Memory.AddMessage { Role := "assistant", Content := r } }
          Finished := by
        simp only [BaseAgent.runLoop, hstep, if_true, hctx, hth, hact, hst, Bool.false_eq_true,
          if_false]
      rw [hrun]
      exact ⟨rfl, SetState_Memory _ Finished⟩
    · intro hst
      constructor
      · simp only [BaseAgent.runLoop, hstep, if_true, hctx, hth, hact, hst, Bool.false_eq_true,
          if_false]
      · simp only [BaseAgent.loopContinue, hstep, if_true, hctx, hth, hact, hst,
          Bool.false_eq_true, if_false]

/-- C22 (witness): the started fresh agent, whose first iteration acts with the result `a`. -/
theorem Run_iteration_log_witness :
    (failingEnv.think runningAgent.CurrentStep.toNat = .ok false →
        ∀ act' : Nat → Except GoError String,
          BaseAgent.runLoop { failingEnv with act := act' } (9 + 1) runningAgent =
              BaseAgent.runLoop { failingEnv with act := act' } 9
                { runningAgent with CurrentStep := runningAgent.CurrentStep + 1 } ∧
            BaseAgent.loopContinue { failingEnv with act := act' } runningAgent =
              some { runningAgent with CurrentStep := runningAgent.CurrentStep + 1 } ∧
            ({ runningAgent with CurrentStep := runningAgent.CurrentStep + 1 } :
              BaseAgent).Memory = runningAgent.Memory) ∧
      (∀ r, failingEnv.think runningAgent.CurrentStep.toNat = .ok true →
        failingEnv.act runningAgent.CurrentStep.toNat = .ok r →
        ∃ a1 : BaseAgent,
          a1.Memory.Messages =
            runningAgent.Memory.Messages ++ [{ Role := "assistant", Content := r }] ∧
          a1.Memory.Messages.length = runningAgent.Memory.Messages.length + 1 ∧
          (∀ i, i < runningAgent.Memory.Messages.length →
            a1.Memory.Messages[i]? = runningAgent.Memory.Messages[i]?) ∧
          (a1.IsStuck 2 = true →
            runningAgent.runLoop failingEnv (9 + 1) = a1.SetState Finished ∧
              (runningAgent.runLoop failingEnv (9 + 1)).agent.Memory = a1.Memory) ∧
          (a1.IsStuck 2 = false →
            runningAgent.runLoop failingEnv (9 + 1) =
                BaseAgent.runLoop failingEnv 9
                  { a1 with CurrentStep := runningAgent.CurrentStep + 1 } ∧
              runningAgent.loopContinue failingEnv =
                some { a1 with CurrentStep := runningAgent.CurrentStep + 1 })) :=
  Run_iteration_log failingEnv 9 runningAgent (by decide) (by rfl)

/-! ## `BaseAgent.Run` with the `Think` of `BaseAgent` -/

/-- C27: `BaseAgent.Run` on the agent `NewBaseAgent` builds, with any value of `MaxSteps` and
a context that is never cancelled, returns nil and leaves the agent in `Finished` with
`CurrentStep` equal to `max(MaxSteps, 0)`; the log is empty as before, the client has recorded
no model call, no tool has been invoked, and the outcome does not depend on what `Act` would
return: `Act` is not called. -/
theorem Run_never_acts (name : String) (llmClient : LLMClient) (tools : Option ToolCollection)
    (M : Int) :
    ∃ a' : BaseAgent,
      (∀ act : Nat → Except GoError String,
        BaseAgent.Run (fun _ => false) act
          { NewBaseAgent name llmClient tools with MaxSteps := M } = .done none a') ∧
      a'.State = Finished ∧ a'.CurrentStep = max M 0 ∧ a'.Memory.Messages = [] ∧
      a'.llmClient.requests = llmClient.requests ∧ a'.toolCalls = [] ∧ a'.hookCalls = [] := by
  let a : BaseAgent := { NewBaseAgent name llmClient tools with MaxSteps := M }
  let a3 : BaseAgent := { afterEmit (afterEmit a Initializing) Running with CurrentStep := 0 }
  let b : BaseAgent := { a3 with CurrentStep := a3.CurrentStep + M.toNat }
  have hb : b.CurrentStep = max M 0 := by
    show (0 : Int) + (M.toNat : Int) = max M 0
    omega
  have h1 : a.SetState Initializing = .done none (afterEmit a Initializing) :=
    SetState_no_hooks a Initializing rfl (by show transitionError Idle Initializing = none; decide)
      (by show (0 : Nat) < 100; decide)
  have h2 : (afterEmit a Initializing).SetState Running =
      .done none (afterEmit (afterEmit a Initializing) Running) :=
    SetState_no_hooks _ Running rfl
      (by show transitionError Initializing Running = none; decide)
      (by show (1 : Nat) < 100; decide)
  have h3 : b.SetState Finished = .done none (afterEmit b Finished) :=
    SetState_no_hooks b Finished rfl (by show transitionError Running Finished = none; decide)
      (by show (2 : Nat) < 100; decide)
  refine ⟨afterEmit b Finished, fun act => ?_, rfl, hb, rfl, rfl, rfl, rfl⟩
  let env : RunEnv := { ctxDone := fun _ => false, think := fun _ => a.Think, act := act }
  show BaseAgent.RunWith env a = _
  unfold BaseAgent.RunWith
  rw [h1]
  simp only
  rw [h2]
  simp only
  show a3.runLoop env M.toNat = _
  by_cases hM : 0 ≤ M
  · have hreach : a3.loopAfter env M.toNat = some b :=
      loopAfter_no_action env M.toNat a3 (le_refl _)
        (by show (0 : Int) + (M.toNat : Int) ≤ M; omega) (fun i _ => ⟨rfl, rfl⟩)
    have hrun := runLoop_of_loopAfter env M.toNat 0 a3 b hreach
    rw [Nat.add_zero] at hrun
    rw [hrun, BaseAgent.runLoop, h3]
  · have h0 : M.toNat = 0 := by omega
    have hb0 : b = a3 := by
      show ({ a3 with CurrentStep := a3.CurrentStep + M.toNat } : BaseAgent) = a3
      rw [h0]
      rfl
    rw [h0, BaseAgent.runLoop, ← hb0, h3]

/-! ## The tool registry: operations touch the named entry only -/

theorem lookup_filter_ne (l : List (String × Tool)) (n m : String) (h : m ≠ n) :
    ((l.filter (fun e => !(e.1 == n))).find? (fun e => e.1 == m)) =
      l.find? (fun e => e.1 == m) := by
  induction l with
  | nil => rfl
  | cons e es ih =>
    by_cases hen : e.1 = n
    · have hkeep : (!(e.1 == n)) = false := by simp [hen]
      have hem : (e.1 == m) = false := by
        rw [beq_eq_false_iff_ne]
        exact fun hm => h (hm.symm.trans hen)
      rw [List.filter_cons, hkeep, List.find?_cons, hem]
      exact ih
    · have hkeep : (!(e.1 == n)) = true := by simp [hen]
      rw [List.filter_cons, hkeep]
      simp only [if_true, List.find?_cons]
      cases e.1 == m
      · exact ih
      · rfl

theorem lookup_filter_self (l : List (String × Tool)) (n : String) :
    ((l.filter (fun e => !(e.1 == n))).find? (fun e => e.1 == n)) = none := by
  rw [List.find?_eq_none]
  intro e he
  have := (List.mem_filter.mp he).2
  simpa using this

theorem nodup_filter_keys (l : List (String × Tool)) (n : String)
    (h : (l.map (fun e => e.1)).Nodup) :
    ((l.filter (fun e => !(e.1 == n))).map (fun e => e.1)).Nodup :=
  (List.filter_sublist l).map (fun e => e.1) |>.nodup h

theorem not_mem_filter_keys (l : List (String × Tool)) (n : String) :
    n ∉ (l.filter (fun e => !(e.1 == n))).map (fun e => e.1) := by
  intro hmem
  obtain ⟨e, he, hen⟩ := List.mem_map.mp hmem
  have := (List.mem_filter.mp he).2
  simp [hen] at this

/-- C30: on a collection whose keys are pairwise distinct.  `Register(n, t)` with a non-nil
tool returns nil, after it `Get(n)` returns `t` and `Get(m)` returns what it returned before
for every other name; `Remove(n)` of a registered name returns nil, after it `Get(n)` fails and
`Get(m)` is unchanged for every other name; `Register` with a nil tool and `Remove` of a name
that is not registered return an error and leave the collection as it was; `List` holds each
registered name exactly once, before and after each operation, and `Get` succeeds exactly on
the names of `List`. -/
theorem ToolCollection_named_entry_only (tc : ToolCollection) (hwf : tc.WellFormed)
    (n : String) (t : Tool) :
    ((tc.Register n (some t)).1 = none ∧ (tc.Register n (some t)).2.Get n = .ok t ∧
        (∀ m, m ≠ n → (tc.Register n (some t)).2.Get m = tc.Get m) ∧
        (tc.Register n (some t)).2.WellFormed ∧
        (∀ m, m ∈ (tc.Register n (some t)).2.List ↔ m = n ∨ m ∈ tc.List)) ∧
      (n ∈ tc.List →
        (tc.Remove n).1 = none ∧ (tc.Remove n).2.Get n = .error ("工具 " ++ n ++ " 不存在") ∧
        (∀ m, m ≠ n → (tc.Remove n).2.Get m = tc.Get m) ∧ (tc.Remove n).2.WellFormed ∧
        (∀ m, m ∈ (tc.Remove n).2.List ↔ m ≠ n ∧ m ∈ tc.List)) ∧
      (tc.Register n none = (some "工具不能为空", tc)) ∧
      (n ∉ tc.List → tc.Remove n = (some ("工具 " ++ n ++ " 不存在"), tc)) ∧
      (∀ m, m ∈ tc.List ↔ ∃ tool, tc.Get m = .ok tool) ∧
      (∀ m, m ∈ tc.List → tc.List.count m = 1) := by
  have hget : ∀ (c : ToolCollection) (m : String), m ∈ c.List ↔ ∃ tool, c.Get m = .ok tool := by
    intro c m
    unfold ToolCollection.Get
    cases hl : c.lookup m with
    | none =>
      have := (lookup_eq_none_iff c m).mp hl
      simp [this]
    | some tool =>
      have : m ∈ c.List := by
        by_contra hnot
        rw [(lookup_eq_none_iff c m).mpr hnot] at hl
        cases hl
      simp [this]
  refine ⟨⟨rfl, (Register_then_Get tc n t).2, ?_, ?_, ?_⟩, fun hn => ?_, rfl, fun hn => ?_,
    hget tc, fun m hm => List.count_eq_one_of_mem hwf hm⟩
  · intro m hm
    have hmn : (n == m) = false := by
      rw [beq_eq_false_iff_ne]
      exact fun h => hm h.symm
    simp only [ToolCollection.Register, ToolCollection.Get, ToolCollection.lookup,
      List.find?_cons, hmn, lookup_filter_ne tc.tools n m hm]
  · show ((n :: (tc.tools.filter (fun e => !(e.1 == n))).map (fun e => e.1))).Nodup
    exact List.nodup_cons.mpr
      ⟨not_mem_filter_keys tc.tools n, nodup_filter_keys tc.tools n hwf⟩
  · intro m
    show m ∈ n :: (tc.tools.filter (fun e => !(e.1 == n))).map (fun e => e.1) ↔ _
    rw [List.mem_cons]
    constructor
    · rintro (h | h)
      · exact Or.inl h
      · obtain ⟨e, he, hem⟩ := List.mem_map.mp h
        exact Or.inr (List.mem_map.mpr ⟨e, (List.mem_filter.mp he).1, hem⟩)
    · rintro (h | h)
      · exact Or.inl h
      · by_cases hmn : m = n
        · exact Or.inl hmn
        · obtain ⟨e, he, hem⟩ := List.mem_map.mp h
          refine Or.inr (List.mem_map.mpr ⟨e, List.mem_filter.mpr ⟨he, ?_⟩, hem⟩)
          simp [hem, hmn]
  · obtain ⟨tool, htool⟩ := (hget tc n).mp hn
    have hl : tc.lookup n = some tool := by
      unfold ToolCollection.Get at htool
      cases hl : tc.lookup n with
      | none => simp [hl] at htool
      | some t' =>
        simp only [hl, Except.ok.injEq] at htool
        rw [htool]
    have hrem : tc.Remove n = (none, { tools := tc.tools.filter (fun e => !(e.1 == n)) }) := by
      simp only [ToolCollection.Remove, hl]
    rw [hrem]
    refine ⟨rfl, ?_, ?_, nodup_filter_keys tc.tools n hwf, ?_⟩
    · simp only [ToolCollection.Get, ToolCollection.lookup, lookup_filter_self tc.tools n]
      rfl
    · intro m hm
      simp only [ToolCollection.Get, ToolCollection.lookup, lookup_filter_ne tc.tools n m hm]
    · intro m
      show m ∈ (tc.tools.filter (fun e => !(e.1 == n))).map (fun e => e.1) ↔ _
      constructor
      · intro h
        obtain ⟨e, he, hem⟩ := List.mem_map.mp h
        have hne := (List.mem_filter.mp he).2
        refine ⟨?_, List.mem_map.mpr ⟨e, (List.mem_filter.mp he).1, hem⟩⟩
        rintro rfl
        simp [hem] at hne
      · rintro ⟨hmn, h⟩
        obtain ⟨e, he, hem⟩ := List.mem_map.mp h
        refine List.mem_map.mpr ⟨e, List.mem_filter.mpr ⟨he, ?_⟩, hem⟩
        simp [hem, hmn]
  · simp only [ToolCollection.Remove, (lookup_eq_none_iff tc n).mpr hn]

/-- C30 (witness): the collection holding `shell` and `file`, and the name `shell`. -/
theorem ToolCollection_named_entry_only_witness :
    ((twoTools.Register "shell" (some (echoTool "sh2"))).1 = none ∧
        (twoTools.Register "shell" (some (echoTool "sh2"))).2.Get "shell" =
          .ok (echoTool "sh2") ∧
        (∀ m, m ≠ "shell" →
          (twoTools.Register "shell" (some (echoTool "sh2"))).2.Get m = twoTools.Get m) ∧
        (twoTools.Register "shell" (some (echoTool "sh2"))).2.WellFormed ∧
        (∀ m, m ∈ (twoTools.Register "shell" (some (echoTool "sh2"))).2.List ↔
          m = "shell" ∨ m ∈ twoTools.List)) ∧
      ("shell" ∈ twoTools.List →
        (twoTools.Remove "shell").1 = none ∧
        (twoTools.Remove "shell").2.Get "shell" = .error ("工具 " ++ "shell" ++ " 不存在") ∧
        (∀ m, m ≠ "shell" → (twoTools.Remove "shell").2.Get m = twoTools.Get m) ∧
        (twoTools.Remove "shell").2.WellFormed ∧
        (∀ m, m ∈ (twoTools.Remove "shell").2.List ↔ m ≠ "shell" ∧ m ∈ twoTools.List)) ∧
      (twoTools.Register "shell" none = (some "工具不能为空", twoTools)) ∧
      ("shell" ∉ twoTools.List →
        twoTools.Remove "shell" = (some ("工具 " ++ "shell" ++ " 不存在"), twoTools)) ∧
      (∀ m, m ∈ twoTools.List ↔ ∃ tool, twoTools.Get m = .ok tool) ∧
      (∀ m, m ∈ twoTools.List → twoTools.List.count m = 1) :=
  ToolCollection_named_entry_only twoTools (by decide) "shell" (echoTool "sh2")

/-! ## Dispatch rounds of `BaseAgent.Act` -/

/-- C24 (counterexample): with the script `twoRoundScript` a single call to `BaseAgent.Act`
invokes `Tool.Run` twice before it returns: the follow-up reply to the first tool result holds
`Action:`, so `handleToolResult` enters `Act` again, which dispatches the tool of the next
reply. -/
theorem Act_invokes_tool_twice :
    ((BaseAgent.Act 2 (NewBaseAgent "base" (scriptedLLM twoRoundScript) (some shellTools))
        "count the files").bind Exec.returned).map
        (fun r => (r.1, r.2.toolCalls.map (fun c => c.1), r.2.llmClient.requests.length)) =
      some (.ok "There are 3 files.", ["shell", "shell"], 4) := by
  rfl

/-- A call to `Act` whose first `k` follow-up replies hold the marker and whose reply number
`k + 1` does not, every round dispatching a registered tool that succeeds, returns that last
reply after `k + 1` tool invocations and `2 (k + 1)` model calls, for every bound on the depth
of the calls above `k`. -/
theorem Act_rounds (tc : ToolCollection) (k : Nat) :
    ∀ (m : Nat) (a : BaseAgent) (prompt final : String) (others : List String),
      k < m → a.tools = some tc →
      (∀ i, i ≤ k → ∃ content rest action input tool result,
        a.llmClient.replies (a.llmClient.requests.length + 2 * i) =
            .response (content :: rest) ∧
          BaseAgent.parseLLMAction content = .ok (action, input) ∧
          tc.Get action = .ok tool ∧ tool.Run (.params input) = .ok result) →
      (∀ i, i < k → ∃ content rest,
        a.llmClient.replies (a.llmClient.requests.length + 2 * i + 1) =
            .response (content :: rest) ∧
          hasSubstring "Action:".data content.data = true) →
      a.llmClient.replies (a.llmClient.requests.length + 2 * k + 1) =
        .response (final :: others) →
      hasSubstring "Action:".data final.data = false →
      ∃ a', BaseAgent.Act m a prompt = some (.done (.ok final) a') ∧
        a'.toolCalls.length = a.toolCalls.length + (k + 1) ∧
        a'.llmClient.requests.length = a.llmClient.requests.length + 2 * (k + 1) := by
  induction k with
  | zero =>
    intro m a prompt final others hm htools hact _ hfinal hnomark
    obtain ⟨n, rfl⟩ : ∃ n, m = n + 1 := ⟨m - 1, by omega⟩
    obtain ⟨content, rest, action, input, tool, result, h1, h2, h3, h4⟩ := hact 0 (le_refl _)
    rw [Nat.mul_zero, Nat.add_zero] at h1
    have hfinal' : a.llmClient.replies (a.llmClient.requests.length + 1) =
        .response (final :: others) := by
      rw [Nat.mul_zero, Nat.add_zero] at hfinal
      exact hfinal
    have hnm : hasSubstring ['A', 'c', 't', 'i', 'o', 'n', ':'] final.data = false := hnomark
    refine ⟨{ a with
        llmClient := { a.llmClient with
          requests := (a.llmClient.requests ++
            [[{ Role := "user", Content := buildPromptText tc.List prompt }]]) ++
            [[{ Role := "user", Content := resultPromptText result.render }]] }
        toolCalls := a.toolCalls ++ [(action, .params input)] }, ?_, ?_, ?_⟩
    · simp only [BaseAgent.Act, htools, LLMClient.GetCompletion, h1, h2, h3, h4,
        BaseAgent.handleToolResultWith, List.length_append, List.length_singleton, hfinal',
        hnm, Bool.false_eq_true, if_false]
    · simp
    · simp
  | succ k ih =>
    intro m a prompt final others hm htools hact hmark hfinal hnomark
    obtain ⟨n, rfl⟩ : ∃ n, m = n + 1 := ⟨m - 1, by omega⟩
    obtain ⟨content, rest, action, input, tool, result, h1, h2, h3, h4⟩ :=
      hact 0 (Nat.zero_le _)
    rw [Nat.mul_zero, Nat.add_zero] at h1
    obtain ⟨follow, rest', hf1, hf2⟩ := hmark 0 (Nat.succ_pos k)
    rw [Nat.mul_zero, Nat.add_zero] at hf1
    have hf2' : hasSubstring ['A', 'c', 't', 'i', 'o', 'n', ':'] follow.data = true := hf2
    let a2 : BaseAgent := { a with
        llmClient := { a.llmClient with
          requests := (a.llmClient.requests ++
            [[{ Role := "user", Content := buildPromptText tc.List prompt }]]) ++
            [[{ Role := "user", Content := resultPromptText result.render }]] }
        toolCalls := a.toolCalls ++ [(action, .params input)] }
    have hstep : BaseAgent.Act (n + 1) a prompt = BaseAgent.Act n a2 follow := by
      simp only [BaseAgent.Act, htools, LLMClient.GetCompletion, h1, h2, h3, h4,
        BaseAgent.handleToolResultWith, List.length_append, List.length_singleton, hf1, hf2',
        if_true, a2]
    have hreq : a2.llmClient.requests.length = a.llmClient.requests.length + 2 := by
      simp [a2]
    obtain ⟨a', e1, e2, e3⟩ := ih n a2 follow final others (by omega) htools
      (fun i hi => by
        rw [hreq, show a.llmClient.requests.length + 2 + 2 * i =
          a.llmClient.requests.length + 2 * (i + 1) by omega]
        exact hact (i + 1) (by omega))
      (fun i hi => by
        rw [hreq, show a.llmClient.requests.length + 2 + 2 * i + 1 =
          a.llmClient.requests.length + 2 * (i + 1) + 1 by omega]
        exact hmark (i + 1) (by omega))
      (by
        rw [hreq, show a.llmClient.requests.length + 2 + 2 * k + 1 =
          a.llmClient.requests.length + 2 * (k + 1) + 1 by omega]
        exact hfinal)
      hnomark
    refine ⟨a', hstep.trans e1, ?_, ?_⟩
    · rw [e2]
      simp [a2]
      omega
    · rw [e3, hreq]
      omega

/-- C24 (amended): a call to `BaseAgent.Act` runs one dispatch round and, each time the reply
to the tool-result prompt holds the text `Action:`, another one inside the same call, each round
invoking `Tool.Run` once.  When the follow-up replies of the first `k` rounds hold the marker
and the one of round `k + 1` does not (each round parsing to a registered tool that succeeds),
the call returns that last reply with a nil error after exactly `k + 1` tool invocations and
`2 (k + 1)` model calls; so it invokes `Tool.Run` exactly once when the first follow-up reply
lacks the marker (`k = 0`), and more than once otherwise. -/
theorem Act_one_invocation_per_round (tc : ToolCollection) (k m : Nat) (a : BaseAgent)
    (prompt final : String) (others : List String) (hm : k < m) (htools : a.tools = some tc)
    (hact : ∀ i, i ≤ k → ∃ content rest action input tool result,
      a.llmClient.replies (a.llmClient.requests.length + 2 * i) =
          .response (content :: rest) ∧
        BaseAgent.parseLLMAction content = .ok (action, input) ∧
        tc.Get action = .ok tool ∧ tool.Run (.params input) = .ok result)
    (hmark : ∀ i, i < k → ∃ content rest,
      a.llmClient.replies (a.llmClient.requests.length + 2 * i + 1) =
          .response (content :: rest) ∧
        ∃ pre post, content.data = pre ++ "Action:".data ++ post)
    (hfinal : a.llmClient.replies (a.llmClient.requests.length + 2 * k + 1) =
      .response (final :: others))
    (hnomark : ¬ ∃ pre post, final.data = pre ++ "Action:".data ++ post) :
    ∃ a', BaseAgent.Act m a prompt = some (.done (.ok final) a') ∧
      a'.toolCalls.length = a.toolCalls.length + (k + 1) ∧
      a'.llmClient.requests.length = a.llmClient.requests.length + 2 * (k + 1) :=
  Act_rounds tc k m a prompt final others hm htools hact
    (fun i hi => by
      obtain ⟨content, rest, h1, h2⟩ := hmark i hi
      exact ⟨content, rest, h1, (hasSubstring_iff _ _).mpr h2⟩)
    hfinal (by rw [← Bool.not_eq_true, hasSubstring_iff]; exact hnomark)

/-- C24 (witness): the script `twoRoundScript`, whose one follow-up reply with the marker gives
two tool invocations and four model calls. -/
theorem Act_one_invocation_per_round_witness :
    ∃ a', BaseAgent.Act 2 (NewBaseAgent "base" (scriptedLLM twoRoundScript) (some shellTools))
        "count the files" = some (.done (.ok "There are 3 files.") a') ∧
      a'.toolCalls.length =
        (NewBaseAgent "base" (scriptedLLM twoRoundScript) (some shellTools)).toolCalls.length +
          (1 + 1) ∧
      a'.llmClient.requests.length =
        (NewBaseAgent "base" (scriptedLLM twoRoundScript)
          (some shellTools)).llmClient.requests.length + 2 * (1 + 1) :=
  Act_one_invocation_per_round shellTools 1 2
    (NewBaseAgent "base" (scriptedLLM twoRoundScript) (some shellTools))
    "count the files" "There are 3 files." [] (by decide) rfl
    (by
      intro i hi
      interval_cases i
      · exact ⟨"Action: shell\nAction Input: \x7b\"cmd\": \"ls\"\x7d", [], "shell",
          some [("cmd", .str "ls")], echoTool "shell", .str "shell", by rfl, by rfl, by rfl, rfl⟩
      · exact ⟨"Action: shell\nAction Input: \x7b\"cmd\": \"wc\"\x7d", [], "shell",
          some [("cmd", .str "wc")], echoTool "shell", .str "shell", by rfl, by rfl, by rfl, rfl⟩)
    (by
      intro i hi
      interval_cases i
      exact ⟨"Thought: look closer\nAction: shell\nAction Input: \x7b\x7d", [], by rfl,
        "Thought: look closer\n".data, " shell\nAction Input: \x7b\x7d".data, by rfl⟩)
    (by rfl)
    (by
      rw [← hasSubstring_iff]
      decide)

/-! ## The action grammar: where a match may start -/

theorem dropWhile_head {α : Type} (p : α → Bool) (l : List α) :
    l.dropWhile p = [] ∨ ∃ c r, l.dropWhile p = c :: r ∧ p c = false := by
  induction l with
  | nil => exact Or.inl rfl
  | cons x xs ih =>
    cases hp : p x with
    | true =>
      rw [List.dropWhile_cons_of_pos hp]
      exact ih
    | false =>
      right
      exact ⟨x, xs, List.dropWhile_cons_of_neg (by simp [hp]), hp⟩

/-- A match of the pattern at the head of a text: the text is `Action: `, a non-empty run of
word characters, a newline, `Action Input: `, the payload up to the end of that line, and the
rest, which is empty or starts with a newline. -/
theorem matchActionAt_shape (cs name payload : List Char)
    (h : matchActionAt cs = some (name, payload)) :
    ∃ rest, cs = "Action: ".data ++ (name ++ ("\nAction Input: ".data ++ (payload ++ rest))) ∧
      name ≠ [] ∧ (∀ c ∈ name, isWordChar c = true) ∧ '\n' ∉ payload ∧
      (rest = [] ∨ ∃ r, rest = '\n' :: r) := by
  unfold matchActionAt at h
  cases hd : dropLiteral "Action: ".data cs with
  | none => simp [hd] at h
  | some r =>
    simp only [hd] at h
    cases htw : r.takeWhile isWordChar with
    | nil => simp [htw] at h
    | cons w ws =>
      simp only [htw] at h
      cases hd2 : dropLiteral "\nAction Input: ".data (r.dropWhile isWordChar) with
      | none => simp [hd2] at h
      | some r1 =>
        simp only [hd2, Option.some.injEq, Prod.mk.injEq] at h
        obtain ⟨hname, hpayload⟩ := h
        have hcs := (dropLiteral_eq_some_iff _ _ _).mp hd
        have hr1 := (dropLiteral_eq_some_iff _ _ _).mp hd2
        have hr : r = name ++ ("\nAction Input: ".data ++ r1) := by
          rw [← hr1, ← hname, ← htw]
          exact (List.takeWhile_append_dropWhile _ _).symm
        have hsplit : r1 = payload ++ r1.dropWhile (fun c => c != '\n') := by
          rw [← hpayload]
          exact (List.takeWhile_append_dropWhile _ _).symm
        refine ⟨r1.dropWhile (fun c => c != '\n'), ?_, ?_, ?_, ?_, ?_⟩
        · rw [hcs, hr, ← hsplit]
        · rw [← hname]
          exact List.cons_ne_nil _ _
        · intro c hc
          rw [← hname, ← htw] at hc
          exact (List.mem_takeWhile_imp hc)
        · intro hmem
          rw [← hpayload] at hmem
          have := List.mem_takeWhile_imp hmem
          simp at this
        · rcases dropWhile_head (fun c => c != '\n') r1 with h0 | ⟨c, r', h1, h2⟩
          · exact Or.inl h0
          · right
            refine ⟨r', ?_⟩
            rw [h1]
            have hc : c = '\n' := by simpa using h2
            rw [hc]

theorem findActionMatch_shape (cs name payload : List Char)
    (h : findActionMatch cs = some (name, payload)) :
    ∃ pre suffix, cs = pre ++ suffix ∧ matchActionAt suffix = some (name, payload) := by
  induction cs with
  | nil => exact ⟨[], [], rfl, h⟩
  | cons c cs ih =>
    rw [findActionMatch] at h
    cases hm : matchActionAt (c :: cs) with
    | some m =>
      simp only [hm, Option.some.injEq] at h
      exact ⟨[], c :: cs, rfl, by rw [hm, h]⟩
    | none =>
      simp only [hm] at h
      obtain ⟨pre, suffix, hcs, hs⟩ := ih h
      exact ⟨c :: pre, suffix, by rw [hcs]; rfl, hs⟩

/-- C26 (counterexample): in the output `I choose Action: shell` / `Action Input: {}` the text
`Action: ` occurs only in the middle of the first line, no line begins with it, and
`parseLLMAction` succeeds with the tool `shell` and the empty argument map. -/
theorem parseLLMAction_mid_line_accepted :
    BaseAgent.parseLLMAction "I choose Action: shell\nAction Input: \x7b\x7d" =
        .ok ("shell", some []) ∧
      "I choose Action: shell\nAction Input: \x7b\x7d".data.splitOn '\n' =
        ["I choose Action: shell".data, "Action Input: \x7b\x7d".data] ∧
      someLineBegins "Action: ".data "I choose Action: shell\nAction Input: \x7b\x7d".data =
        false ∧
      someLineBegins "Action Input: ".data
        "I choose Action: shell\nAction Input: \x7b\x7d".data = true := by
  refine ⟨by rfl, by rfl, by rfl, by rfl⟩

/-! ## `Run` of the agent variants and the terminal states -/

/-- A property of the receiver that every worker call keeps is kept by the workers. -/
theorem runWorkers_agent {σ α : Type} (step : σ → Nat → Exec σ α) (P : σ → Prop)
    (hstep : ∀ a i, P a → P (step a i).agent) (order : List Nat) (a : σ) (ha : P a) :
    P (runWorkers step order a).agent := by
  induction order generalizing a with
  | nil => exact ha
  | cons i rest ih =>
    have h := hstep a i ha
    rw [runWorkers]
    cases hs : step a i with
    | done v a1 =>
      rw [hs] at h
      exact ih a1 h
    | blocked a1 =>
      rw [hs] at h
      exact h
    | panicked reason a1 =>
      rw [hs] at h
      exact h

theorem ManusAgent_Act_State (a : ManusAgent) (prompt : String) :
    (a.Act prompt).agent.base.State = a.base.State := by
  unfold ManusAgent.Act
  simp only
  repeat' split
  all_goals rfl

theorem ManusAgent_Step_State (a : ManusAgent) : a.Step.agent.base.State = a.base.State :=
  ManusAgent_Act_State a ""

theorem BrowserAgent_Act_State (a : BrowserAgent) (prompt : String) :
    (a.Act prompt).agent.base.State = a.base.State := by
  unfold BrowserAgent.Act
  simp only
  repeat' split
  all_goals rfl

theorem BrowserAgent_Step_State (a : BrowserAgent) (i : Nat) :
    (a.Step i).agent.base.State = a.base.State := by
  have h := BrowserAgent_Act_State a (stepPrompt i)
  unfold BrowserAgent.Step
  split <;> simp_all [Exec.agent]

theorem SWEAgent_Act_State (a : SWEAgent) (prompt : String) :
    (a.Act prompt).agent.base.State = a.base.State := by
  unfold SWEAgent.Act
  repeat' split
  all_goals rfl

theorem SWEAgent_Step_State (a : SWEAgent) (i : Nat) :
    (a.Step i).agent.base.State = a.base.State := by
  have h := SWEAgent_Act_State a (stepPrompt i)
  unfold SWEAgent.Step
  split <;> simp_all [Exec.agent]

/-- Whatever its outcome and whatever the state it was called in, `ManusAgent.Run` leaves the
agent in `Running` (a worker panicked) or in `Finished` (it returned). -/
theorem ManusAgent_Run_State (a : ManusAgent) :
    a.Run.agent.base.State = Running ∨
      a.Run.returned.map (fun r => (r.1, r.2.base.State)) = some (none, Finished) := by
  have hw := runWorkers_agent (fun (b : ManusAgent) (_ : Nat) => b.Step)
    (fun b => b.base.State = Running)
    (fun b _ hb => (ManusAgent_Step_State b).trans hb) [1, 2, 3]
    { a with base := { a.base with State := Running } } rfl
  unfold ManusAgent.Run
  simp only
  split
  · rename_i h
    rw [h] at hw
    exact Or.inl hw
  · rename_i h
    rw [h] at hw
    exact Or.inl hw
  · exact Or.inr rfl

/-- The same for `BrowserAgent.Run`, for every order of its workers. -/
theorem BrowserAgent_Run_State (a : BrowserAgent) (order : List Nat) :
    (a.Run order).agent.base.State = Running ∨
      (a.Run order).returned.map (fun r => (r.1, r.2.base.State)) = some (none, Finished) := by
  have hw := runWorkers_agent (fun (b : BrowserAgent) (i : Nat) => b.Step i)
    (fun b => b.base.State = Running)
    (fun b i hb => (BrowserAgent_Step_State b i).trans hb) order
    { a with base := { a.base with State := Running } } rfl
  unfold BrowserAgent.Run
  simp only
  split
  · rename_i h
    rw [h] at hw
    exact Or.inl hw
  · rename_i h
    rw [h] at hw
    exact Or.inl hw
  · exact Or.inr rfl

/-- The same for `SWEAgent.Run`. -/
theorem SWEAgent_Run_State (a : SWEAgent) (order : List Nat) :
    (a.Run order).agent.base.State = Running ∨
      (a.Run order).returned.map (fun r => (r.1, r.2.base.State)) = some (none, Finished) := by
  have hw := runWorkers_agent (fun (b : SWEAgent) (i : Nat) => b.Step i)
    (fun b => b.base.State = Running)
    (fun b i hb => (SWEAgent_Step_State b i).trans hb) order
    { a with base := { a.base with State := Running } } rfl
  unfold SWEAgent.Run
  simp only
  split
  · rename_i h
    rw [h] at hw
    exact Or.inl hw
  · rename_i h
    rw [h] at hw
    exact Or.inl hw
  · exact Or.inr rfl

theorem transitionError_terminal_eq (S T : AgentState) (hS : IsTerminal S) :
    transitionError S T = some ("cannot transition from terminal state " ++ fmtState S) := by
  rcases hS with h | h | h <;> subst h <;>
    simp [transitionError, Idle, Initializing, Running, Paused, Resuming, Finished, Error,
      Terminated]

/-- On an agent in a terminal state `BaseAgent.Run` returns the error of the rejected
transition to `Initializing` and leaves the agent as it was. -/
theorem BaseAgent_Run_terminal (a : BaseAgent) (hS : IsTerminal a.State)
    (ctxDone : Nat → Bool) (act : Nat → Except GoError String) :
    a.Run ctxDone act =
      .done (some ("cannot transition from terminal state " ++ fmtState a.State)) a := by
  have h := SetState_of_transitionError a Initializing _
    (transitionError_terminal_eq a.State Initializing hS)
  unfold BaseAgent.Run BaseAgent.RunWith
  rw [h]

/-- C25 (the code at the failing inputs): a `ManusAgent` in `Error` whose model calls fail
comes back from `Run` with a nil error in `Finished`; so do a `BrowserAgent` in `Terminated`
and an `SWEAgent` in `Error`.  A `ManusAgent` in `Finished` whose model names a tool panics
inside `Run` in the state `Running`.  For every agent of these three variants and every state,
`Run` leaves the agent in `Running` or returns nil with the agent in `Finished`.
`BaseAgent.Run`, which goes through `SetState`, returns an error from each terminal state and
leaves the state as it was. -/
theorem Run_variants_overwrite_terminal_state :
    (manusIn Error silentLLM).Run.returned.map (fun r => (r.1, r.2.base.State)) =
        some (none, Finished) ∧
      ((browserIn Terminated silentLLM).Run [0, 1]).returned.map
          (fun r => (r.1, r.2.base.State)) = some (none, Finished) ∧
      ((sweIn Error).Run [0, 1]).returned.map (fun r => (r.1, r.2.base.State)) =
        some (none, Finished) ∧
      (manusIn Finished (replyingLLM "Action: shell\nAction Input: \x7b\x7d")).Run.panicReason =
        some nilToolsPanic ∧
      (manusIn Finished
          (replyingLLM "Action: shell\nAction Input: \x7b\x7d")).Run.agent.base.State = Running ∧
      (∀ a : ManusAgent, a.Run.agent.base.State = Running ∨
        a.Run.returned.map (fun r => (r.1, r.2.base.State)) = some (none, Finished)) ∧
      (∀ (a : BrowserAgent) (order : List Nat), (a.Run order).agent.base.State = Running ∨
        (a.Run order).returned.map (fun r => (r.1, r.2.base.State)) = some (none, Finished)) ∧
      (∀ (a : SWEAgent) (order : List Nat), (a.Run order).agent.base.State = Running ∨
        (a.Run order).returned.map (fun r => (r.1, r.2.base.State)) = some (none, Finished)) ∧
      (∀ S ∈ [Finished, Error, Terminated],
        (BaseAgent.Run (fun _ => false) (fun _ => .ok "")
            { freshAgent with State := S }).returned.map (fun r => (r.1, r.2.State)) =
          some (some ("cannot transition from terminal state " ++ fmtState S), S)) := by
  refine ⟨by rfl, by rfl, by rfl, by rfl, by rfl, ManusAgent_Run_State,
    BrowserAgent_Run_State, SWEAgent_Run_State, ?_⟩
  intro S hS
  have hT : IsTerminal S := by
    simp only [List.mem_cons, List.mem_singleton, List.not_mem_nil, or_false] at hS
    exact hS
  rw [BaseAgent_Run_terminal { freshAgent with State := S } hT]
  rfl

/-! ## The flow: what the selection step returns -/

theorem storeStrings_strs (field : String) (ns : List String) :
    storeStrings field (ns.map JValue.str) = .ok ns := by
  induction ns with
  | nil => rfl
  | cons n ns ih => simp only [List.map_cons, storeStrings, storeString, ih]

theorem storeMembers_append (r : SelectionResponse) (l₁ l₂ : List (String × JValue)) :
    storeMembers r (l₁ ++ l₂) =
      match storeMembers r l₁ with
      | .error e => .error e
      | .ok r1 => storeMembers r1 l₂ := by
  induction l₁ generalizing r with
  | nil => rfl
  | cons m ms ih =>
    simp only [List.cons_append, storeMembers]
    cases storeMember r m with
    | error e => rfl
    | ok r1 => exact ih r1

/-- Members whose key does not select the field `agents` leave the stored list alone. -/
theorem storeMembers_other (r r' : SelectionResponse) (ms : List (String × JValue))
    (hother : ∀ m ∈ ms, matchesField "agents" m.1 = false)
    (h : storeMembers r ms = .ok r') : r'.Agents = r.Agents := by
  induction ms generalizing r with
  | nil =>
    simp only [storeMembers, Except.ok.injEq] at h
    rw [h]
  | cons m ms ih =>
    rw [storeMembers] at h
    have hm := hother m (List.mem_cons_self _ _)
    cases hs : storeMember r m with
    | error e => simp [hs] at h
    | ok r1 =>
      simp only [hs] at h
      have h1 : r1.Agents = r.Agents := by
        unfold storeMember at hs
        simp only [hm, Bool.false_eq_true, if_false] at hs
        split_ifs at hs
        · cases hst : storeString "reason" r.Reason m.2 with
          | error e => simp [hst] at hs
          | ok s =>
            simp only [hst, Except.ok.injEq] at hs
            rw [← hs]
        · simp only [Except.ok.injEq] at hs
          rw [hs]
      exact (ih r1 (fun x hx => hother x (List.mem_cons_of_mem _ hx)) h).trans h1

/-- The list stored by the last member that selects the field `agents`, according to its
value: an array of strings gives those strings, `null` and the empty array give no name. -/
theorem storeMembers_last_agents (r r' : SelectionResponse) (pre post : List (String × JValue))
    (key : String) (v : JValue) (hkey : matchesField "agents" key = true)
    (hpost : ∀ m ∈ post, matchesField "agents" m.1 = false)
    (h : storeMembers r (pre ++ (key, v) :: post) = .ok r') :
    (∀ ns : List String, v = .arr (ns.map JValue.str) → r'.Agents = ns) ∧
      (v = .null → r'.Agents = []) := by
  rw [storeMembers_append] at h
  cases h1 : storeMembers r pre with
  | error e => simp [h1] at h
  | ok r1 =>
    simp only [h1] at h
    rw [storeMembers] at h
    cases h2 : storeMember r1 (key, v) with
    | error e => simp [h2] at h
    | ok r2 =>
      simp only [h2] at h
      have hend := storeMembers_other r2 r' post hpost h
      constructor
      · intro ns hv
        subst hv
        simp only [storeMember, hkey, if_true, storeStrings_strs, Except.ok.injEq] at h2
        rw [hend, ← h2]
      · intro hv
        subst hv
        simp only [storeMember, hkey, if_true, Except.ok.injEq] at h2
        rw [hend, ← h2]

/-- The decoder on a reply that is a JSON object: the store of its members. -/
theorem jsonUnmarshalResponse_of_members (content : String) (ms : List (String × JValue))
    (h : replyMembers content = some ms) :
    jsonUnmarshalResponse content = storeMembers { Agents := [], Reason := "" } ms := by
  unfold replyMembers at h
  unfold jsonUnmarshalResponse
  split at h
  · rename_i fields hp
    rw [hp]
    simp only
    cases ht : topLevelMembers content.data with
    | error e => simp [ht] at h
    | ok members =>
      simp only [ht, Option.some.injEq] at h
      rw [h]
  · cases h

/-- Every success of the selection step comes from a reply that decodes, returns the decoded
list as it is, after finding each of its names in the map, and leaves the flow with the one
model call recorded. -/
theorem analyzeTask_ok_cases (f : BaseFlow) (prompt content : String) (others : List String)
    (names : List String) (f' : BaseFlow)
    (hreply : f.llmClient.replies f.llmClient.requests.length = .response (content :: others))
    (hsucc : f.analyzeTask prompt = .done (.ok names) f') :
    ∃ response, jsonUnmarshalResponse content = .ok response ∧ names = response.Agents ∧
      (∀ n ∈ names, f.lookup n ≠ none) ∧ f' = f.analyzed prompt := by
  cases hdecode : jsonUnmarshalResponse content with
  | error e =>
    simp [BaseFlow.analyzeTask, LLMClient.GetCompletion, hreply, hdecode] at hsucc
  | ok response =>
    rw [analyzeTask_of_reply f prompt content others response hreply hdecode] at hsucc
    cases hfind : response.Agents.find? (fun agentName => (f.lookup agentName).isNone) with
    | some unknown => simp [hfind] at hsucc
    | none =>
      simp only [hfind, Exec.done.injEq, Except.ok.injEq] at hsucc
      obtain ⟨h1, h2⟩ := hsucc
      refine ⟨response, rfl, h1.symm, ?_, h2.symm⟩
      intro n hn hnone
      rw [← h1] at hn
      have := (List.find?_eq_none.mp hfind) n hn
      simp [hnone] at this

theorem integrateResults_actCalls (f : BaseFlow) (prompt : String)
    (results : List agentResult) :
    (f.integrateResults prompt results).agent.actCalls = f.actCalls := by
  unfold BaseFlow.integrateResults
  simp only
  split <;> rfl

/-- C28: whenever `analyzeTask` succeeds on a reply, the reply decodes and the slice returned is
the decoded list of names as it is; when the reply is a JSON object whose (last) `agents`
member is an array of strings, the slice is that array element for element, in the same order
and with its repetitions, possibly empty.  Every element is a key of the agent map, and for
every order of arrival `Execute` has called `Act` once per element, in addition to the calls
recorded before: a name listed `k` times is dispatched `k` times. -/
theorem analyzeTask_preserves_selection (f : BaseFlow) (prompt content : String)
    (others : List String) (names : List String) (f' : BaseFlow)
    (hreply : f.llmClient.replies f.llmClient.requests.length = .response (content :: others))
    (hsucc : f.analyzeTask prompt = .done (.ok names) f') :
    (∃ response, jsonUnmarshalResponse content = .ok response ∧ names = response.Agents) ∧
      (∀ (pre post : List (String × JValue)) (key : String) (ns : List String),
        replyMembers content = some (pre ++ (key, JValue.arr (ns.map JValue.str)) :: post) →
        matchesField "agents" key = true →
        (∀ m ∈ post, matchesField "agents" m.1 = false) → names = ns) ∧
      (∀ n ∈ names, f.lookup n ≠ none) ∧
      (∀ order, (f.Execute order prompt).agent.actCalls = f.actCalls ++ names) ∧
      (∀ order n, (f.Execute order prompt).agent.actCalls.count n =
        f.actCalls.count n + names.count n) := by
  obtain ⟨response, hdecode, hnames, hknown, hf'⟩ :=
    analyzeTask_ok_cases f prompt content others names f' hreply hsucc
  have hcalls : ∀ order, (f.Execute order prompt).agent.actCalls = f.actCalls ++ names := by
    intro order
    obtain ⟨sends, hspawn⟩ := spawnWorkers_some f prompt names hknown
    rw [hf'] at hsucc
    rw [Execute_of_sends f order prompt names sends hsucc hspawn]
    split
    · rfl
    · have hint := integrateResults_actCalls (f.dispatched prompt names) prompt
        ((order.filterMap (fun i => sends[i]?)).filterMap sentResult)
      split <;> rename_i hres <;> rw [hres] at hint <;> exact hint
  refine ⟨⟨response, hdecode, hnames⟩, ?_, hknown, hcalls, ?_⟩
  · intro pre post key ns hmem hkey hpost
    rw [jsonUnmarshalResponse_of_members content _ hmem] at hdecode
    rw [hnames]
    exact (storeMembers_last_agents _ response pre post key _ hkey hpost hdecode).1 ns rfl
  · intro order n
    rw [hcalls order, List.count_append]

/-- C28 (witness): the reply lists `react`, `manus`, `react`; the slice returned is that list
and `Execute` calls `react` twice and `manus` once. -/
theorem analyzeTask_preserves_selection_witness :
    ((∃ response,
        jsonUnmarshalResponse
            "\x7b\"agents\": [\"react\", \"manus\", \"react\"], \"reason\": \"why\"\x7d" =
          .ok response ∧
        ["react", "manus", "react"] = response.Agents) ∧
      (∀ (pre post : List (String × JValue)) (key : String) (ns : List String),
        replyMembers "\x7b\"agents\": [\"react\", \"manus\", \"react\"], \"reason\": \"why\"\x7d" =
          some (pre ++ (key, JValue.arr (ns.map JValue.str)) :: post) →
        matchesField "agents" key = true →
        (∀ m ∈ post, matchesField "agents" m.1 = false) → ["react", "manus", "react"] = ns) ∧
      (∀ n ∈ ["react", "manus", "react"],
        (sampleFlow
          ["\x7b\"agents\": [\"react\", \"manus\", \"react\"], \"reason\": \"why\"\x7d",
           "merged"]).lookup n ≠ none) ∧
      (∀ order,
        ((sampleFlow
          ["\x7b\"agents\": [\"react\", \"manus\", \"react\"], \"reason\": \"why\"\x7d",
           "merged"]).Execute order "task").agent.actCalls =
          (sampleFlow
            ["\x7b\"agents\": [\"react\", \"manus\", \"react\"], \"reason\": \"why\"\x7d",
             "merged"]).actCalls ++ ["react", "manus", "react"]) ∧
      (∀ order n,
        ((sampleFlow
          ["\x7b\"agents\": [\"react\", \"manus\", \"react\"], \"reason\": \"why\"\x7d",
           "merged"]).Execute order "task").agent.actCalls.count n =
          (sampleFlow
            ["\x7b\"agents\": [\"react\", \"manus\", \"react\"], \"reason\": \"why\"\x7d",
             "merged"]).actCalls.count n + ["react", "manus", "react"].count n)) ∧
      replyMembers "\x7b\"agents\": [\"react\", \"manus\", \"react\"], \"reason\": \"why\"\x7d" =
        some ([] ++ ("agents", JValue.arr (["react", "manus", "react"].map JValue.str)) ::
          [("reason", JValue.str "why")]) ∧
      ((sampleFlow
          ["\x7b\"agents\": [\"react\", \"manus\", \"react\"], \"reason\": \"why\"\x7d",
           "merged"]).Execute [2, 0, 1] "task").returned.map
          (fun r => (r.1, r.2.actCalls, r.2.userMessages)) =
        some (("merged", none), ["react", "manus", "react"],
          ["task",
           "原始任务：task\n\n各智能体执行结果：\nreact 的结果：\nR2\n\nreact 的结果：\nR2\n\nmanus 的结果：\nR1\n\n"]) :=
  ⟨analyzeTask_preserves_selection
      (sampleFlow
        ["\x7b\"agents\": [\"react\", \"manus\", \"react\"], \"reason\": \"why\"\x7d", "merged"])
      "task" "\x7b\"agents\": [\"react\", \"manus\", \"react\"], \"reason\": \"why\"\x7d" []
      ["react", "manus", "react"]
      ((sampleFlow
        ["\x7b\"agents\": [\"react\", \"manus\", \"react\"], \"reason\": \"why\"\x7d",
         "merged"]).analyzed "task")
      (by rfl) (by rfl),
    by rfl, by rfl⟩

/-! ## The flow: an empty selection -/

/-- C29: when the selection reply is a JSON object that decodes and whose `agents` list is
missing (no member selects the field), `null` or the empty array (in its last member that
selects the field), and the model answers the second call of the flow with `final`, then for
every order `Execute` returns `final` and a nil error; `Act` has been called on no agent, and
the flow has made the selection call and exactly one integration call, whose user message is
the task header `原始任务：<task>\n\n各智能体执行结果：\n` with no result segment. -/
theorem Execute_empty_selection (f : BaseFlow) (order : List Nat)
    (prompt content final : String) (others others' : List String)
    (ms : List (String × JValue)) (response : SelectionResponse)
    (hreply : f.llmClient.replies f.llmClient.requests.length = .response (content :: others))
    (hmembers : replyMembers content = some ms)
    (hdecode : jsonUnmarshalResponse content = .ok response)
    (hempty : (∀ m ∈ ms, matchesField "agents" m.1 = false) ∨
      ∃ pre key v post, ms = pre ++ (key, v) :: post ∧ matchesField "agents" key = true ∧
        (∀ m ∈ post, matchesField "agents" m.1 = false) ∧ (v = .null ∨ v = .arr []))
    (hmerge :
      f.llmClient.replies (f.llmClient.requests.length + 1) = .response (final :: others')) :
    ∃ f', f.Execute order prompt = .done (final, none) f' ∧ f'.actCalls = f.actCalls ∧
      f'.llmClient.requests = f.llmClient.requests ++
        [analyzeMessages prompt,
         [{ Role := "system", Content := integrateSystemPrompt },
          { Role := "user",
            Content := "原始任务：" ++ prompt ++ "\n\n各智能体执行结果：\n" }]] := by
  have hstore := hdecode
  rw [jsonUnmarshalResponse_of_members content ms hmembers] at hstore
  have hnone : response.Agents = [] := by
    rcases hempty with hmiss | ⟨pre, key, v, post, hms, hkey, hpost, hv⟩
    · exact storeMembers_other _ response ms hmiss hstore
    · rw [hms] at hstore
      obtain ⟨harr, hnull⟩ := storeMembers_last_agents _ response pre post key v hkey hpost hstore
      rcases hv with hv | hv
      · exact hnull hv
      · exact harr [] hv
  have han := analyzeTask_of_known f prompt content others response hreply hdecode
    (by rw [hnone]; intro n hn; cases hn)
  rw [hnone] at han
  have hexec := Execute_of_sends f order prompt [] [] han rfl
  have hnil : order.filterMap (fun i => ([] : List (Except GoError agentResult))[i]?) = [] := by
    rw [List.filterMap_eq_nil_iff]
    intro i _
    rfl
  rw [hnil] at hexec
  simp only [List.filterMap_nil] at hexec
  have hidx : (f.dispatched prompt []).llmClient.replies
      (f.dispatched prompt []).llmClient.requests.length = .response (final :: others') := by
    show f.llmClient.replies (f.llmClient.requests ++ [analyzeMessages prompt]).length = _
    rw [List.length_append, List.length_singleton]
    exact hmerge
  refine ⟨{ f.dispatched prompt [] with
      llmClient := ((f.dispatched prompt []).llmClient.GetCompletion
        (integrateMessages prompt [])).2 }, ?_, ?_, ?_⟩
  · rw [hexec]
    simp only [BaseFlow.integrateResults, LLMClient.GetCompletion, hidx]
  · show f.actCalls ++ [] = f.actCalls
    exact List.append_nil _
  · show (f.llmClient.requests ++ [analyzeMessages prompt]) ++ [integrateMessages prompt []] = _
    rw [List.append_assoc]
    have hmsg : integrateMessages prompt [] =
        [{ Role := "system", Content := integrateSystemPrompt },
         { Role := "user",
           Content := "原始任务：" ++ prompt ++ "\n\n各智能体执行结果：\n" }] := by
      simp [integrateMessages, String.join]
    rw [hmsg]
    rfl

/-- C29 (witness): the replies `{"reason": "nothing to do"}` (no `agents` member), and, by
evaluation, `{"agents": null}` and `{"agents": []}`. -/
theorem Execute_empty_selection_witness :
    (∃ f', (sampleFlow ["\x7b\"reason\": \"nothing to do\"\x7d", "merged"]).Execute [] "task" =
        .done ("merged", none) f' ∧
      f'.actCalls = (sampleFlow ["\x7b\"reason\": \"nothing to do\"\x7d", "merged"]).actCalls ∧
      f'.llmClient.requests =
        (sampleFlow ["\x7b\"reason\": \"nothing to do\"\x7d", "merged"]).llmClient.requests ++
        [analyzeMessages "task",
         [{ Role := "system", Content := integrateSystemPrompt },
          { Role := "user",
            Content := "原始任务：" ++ "task" ++ "\n\n各智能体执行结果：\n" }]]) ∧
      ∀ reply ∈ ["\x7b\"agents\": null\x7d", "\x7b\"agents\": []\x7d", "\x7b\x7d"],
        ((sampleFlow [reply, "merged"]).Execute [] "task").returned.map
            (fun r => (r.1, r.2.actCalls, r.2.userMessages)) =
          some (("merged", none), [], ["task", "原始任务：task\n\n各智能体执行结果：\n"]) :=
  ⟨Execute_empty_selection (sampleFlow ["\x7b\"reason\": \"nothing to do\"\x7d", "merged"]) []
      "task" "\x7b\"reason\": \"nothing to do\"\x7d" "merged" [] []
      [("reason", .str "nothing to do")] { Agents := [], Reason := "nothing to do" }
      (by rfl) (by rfl) (by rfl) (Or.inl (by decide)) (by rfl),
    by decide⟩

/-! ## `BaseAgent.Run` and the stall check -/

/-- On an agent in `Idle` without hooks, with room for three events and a context that is never
cancelled, `BaseAgent.Run` (whose `Think` reports no action) passes every iteration without
calling `Act` or `IsStuck` and returns nil after the last: the agent is in `Finished`, the step
counter is `max(MaxSteps, 0)` and the log is as it was. -/
theorem Run_all_steps (a : BaseAgent) (hidle : a.State = Idle)
    (hhooks : a.lifecycle = ⟨none, none, none, none, none, none, none⟩)
    (room : a.eventChan.length + 3 ≤ a.eventChanCap) :
    ∃ a' : BaseAgent,
      (∀ act : Nat → Except GoError String, a.Run (fun _ => false) act = .done none a') ∧
      a'.State = Finished ∧ a'.CurrentStep = max a.MaxSteps 0 ∧ a'.Memory = a.Memory := by
  let a3 : BaseAgent := { afterEmit (afterEmit a Initializing) Running with CurrentStep := 0 }
  let b : BaseAgent := { a3 with CurrentStep := a3.CurrentStep + a.MaxSteps.toNat }
  have hb : b.CurrentStep = max a.MaxSteps 0 := by
    show (0 : Int) + (a.MaxSteps.toNat : Int) = max a.MaxSteps 0
    omega
  have h1 : a.SetState Initializing = .done none (afterEmit a Initializing) :=
    SetState_no_hooks a Initializing hhooks (by rw [hidle]; decide) (by omega)
  have h2 : (afterEmit a Initializing).SetState Running =
      .done none (afterEmit (afterEmit a Initializing) Running) :=
    SetState_no_hooks _ Running hhooks
      (by show transitionError Initializing Running = none; decide)
      (by show (a.eventChan ++ [_]).length < a.eventChanCap; simp; omega)
  have h3 : b.SetState Finished = .done none (afterEmit b Finished) :=
    SetState_no_hooks b Finished hhooks (by show transitionError Running Finished = none; decide)
      (by show ((a.eventChan ++ [_]) ++ [_]).length < a.eventChanCap; simp; omega)
  refine ⟨afterEmit b Finished, fun act => ?_, rfl, hb, rfl⟩
  let env : RunEnv := { ctxDone := fun _ => false, think := fun _ => a.Think, act := act }
  show BaseAgent.RunWith env a = _
  unfold BaseAgent.RunWith
  rw [h1]
  simp only
  rw [h2]
  simp only
  show a3.runLoop env a.MaxSteps.toNat = _
  by_cases hM : 0 ≤ a.MaxSteps
  · have hreach : a3.loopAfter env a.MaxSteps.toNat = some b :=
      loopAfter_no_action env a.MaxSteps.toNat a3 (le_refl _)
        (by show (0 : Int) + (a.MaxSteps.toNat : Int) ≤ a.MaxSteps; omega) (fun i _ => ⟨rfl, rfl⟩)
    have hrun := runLoop_of_loopAfter env a.MaxSteps.toNat 0 a3 b hreach
    rw [Nat.add_zero] at hrun
    rw [hrun, BaseAgent.runLoop, h3]
  · have h0 : a.MaxSteps.toNat = 0 := by omega
    have hb0 : b = a3 := by
      show ({ a3 with CurrentStep := a3.CurrentStep + a.MaxSteps.toNat } : BaseAgent) = a3
      rw [h0]
      rfl
    rw [h0, BaseAgent.runLoop, ← hb0, h3]

theorem callHook_CurrentStep (a : BaseAgent) (hook : Option (Option GoError)) (call : HookCall)
    (record : Bool) : (callHook a hook call record).2.CurrentStep = a.CurrentStep := by
  unfold callHook
  rcases hook with _ | _ | e <;> cases record <;> rfl

theorem runLifecycle_CurrentStep (a : BaseAgent) (state : AgentState) :
    (runLifecycle a state).2.CurrentStep = a.CurrentStep := by
  unfold runLifecycle
  split_ifs <;> simp only [callHook_CurrentStep]
  · cases a.lifecycle.OnError <;> rfl

/-- C10 (amended): for every log that ends in `N >= 3` entries with identical content,
`IsStuck(2)` returns true.  With the outcomes of `Think` and `Act` taken as parameters: an
iteration of the loop of `Run` that is not cancelled, in which `Think` asks to act and `Act`
returns `r`, and after whose append the log ends so, returns at that step what
`SetState(Finished)` returns, which on an agent in `Running` with room in the event buffer is
the state `Finished` with the step counter of that iteration.  `BaseAgent.Run` as the
repository executes it calls `BaseAgent.Think`, which reports no action, so it never reaches
the stall check: started on a new agent whose log ends so, with any `MaxSteps` and a context
that is never cancelled, it passes all `MaxSteps` iterations and then returns nil in `Finished`
with the log as it was, whatever `Act` would return. -/
theorem Run_stops_on_repeated_tail (pre tail : List Message) (c : String)
    (hlen : 3 ≤ tail.length) (hsame : ∀ m ∈ tail, m.Content = c)
    (a : BaseAgent) (ha : a.Memory.Messages = pre ++ tail)
    (env : RunEnv) (n : Nat) (b : BaseAgent) (r : String)
    (hstep : b.CurrentStep < b.MaxSteps) (hctx : env.ctxDone b.CurrentStep.toNat = false)
    (hthink : env.think b.CurrentStep.toNat = .ok true)
    (hact : env.act b.CurrentStep.toNat = .ok r)
    (hmsgs : b.Memory.Messages ++ [⟨"assistant", r⟩] = pre ++ tail)
    (hrunning : b.State = Running) (hroom : b.eventChan.length < b.eventChanCap)
    (name : String) (llmClient : LLMClient) (tools : Option ToolCollection) (M : Int) :
    a.IsStuck 2 = true ∧
      b.runLoop env (n + 1) =
        BaseAgent.SetState { b with Memory := b.Memory.AddMessage ⟨"assistant", r⟩ } Finished ∧
      (∃ b', b.runLoop env (n + 1) = .done (b.lifecycle.hookFor Finished b.lastError).join b' ∧
        b'.State = Finished ∧ b'.CurrentStep = b.CurrentStep ∧
        b'.Memory.Messages = pre ++ tail) ∧
      ∃ a' : BaseAgent,
        (∀ act : Nat → Except GoError String,
          BaseAgent.Run (fun _ => false) act
            { NewBaseAgent name llmClient tools with
              MaxSteps := M, Memory := { Messages := pre ++ tail } } = .done none a') ∧
        a'.State = Finished ∧ a'.CurrentStep = max M 0 ∧ a'.Memory.Messages = pre ++ tail := by
  have hstuck : BaseAgent.IsStuck
      { b with Memory := b.Memory.AddMessage ⟨"assistant", r⟩ } 2 = true :=
    IsStuck_of_repeated_tail _ pre tail c hmsgs hlen hsame
  have hrun : b.runLoop env (n + 1) =
      BaseAgent.SetState { b with Memory := b.Memory.AddMessage ⟨"assistant", r⟩ } Finished := by
    simp only [BaseAgent.runLoop, hstep, if_true, hctx, hthink, hact, hstuck]
    rfl
  refine ⟨IsStuck_of_repeated_tail a pre tail c ha hlen hsame, hrun, ?_, ?_⟩
  · have hacc : transitionError b.State Finished = none := by
      rw [hrunning]
      decide
    let b1 : BaseAgent := { b with Memory := b.Memory.AddMessage ⟨"assistant", r⟩ }
    have heq := SetState_accepted_eq b1 Finished hacc hroom
    refine ⟨(runLifecycle (afterEmit b1 Finished) Finished).2, ?_, ?_, ?_, ?_⟩
    · rw [hrun, heq, runLifecycle_fst]
      rfl
    · rw [runLifecycle_State]
      rfl
    · rw [runLifecycle_CurrentStep]
      rfl
    · rw [runLifecycle_Memory]
      exact hmsgs
  · obtain ⟨a', h1, h2, h3, h4⟩ := Run_all_steps
      { NewBaseAgent name llmClient tools with
        MaxSteps := M, Memory := { Messages := pre ++ tail } } rfl rfl
      (by show (0 : Nat) + 3 ≤ 100; decide)
    exact ⟨a', h1, h2, h3, by rw [h4]⟩

/-- C10 (witness): the log `a, same, same` followed by a third `same`, appended by an iteration
of the started agent in which `Act` returns `same`; and `BaseAgent.Run` on the new agent
`worker` with that log and `MaxSteps = 10`. -/
theorem Run_stops_on_repeated_tail_witness :
    (agentWithLog ["a", "same", "same", "same"]).IsStuck 2 = true ∧
      BaseAgent.runLoop echoEnv (9 + 1)
          { runningAgent with Memory := (agentWithLog ["a", "same", "same"]).Memory } =
        BaseAgent.SetState
          { runningAgent with
            Memory := (agentWithLog ["a", "same", "same"]).Memory.AddMessage
              ⟨"assistant", "same"⟩ } Finished ∧
      (∃ b', BaseAgent.runLoop echoEnv (9 + 1)
            { runningAgent with Memory := (agentWithLog ["a", "same", "same"]).Memory } =
          .done (runningAgent.lifecycle.hookFor Finished runningAgent.lastError).join b' ∧
        b'.State = Finished ∧ b'.CurrentStep = runningAgent.CurrentStep ∧
        b'.Memory.Messages = [⟨"assistant", "a"⟩] ++
          [⟨"assistant", "same"⟩, ⟨"assistant", "same"⟩, ⟨"assistant", "same"⟩]) ∧
      ∃ a' : BaseAgent,
        (∀ act : Nat → Except GoError String,
          BaseAgent.Run (fun _ => false) act
            { NewBaseAgent "worker" silentLLM none with
              MaxSteps := 10
              Memory := { Messages := [⟨"assistant", "a"⟩] ++
                [⟨"assistant", "same"⟩, ⟨"assistant", "same"⟩, ⟨"assistant", "same"⟩] } } =
            .done none a') ∧
        a'.State = Finished ∧ a'.CurrentStep = max 10 0 ∧
        a'.Memory.Messages = [⟨"assistant", "a"⟩] ++
          [⟨"assistant", "same"⟩, ⟨"assistant", "same"⟩, ⟨"assistant", "same"⟩] :=
  Run_stops_on_repeated_tail [⟨"assistant", "a"⟩]
    [⟨"assistant", "same"⟩, ⟨"assistant", "same"⟩, ⟨"assistant", "same"⟩] "same"
    (by decide) (by decide) (agentWithLog ["a", "same", "same", "same"]) (by rfl)
    echoEnv 9 { runningAgent with Memory := (agentWithLog ["a", "same", "same"]).Memory } "same"
    (by decide) (by rfl) (by rfl) (by rfl) (by rfl) (by rfl) (by decide)
    "worker" silentLLM none 10

/-! ## The action grammar: the characterisation of success -/

theorem takeWhile_until_newline (payload rest : List Char) (hp : '\n' ∉ payload)
    (hrest : rest = [] ∨ ∃ r, rest = '\n' :: r) :
    (payload ++ rest).takeWhile (fun c => c != '\n') = payload := by
  induction payload with
  | nil =>
    rcases hrest with rfl | ⟨r, rfl⟩
    · rfl
    · simp [List.takeWhile]
  | cons c cs ih =>
    simp only [List.mem_cons, not_or] at hp
    have hc : (c != '\n') = true := by
      simp only [bne_iff_ne, ne_eq]
      exact fun h => hp.1 h.symm
    simp only [List.cons_append, List.takeWhile_cons, hc, if_true]
    rw [ih hp.2]

/-- The pattern at the head of a text of the shape of `matchActionAt_shape`. -/
theorem matchActionAt_of_shape (name payload rest : List Char) (hne : name ≠ [])
    (hw : ∀ c ∈ name, isWordChar c = true) (hp : '\n' ∉ payload)
    (hrest : rest = [] ∨ ∃ r, rest = '\n' :: r) :
    matchActionAt ("Action: ".data ++ (name ++ ("\nAction Input: ".data ++ (payload ++ rest)))) =
      some (name, payload) := by
  unfold matchActionAt
  rw [dropLiteral_append]
  have hsplit : "\nAction Input: ".data ++ (payload ++ rest) =
      '\n' :: ("Action Input: ".data ++ (payload ++ rest)) := rfl
  rw [hsplit]
  obtain ⟨h1, h2⟩ := takeWhile_word_append name ("Action Input: ".data ++ (payload ++ rest)) hw
  simp only [h1, h2]
  cases name with
  | nil => exact absurd rfl hne
  | cons w ws =>
    simp only
    have : dropLiteral "\nAction Input: ".data
        ('\n' :: ("Action Input: ".data ++ (payload ++ rest))) = some (payload ++ rest) :=
      dropLiteral_append "\nAction Input: ".data (payload ++ rest)
    rw [this]
    simp only [takeWhile_until_newline payload rest hp hrest]

/-- A literal that does not hold the character `c` and is not at the head of a text is not at
the head of that text followed by `c`. -/
theorem dropLiteral_none_append (lit pre tail : List Char) (c : Char) (hc : c ∉ lit)
    (h : dropLiteral lit pre = none) : dropLiteral lit (pre ++ c :: tail) = none := by
  induction lit generalizing pre with
  | nil => cases pre <;> simp [dropLiteral] at h
  | cons l ls ih =>
    simp only [List.mem_cons, not_or] at hc
    cases pre with
    | nil =>
      simp only [List.nil_append, dropLiteral]
      rw [if_neg (fun heq => hc.1 heq.symm)]
    | cons p ps =>
      simp only [List.cons_append, dropLiteral] at h ⊢
      by_cases hlp : l = p
      · rw [if_pos hlp] at h ⊢
        exact ih ps hc.2 h
      · rw [if_neg hlp]

/-- The search passes a text that does not hold `Action: ` when a text starting with `A`
follows it. -/
theorem findActionMatch_skip_before (pre tail : List Char)
    (hpre : hasSubstring "Action: ".data pre = false) :
    findActionMatch (pre ++ 'A' :: tail) = findActionMatch ('A' :: tail) := by
  induction pre with
  | nil => rfl
  | cons p ps ih =>
    simp only [hasSubstring, Bool.or_eq_false_iff] at hpre
    have hnone : dropLiteral "Action: ".data (p :: ps) = none := by
      cases hd : dropLiteral "Action: ".data (p :: ps) with
      | none => rfl
      | some r => rw [hd] at hpre; simp at hpre
    have hd : dropLiteral "Action: ".data ((p :: ps) ++ 'A' :: tail) = none := by
      have hlit : "Action: ".data = 'A' :: "ction: ".data := rfl
      rw [hlit] at hnone ⊢
      simp only [List.cons_append, dropLiteral] at hnone ⊢
      by_cases hA : 'A' = p
      · rw [if_pos hA] at hnone ⊢
        exact dropLiteral_none_append _ ps tail 'A' (by decide) hnone
      · rw [if_neg hA]
    have hm : matchActionAt ((p :: ps) ++ 'A' :: tail) = none := by
      unfold matchActionAt
      rw [hd]
    simp only [List.cons_append] at hm ⊢
    simp only [findActionMatch, hm]
    exact ih hpre.2

/-- C26 (amended): `parseLLMAction` succeeds only if the output holds, at some position, the
text `Action: ` followed by a non-empty run of word characters (the action returned) that ends
its line, and the immediately following line is `Action Input: ` followed by the payload, which
is the rest of that line and which decodes to the arguments returned.  The text before
`Action: ` is arbitrary: the occurrence need not begin a line.  Conversely, on an output of
this shape in which the text before that occurrence does not hold `Action: `,
`parseLLMAction` returns the run of word characters and the decoded payload when the payload
decodes, and the error of the decoder when it does not. -/
theorem parseLLMAction_grammar (llmOutput action : String) (params : Option JObject)
    (h : BaseAgent.parseLLMAction llmOutput = .ok (action, params))
    (pre name payload rest : List Char) (hpre : hasSubstring "Action: ".data pre = false)
    (hne : name ≠ []) (hw : ∀ c ∈ name, isWordChar c = true) (hp : '\n' ∉ payload)
    (hrest : rest = [] ∨ ∃ r, rest = '\n' :: r) :
    (∃ pre' name' payload' rest',
      llmOutput.data =
        pre' ++ ("Action: ".data ++
          (name' ++ ("\nAction Input: ".data ++ (payload' ++ rest')))) ∧
      action = String.mk name' ∧ name' ≠ [] ∧ (∀ c ∈ name', isWordChar c = true) ∧
      '\n' ∉ payload' ∧ (rest' = [] ∨ ∃ r, rest' = '\n' :: r) ∧
      jsonUnmarshalMap (String.mk payload') = .ok params) ∧
      BaseAgent.parseLLMAction (String.mk
          (pre ++ ("Action: ".data ++
            (name ++ ("\nAction Input: ".data ++ (payload ++ rest)))))) =
        match jsonUnmarshalMap (String.mk payload) with
        | .error err => .error ("解析工具参数失败: " ++ err.Error)
        | .ok p => .ok (String.mk name, p) := by
  constructor
  · unfold BaseAgent.parseLLMAction at h
    cases hm : findActionMatch llmOutput.data with
    | none => simp [hm] at h
    | some m =>
      obtain ⟨name', input⟩ := m
      simp only [hm] at h
      cases hj : jsonUnmarshalMap (String.mk input) with
      | error e => simp [hj] at h
      | ok p =>
        simp only [hj, Except.ok.injEq, Prod.mk.injEq] at h
        obtain ⟨pre', suffix, hcs, hs⟩ := findActionMatch_shape _ _ _ hm
        obtain ⟨rest', hsuf, h1, h2, h3, h4⟩ := matchActionAt_shape _ _ _ hs
        exact ⟨pre', name', input, rest', by rw [hcs, hsuf], h.1.symm, h1, h2, h3, h4,
          h.2 ▸ hj⟩
  · have hm := matchActionAt_of_shape name payload rest hne hw hp hrest
    have hcons : "Action: ".data ++ (name ++ ("\nAction Input: ".data ++ (payload ++ rest))) =
        'A' :: ("ction: ".data ++ (name ++ ("\nAction Input: ".data ++ (payload ++ rest)))) :=
      rfl
    have hfind : findActionMatch (pre ++ ("Action: ".data ++
        (name ++ ("\nAction Input: ".data ++ (payload ++ rest))))) = some (name, payload) := by
      rw [hcons] at hm ⊢
      rw [findActionMatch_skip_before pre _ hpre]
      simp only [findActionMatch, hm]
    unfold BaseAgent.parseLLMAction
    rw [hfind]

/-- C26 (witness): the output of the counterexample, with the text `I choose ` before the
match, as the successful call and as the text of the given shape. -/
theorem parseLLMAction_grammar_witness :
    (∃ pre' name' payload' rest',
      "I choose Action: shell\nAction Input: \x7b\x7d".data =
        pre' ++ ("Action: ".data ++
          (name' ++ ("\nAction Input: ".data ++ (payload' ++ rest')))) ∧
      "shell" = String.mk name' ∧ name' ≠ [] ∧ (∀ c ∈ name', isWordChar c = true) ∧
      '\n' ∉ payload' ∧ (rest' = [] ∨ ∃ r, rest' = '\n' :: r) ∧
      jsonUnmarshalMap (String.mk payload') = .ok (some [])) ∧
      BaseAgent.parseLLMAction (String.mk
          ("I choose ".data ++ ("Action: ".data ++
            ("shell".data ++ ("\nAction Input: ".data ++ ("\x7b\x7d".data ++ [])))))) =
        .ok ("shell", some []) :=
  parseLLMAction_grammar "I choose Action: shell\nAction Input: \x7b\x7d" "shell" (some [])
    (by rfl) "I choose ".data "shell".data "\x7b\x7d".data [] (by decide) (by decide)
    (by decide) (by decide) (Or.inl rfl)

/-! ## The action parser: the nesting depth -/

theorem nestedArrays_depth (k : Nat) : (nestedArrays k).depth = k + 1 := by
  induction k with
  | zero => rfl
  | succ k ih => simp only [nestedArrays, JValue.depth, depthElements, ih]; omega

theorem nestedArrays_wellFormed (k : Nat) : (nestedArrays k).wellFormed = true := by
  induction k with
  | zero => rfl
  | succ k ih => simp only [nestedArrays, JValue.wellFormed, wellFormedElements, ih]; rfl

theorem nestedArrays_compact_head (k : Nat) : ∃ r, (nestedArrays k).compact = '[' :: r := by
  cases k <;> exact ⟨_, rfl⟩

/-- With `d` objects and arrays open, the text of arrays nested more than
`maxNestingDepth - d` deep is rejected at the array that exceeds the limit. -/
theorem parseValue_nestedArrays (strict : Bool) (k d n : Nat) (rest : List Char)
    (hd : maxNestingDepth < d + (k + 1)) (hn : 2 * k + 1 ≤ n) :
    parseValue strict d n ((nestedArrays k).compact ++ rest) =
      .error (.invalidChar '[' "exceeded max depth") := by
  induction k generalizing d n rest with
  | zero =>
    obtain ⟨m, rfl⟩ : ∃ m, n = m + 1 := ⟨n - 1, by omega⟩
    have hd' : maxNestingDepth ≤ d := by omega
    simp only [nestedArrays, JValue.compact, compactElements, List.cons_append]
    rw [parseValue]
    simp [hd']
  | succ k ih =>
    obtain ⟨m, rfl⟩ : ∃ m, n = m + 2 := ⟨n - 2, by omega⟩
    obtain ⟨r, hr⟩ := nestedArrays_compact_head k
    by_cases hd' : maxNestingDepth ≤ d
    · simp only [nestedArrays, JValue.compact, List.cons_append]
      rw [parseValue]
      simp [hd']
    · have ih' := ih (d + 1) m (']' :: rest) (by omega) (by omega)
      simp only [nestedArrays, JValue.compact, compactElements, List.cons_append,
        List.append_assoc, List.singleton_append, List.nil_append]
      rw [parseValue]
      rw [hr] at ih' ⊢
      simp only [List.cons_append] at ih' ⊢
      simp only [skipSpace_cons '[' _ (by decide)]
      rw [parseElements, ih']
      simp [hd']

/-- An object with one member whose value is rejected is rejected with the same error. -/
theorem parseValue_member_error (strict : Bool) (d n : Nat) (key : String) (v : JValue)
    (rest : List Char) (e : JsonError) (hd : ¬ maxNestingDepth ≤ d)
    (hv : v.wellFormed = true)
    (h : parseValue strict (d + 1) n (v.compact ++ '}' :: rest) = .error e) :
    parseValue strict d (n + 2) ((JValue.obj [(key, v)]).compact ++ rest) = .error e := by
  obtain ⟨c, r, hc, hsp, -, -⟩ := compact_head v hv
  simp only [JValue.compact, compactMembers, quoteString, List.append_assoc, List.cons_append,
    List.singleton_append, List.nil_append]
  rw [parseValue]
  simp only [skipSpace_cons '"' _ (by decide)]
  rw [parseMembers]
  rw [hc] at h ⊢
  simp only [List.cons_append] at h ⊢
  simp [scanString_escapeString, skipSpace_cons ':' _ (by decide), skipSpace_cons c _ hsp, h, hd]

theorem nestedArrays_compact_length (k : Nat) :
    (nestedArrays k).compact.length = 2 * (k + 1) := by
  induction k with
  | zero => rfl
  | succ k ih =>
    simp only [nestedArrays, JValue.compact, compactElements, List.length_cons,
      List.length_append, List.length_singleton, List.length_nil, ih]
    omega

/-- The decoder rejects the compact text of a map whose one entry holds arrays nested
`maxNestingDepth` deep or deeper. -/
theorem jsonUnmarshalMap_nestedArrays (key : String) (k : Nat)
    (hk : maxNestingDepth ≤ k + 1) :
    jsonUnmarshalMap (String.mk (JValue.obj [(key, nestedArrays k)]).compact) =
      .error (.invalidChar '[' "exceeded max depth") := by
  have hlen : (JValue.obj [(key, nestedArrays k)]).compact.length =
      (quoteString key).length + 2 * (k + 1) + 3 := by
    simp only [JValue.compact, compactMembers, List.length_cons, List.length_append,
      List.length_singleton, List.length_nil, nestedArrays_compact_length]
    omega
  obtain ⟨m, hm, hfuel⟩ : ∃ m, 2 * (JValue.obj [(key, nestedArrays k)]).compact.length + 2 =
      m + 2 ∧ 2 * k + 1 ≤ m :=
    ⟨2 * (JValue.obj [(key, nestedArrays k)]).compact.length, rfl, by rw [hlen]; omega⟩
  have hv := parseValue_nestedArrays false k 1 m ['}'] (by omega) hfuel
  have hp := parseValue_member_error false 0 m key (nestedArrays k) [] _ (by decide)
    (nestedArrays_wellFormed k) hv
  rw [List.append_nil] at hp
  have hhead : ∃ r, (JValue.obj [(key, nestedArrays k)]).compact = '\x7b' :: r := ⟨_, rfl⟩
  obtain ⟨r, hr⟩ := hhead
  unfold jsonUnmarshalMap parseDocument
  simp only [hm]
  rw [hr] at hp ⊢
  rw [skipSpace_cons _ _ (by decide), hp]

theorem deepMap_wellFormed (key : String) (k : Nat) :
    (JValue.obj [(key, nestedArrays k)]).wellFormed = true := by
  simp only [JValue.wellFormed, wellFormedMembers, nestedArrays_wellFormed, Bool.and_self,
    Bool.true_and, List.map_cons, List.map_nil, List.nodup_cons, List.not_mem_nil,
    not_false_eq_true, List.nodup_nil, and_self, decide_True]

theorem deepMap_depth (key : String) (k : Nat) :
    (JValue.obj [(key, nestedArrays k)]).depth = k + 2 := by
  simp only [JValue.depth, depthMembers, nestedArrays_depth]
  omega

/-- A match of the pattern whose payload the decoder rejects: `parseLLMAction` returns the
error of the decoder behind a fixed prefix. -/
theorem parseLLMAction_of_decode_error (llmOutput : String) (name payload : List Char)
    (e : JsonError) (hfind : findActionMatch llmOutput.data = some (name, payload))
    (hdec : jsonUnmarshalMap (String.mk payload) = .error e) :
    BaseAgent.parseLLMAction llmOutput = .error ("解析工具参数失败: " ++ e.Error) := by
  simp only [BaseAgent.parseLLMAction, hfind, hdec]

/-- C5 (counterexample): the tool name `shell` is an identifier and `deepArguments` is a map as
a Go program holds it, with arrays nested 10000 deep in its one entry, so of depth 10001, one
more than `maxNestingDepth`.  The decoder rejects its compact text, and `parseLLMAction`
applied to the serialised action returns the error of the decoder behind the prefix of a
payload failure, not the pair. -/
theorem parseLLMAction_deep_arguments_rejected :
    isIdentifier "shell" = true ∧ (JValue.obj deepArguments).wellFormed = true ∧
      (JValue.obj deepArguments).depth = maxNestingDepth + 1 ∧
      (∃ err, jsonUnmarshalMap (String.mk (JValue.obj deepArguments).compact) = .error err ∧
        BaseAgent.parseLLMAction (actionText none "shell" deepArguments) =
          .error ("解析工具参数失败: " ++ err.Error)) ∧
      BaseAgent.parseLLMAction (actionText none "shell" deepArguments) ≠
        .ok ("shell", some deepArguments) := by
  have hname : isIdentifier "shell" = true := by decide
  have hwf : (JValue.obj deepArguments).wellFormed = true := deepMap_wellFormed "a" 9999
  have hdec : jsonUnmarshalMap (String.mk (JValue.obj deepArguments).compact) =
      .error (.invalidChar '[' "exceeded max depth") :=
    jsonUnmarshalMap_nestedArrays "a" 9999 (by decide)
  have hparse : BaseAgent.parseLLMAction (actionText none "shell" deepArguments) =
      .error ("解析工具参数失败: " ++
        (JsonError.invalidChar '[' "exceeded max depth").Error) :=
    parseLLMAction_of_decode_error _ _ _ _
      (findActionMatch_actionText none "shell" deepArguments hname hwf
        (fun t ht => by cases ht)) hdec
  refine ⟨hname, hwf, deepMap_depth "a" 9999, ⟨_, hdec, hparse⟩, ?_⟩
  rw [hparse]
  exact fun h => by cases h

end Munus
